import Mathlib

/-!
# Verification of the XSH expression engine against its specification

Shallow embedding of the `xsh-js` parse → evaluate pipeline
(`packages/core/usr/src/{parser,convert,commands,variables,rules}.ts`,
the core plugin rule set, and the `ext-js` template rules), together with
theorems settling the specification claims.

Modelling conventions:
* JS dynamic values are the inductive type `Value`; numbers are exact
  rationals (all arithmetic exercised here is exact in IEEE doubles);
  `Promise` objects are the constructor `Value.vprom` holding their
  resolution; closures stored into scopes by the template rules are
  defunctionalised as `Value.vfun` over `FnData`.
* Mutation of the scope object and of the process-global variable store is
  explicit state passing of `St`; nested-object mutation through `setVar`
  is a functional path update.
* `async` evaluation is modelled sequentially: every `await` resolves
  immediately to the promise's content (`awaitV`); microtask interleaving
  is outside the model.
* Fallible code returns `Except Err`; the engine's internal `Continue`
  signal is the error `Err.cont` caught at ladder boundaries; recursion
  through `exec`/`convert` re-entry is bounded by explicit fuel, with
  exhaustion the distinguished error `Err.fuel`.
-/

set_option maxHeartbeats 1000000

namespace Xsh

/-! ## Exact rational numbers

Mathlib's `Rat` arithmetic normalizes through `Nat.gcd`, which is compiled
by well-founded recursion and therefore opaque to the kernel; the theorems
below evaluate the engine on concrete programs, so the model uses its own
canonical-form rationals with a structurally fueled Euclid. -/

/-- Euclid's algorithm on structural fuel (`a` strictly decreases each
step, so `a + 2` units always suffice). -/
def gcdF : Nat → Nat → Nat → Nat
  | 0, _, b => b
  | f + 1, a, b => if a = 0 then b else gcdF f (b % a) a

/-- An exact rational in lowest terms: `den > 0` and `gcd (num, den) = 1`
by construction through `qMk`, canonical zero `0/1`.  Models the JS
numbers of this engine (every computation exercised is exact in IEEE
doubles). -/
structure Q where
  num : Int
  den : Nat
deriving DecidableEq, Repr

/-- Normalized constructor; the unused zero denominator (JS would give
`Infinity`/`NaN`, which the engine's programs never produce) maps to 0. -/
def qMk (n d : Int) : Q :=
  if d = 0 then ⟨0, 1⟩
  else
    let na := n.natAbs
    let da := d.natAbs
    let g := gcdF (na + 2) na da
    let m : Int := if (0 ≤ n) = (0 ≤ d) then 1 else -1
    ⟨m * ((na / g : Nat) : Int), da / g⟩

instance (n : Nat) : OfNat Q n := ⟨⟨(n : Int), 1⟩⟩

instance : NatCast Q := ⟨fun n => ⟨(n : Int), 1⟩⟩

instance : IntCast Q := ⟨fun n => ⟨n, 1⟩⟩

instance : Neg Q := ⟨fun a => ⟨-a.num, a.den⟩⟩

instance : Add Q := ⟨fun a b => qMk (a.num * (b.den : Int) + b.num * (a.den : Int)) ((a.den : Int) * (b.den : Int))⟩

instance : Sub Q := ⟨fun a b => qMk (a.num * (b.den : Int) - b.num * (a.den : Int)) ((a.den : Int) * (b.den : Int))⟩

instance : Mul Q := ⟨fun a b => qMk (a.num * b.num) ((a.den : Int) * (b.den : Int))⟩

/-- JS division; a zero divisor (JS `Infinity`, unexercised) maps to 0. -/
instance : Div Q := ⟨fun a b => qMk (a.num * (b.den : Int)) ((a.den : Int) * b.num)⟩

/-- Comparison by cross-multiplication (denominators are positive). -/
def qLeB (a b : Q) : Bool := a.num * (b.den : Int) ≤ b.num * (a.den : Int)

/-- Strict comparison by cross-multiplication. -/
def qLtB (a b : Q) : Bool := a.num * (b.den : Int) < b.num * (a.den : Int)

instance : LE Q := ⟨fun a b => qLeB a b = true⟩

instance : LT Q := ⟨fun a b => qLtB a b = true⟩

instance (a b : Q) : Decidable (a ≤ b) := inferInstanceAs (Decidable (_ = true))

instance (a b : Q) : Decidable (a < b) := inferInstanceAs (Decidable (_ = true))

/-- Defunctionalised closures that the engine stores into scopes: the
`ext-js` template rules wrap directive evaluation into parameterless
functions (`scope[varName] = () => ...`); each carries the captured
command text, the captured line terminator where present, and the
`async` flag of the storing context. -/
inductive FnData where
  /-- Line-directive thunk of the `ext-js` `command` rule (3rd revision):
  captures `command` and the `end` group. -/
  | tplLine (command : String) (endg : String) (asy : Bool)
  /-- Block-directive thunk of the `ext-js` `template` rule: captures
  `command`, the block body, the `end` group and the match offset. -/
  | tplBlock (command : String) (block : String) (endg : String) (off : Nat) (asy : Bool)
  /-- Thunk stored by the core `inlineCommand` template rule. -/
  | inlineCmd (command : String) (asy : Bool)
  /-- Thunk stored by the core `varConst` template rule. -/
  | varConst (name : String) (asy : Bool)
  /-- Thunk stored by the core `runConst` template rule. -/
  | runConst (name : String) (asy : Bool)
deriving DecidableEq, Repr

/-- JS dynamic values as handled by the engine: null, undefined, booleans,
numbers (exact rationals), strings, arrays, plain objects (ordered fields),
promises (carrying their resolution) and the defunctionalised closures.
Object and array identity is modelled structurally. -/
inductive Value where
  | vnull
  | vundef
  | vbool (b : Bool)
  | vnum (q : Q)
  | vstr (s : String)
  | varr (xs : List Value)
  | vobj (fs : List (String × Value))
  | vprom (v : Value)
  | vfun (d : FnData)

namespace Value

/-- JS `value == null` (true exactly for `null` and `undefined`). -/
def isNullish : Value → Bool
  | vnull => true
  | vundef => true
  | _ => false

/-- Is the value exactly `undefined`? -/
def isUndef : Value → Bool
  | vundef => true
  | _ => false

/-- JS `??`: keep the left value unless it is nullish. -/
def orElse (a b : Value) : Value := if a.isNullish then b else a

/-- `isString` of `utilities.ts`. -/
def isStringV : Value → Bool
  | vstr _ => true
  | _ => false

/-- `isPromise` of `utilities.ts` (`value instanceof Promise`). -/
def isPromiseV : Value → Bool
  | vprom _ => true
  | _ => false

/-- `isFunction` of `utilities.ts` (`typeof value === 'function'`). -/
def isFunctionV : Value → Bool
  | vfun _ => true
  | _ => false

/-- `isArray` of `utilities.ts`. -/
def isArrayV : Value → Bool
  | varr _ => true
  | _ => false

/-- `isObject` of `utilities.ts` (`value instanceof Object`): arrays,
plain objects, promises and functions are all objects. -/
def isObjectV : Value → Bool
  | varr _ => true
  | vobj _ => true
  | vprom _ => true
  | vfun _ => true
  | _ => false

/-- JS truthiness (`if (res)`): `false`, `0`, the empty string, `null`
and `undefined` are falsy, everything else truthy. -/
def truthy : Value → Bool
  | vnull => false
  | vundef => false
  | vbool b => b
  | vnum q => !(q = 0)
  | vstr s => !(s = "")
  | _ => true

/-- JS `await`: unwrap promise layers (a settled promise never resolves to
a promise, so repeated unwrapping models thenable flattening). -/
def awaitV : Value → Value
  | vprom v => awaitV v
  | v => v

/-- A value is deferred-free: no `Promise` occurs anywhere inside it. -/
def noProm : Value → Bool
  | vnull => true
  | vundef => true
  | vbool _ => true
  | vnum _ => true
  | vstr _ => true
  | varr xs => go xs
  | vobj fs => goF fs
  | vprom _ => false
  | vfun _ => true
where
  /-- deferred-freedom of an array's elements -/
  go : List Value → Bool
    | [] => true
    | x :: xs => noProm x && go xs
  /-- deferred-freedom of an object's field values -/
  goF : List (String × Value) → Bool
    | [] => true
    | (_, v) :: fs => noProm v && goF fs

/-- JS `===` (the `eqv` math rule): same type and same value; object
comparison, by-reference in JS, is modelled structurally. -/
def strictEq : Value → Value → Bool
  | vnull, vnull => true
  | vundef, vundef => true
  | vbool a, vbool b => a = b
  | vnum a, vnum b => a = b
  | vstr a, vstr b => a = b
  | varr a, varr b => go a b
  | vobj a, vobj b => goF a b
  | vprom a, vprom b => strictEq a b
  | vfun a, vfun b => a = b
  | _, _ => false
where
  /-- element-wise array comparison -/
  go : List Value → List Value → Bool
    | [], [] => true
    | x :: xs, y :: ys => strictEq x y && go xs ys
    | _, _ => false
  /-- field-wise object comparison -/
  goF : List (String × Value) → List (String × Value) → Bool
    | [], [] => true
    | (k, v) :: fs, (l, w) :: gs => k = l && strictEq v w && goF fs gs
    | _, _ => false

end Value

open Value

/-- Behaviours the engine can signal besides a value: the structured error
kinds of `exceptions.ts`, the internal `Continue` signal (with its optional
payload), a native JS `TypeError` (e.g. property access on a non-object),
and fuel exhaustion of the embedding. -/
inductive Err where
  | cont (payload : Option Value)
  | propertyNotFound
  | propertyTypeMismatch
  | propertyRequired
  | parameterTypeInvalid
  | variableTypeInvalid
  | assertFailed
  | argumentsLengthInvalid
  | wrongArgumentPosition
  | mathResultInvalid
  | jsTypeError
  | fuel

/-- Association-list lookup modelling JS property read on a plain object
(`obj[key]`): first binding wins, absent keys read as no binding. -/
def aGet : List (String × Value) → String → Option Value
  | [], _ => none
  | (k, v) :: fs, key => if k = key then some v else aGet fs key

/-- Association-list write modelling JS property assignment: an existing
key is updated in place (JS keeps the original insertion position), a new
key is appended. -/
def aSet : List (String × Value) → String → Value → List (String × Value)
  | [], key, v => [(key, v)]
  | (k, w) :: fs, key, v =>
    if k = key then (k, v) :: fs else (k, w) :: aSet fs key v

/-- JS-observable read: an absent key reads as `undefined`. -/
def jsGet (fs : List (String × Value)) (key : String) : Value :=
  (aGet fs key).getD Value.vundef

/-- Engine state: the per-call scope object and the process-global
variable store `VARS` (`variables.ts`), both mutable during evaluation. -/
structure St where
  scope : List (String × Value)
  vars : List (String × Value)

/-- The empty state: fresh scope, empty global store. -/
def St.empty : St := ⟨[], []⟩

/-- All values bound in a state are deferred-free ("a scope containing no
deferred values", including the global store it composes with). -/
def St.noPromSt (st : St) : Bool :=
  (st.scope.all fun p => p.2.noProm) && (st.vars.all fun p => p.2.noProm)


/-- JS `String.prototype.split` with a non-empty separator: scan left to
right, emitting a piece at every occurrence (kept executable by structural
fuel; one unit per character, so `length + 1` never runs out). -/
def splitGo (sep : List Char) : Nat → List Char → List Char → List (List Char)
  | 0, acc, _ => [acc.reverse]
  | _ + 1, acc, [] => [acc.reverse]
  | f + 1, acc, c :: cs =>
    if sep.isPrefixOf (c :: cs) then
      acc.reverse :: splitGo sep f [] (List.drop (sep.length - 1) cs)
    else splitGo sep f (c :: acc) cs

/-- JS `s.split(sep)` (the engine never splits on an empty separator; we
return the string whole in that unused case). -/
def splitStr (s sep : String) : List String :=
  if sep.data.isEmpty then [s]
  else (splitGo sep.data (s.length + 1) [] s.data).map (fun l => ⟨l⟩)

/-- JS `\s` on the ASCII range. -/
def isWsC (c : Char) : Bool :=
  c = ' ' || c = '\t' || c = '\n' || c = '\r' || c = '\x0b' || c = '\x0c'

/-- JS `String.prototype.trim` on the ASCII whitespace of this model. -/
def trimStr (s : String) : String :=
  ⟨((s.data.dropWhile isWsC).reverse.dropWhile isWsC).reverse⟩

/-- `String.startsWith`. -/
def strStarts (s pre : String) : Bool := pre.data.isPrefixOf s.data

/-- `String.endsWith`. -/
def strEnds (s suf : String) : Bool := suf.data.isSuffixOf s.data

/-- `String.toLowerCase` (ASCII). -/
def lowerStr (s : String) : String := ⟨s.data.map Char.toLower⟩

/-- `String.toUpperCase` (ASCII). -/
def upperStr (s : String) : String := ⟨s.data.map Char.toUpper⟩

/-! ## JS primitive coercions -/

/-- Lowercase hexadecimal digit. -/
def hexDigit (n : Nat) : Char :=
  if n < 10 then Char.ofNat (48 + n) else Char.ofNat (87 + n)

/-- Two lowercase hexadecimal digits of a byte. -/
def hexByte (n : Nat) : List Char := [hexDigit (n / 16 % 16), hexDigit (n % 16)]

/-- Decimal digits of a natural number. -/
def natDigits (n : Nat) : String := toString n

/-- Fractional decimal digits of `n / d` (`n < d`), up to the given number
of places (terminating decimals of the values arising here are exact). -/
def fracDigits : Nat → Nat → Nat → String
  | 0, _, _ => ""
  | _, 0, _ => ""
  | f + 1, n, d => natDigits (n * 10 / d) ++ fracDigits f (n * 10 % d) d

/-- JS `String(number)` for the exact rationals of this model: integers
print without a decimal point, other values with their decimal expansion
(exact for the dyadic values IEEE doubles can hold). -/
def jsNumToString (q : Q) : String :=
  if q.den = 1 then toString q.num
  else
    (if q < 0 then "-" else "") ++ natDigits (q.num.natAbs / q.den) ++ "." ++
      fracDigits 30 (q.num.natAbs % q.den) q.den

/-- String shape accepted by the `isNumber` convert rule (`/^-?\d+$/`). -/
def isIntLit (s : String) : Bool :=
  match s.data with
  | '-' :: rest => !rest.isEmpty && rest.all Char.isDigit
  | cs => !cs.isEmpty && cs.all Char.isDigit

/-- Digit run to a natural number. -/
def digitsToNat (cs : List Char) : Nat :=
  cs.foldl (fun acc c => acc * 10 + (c.toNat - 48)) 0

/-- JS `parseInt` on a string matching `/^-?\d+$/`. -/
def parseIntLit (s : String) : Int :=
  match s.data with
  | '-' :: rest => -(digitsToNat rest : Int)
  | cs => (digitsToNat cs : Int)

/-- String shape accepted by the `isFloat` convert rule (`/^-?\d+\.\d+$/`). -/
def isFloatLit (s : String) : Bool :=
  match splitStr s "." with
  | [ip, fp] => isIntLit ip && !fp.isEmpty && fp.data.all Char.isDigit
  | _ => false

/-- JS `parseFloat` on a string matching `/^-?\d+\.\d+$/`, as an exact
rational. -/
def parseFloatLit (s : String) : Q :=
  match splitStr s "." with
  | [ip, fp] =>
    let frac : Q := ((digitsToNat fp.data : Int) : Q) / (((10 : Int) ^ fp.length : Int) : Q)
    if ip.data.head? = some '-' then parseIntLit ip - frac else parseIntLit ip + frac
  | _ => 0

/-- JS `ToNumber` on a string, for the string shapes this engine feeds to
`==` (`none` models NaN). -/
def toNumberStr (s : String) : Option Q :=
  let t := trimStr s
  if t = "" then some 0
  else if isIntLit t then some ((parseIntLit t : Int) : Q)
  else if isFloatLit t then some (parseFloatLit t)
  else none

mutual

/-- JS `String(value)`: the coercion the engine meets through property
keys and `join`. -/
def jsToString : Value → String
  | .vnull => "null"
  | .vundef => "undefined"
  | .vbool b => if b then "true" else "false"
  | .vnum q => jsNumToString q
  | .vstr s => s
  | .varr xs => jsJoin xs
  | .vobj _ => "[object Object]"
  | .vprom _ => "[object Promise]"
  | .vfun _ => "function"

/-- `Array.prototype.toString` / `join(",")`: `null` and `undefined`
elements print as empty. -/
def jsJoin : List Value → String
  | [] => ""
  | [x] => if x.isNullish then "" else jsToString x
  | x :: xs => (if x.isNullish then "" else jsToString x) ++ "," ++ jsJoin xs

end

/-- `Array.prototype.join(delim)` as used by the README `concat` command. -/
def jsJoinWith (delim : String) : List Value → String
  | [] => ""
  | [x] => if x.isNullish then "" else jsToString x
  | x :: xs => (if x.isNullish then "" else jsToString x) ++ delim ++ jsJoinWith delim xs

/-- Canonical array index encoded by a property key string (JS array
access `arr[key]` hits an element only for canonical numeric keys). -/
def strToIndex (s : String) : Option Nat :=
  if s = "0" then some 0
  else match s.data with
    | c :: cs => if c.isDigit ∧ c ≠ '0' ∧ cs.all Char.isDigit
        then some (digitsToNat (c :: cs)) else none
    | [] => none

/-- JS `ToPrimitive` as met by `==` on the objects of this model. -/
def toPrimStr (v : Value) : String := jsToString v

/-- JS `==` (the `eq` math rule): null and undefined equate with each
other only; numbers, strings and booleans coerce; objects against
primitives compare through `ToPrimitive`; object against object is
reference equality in JS, modelled structurally. -/
def looseEq (a b : Value) : Bool :=
  match a, b with
  | .vnull, .vnull => true
  | .vnull, .vundef => true
  | .vundef, .vnull => true
  | .vundef, .vundef => true
  | .vnull, _ => false
  | .vundef, _ => false
  | _, .vnull => false
  | _, .vundef => false
  | .vnum x, .vnum y => x = y
  | .vstr x, .vstr y => x = y
  | .vbool x, .vbool y => x = y
  | .vnum x, .vstr s => (toNumberStr s).elim false (x = ·)
  | .vstr s, .vnum y => (toNumberStr s).elim false (· = y)
  | .vbool x, .vnum y => (if x then (1 : Q) else 0) = y
  | .vnum x, .vbool y => x = (if y then (1 : Q) else 0)
  | .vbool x, .vstr s => (toNumberStr s).elim false ((if x then (1 : Q) else 0) = ·)
  | .vstr s, .vbool y => (toNumberStr s).elim false (· = (if y then (1 : Q) else 0))
  | .vbool x, o => (toNumberStr (toPrimStr o)).elim false ((if x then (1 : Q) else 0) = ·)
  | o, .vbool y => (toNumberStr (toPrimStr o)).elim false (· = (if y then (1 : Q) else 0))
  | .vnum x, o => (toNumberStr (toPrimStr o)).elim false (x = ·)
  | o, .vnum y => (toNumberStr (toPrimStr o)).elim false (· = y)
  | .vstr s, o => s = toPrimStr o
  | o, .vstr s => toPrimStr o = s
  | o, p => Value.strictEq o p

/-- JS property read `obj[key]` for the value shapes the engine traverses:
array elements by canonical numeric key plus `length`, object fields by
coerced key, `undefined` everywhere else. -/
def propGet (v : Value) (key : Value) : Value :=
  match v with
  | .varr xs =>
    let k := jsToString key
    if k = "length" then .vnum (xs.length : Nat)
    else match strToIndex k with
      | some i => (xs.get? i).getD .vundef
      | none => .vundef
  | .vobj fs => jsGet fs (jsToString key)
  | _ => Value.vundef

/-- JS `Object.hasOwn(obj, key) && obj[key] != null`, the test of
`checkProperty` (`utilities.ts`); a native `TypeError` when the receiver
is not an object. -/
def hasOwnNonNull (v : Value) (key : String) : Except Err Bool :=
  match v with
  | .vnull => .error .jsTypeError
  | .vundef => .error .jsTypeError
  | .varr xs =>
    match strToIndex key with
    | some i => .ok (!((xs.get? i).getD .vundef).isNullish && i < xs.length)
    | none => .ok (key = "length")
  | .vobj fs => .ok (!(jsGet fs key).isNullish && (aGet fs key).isSome)
  | _ => .ok false

/-! ## Names, hashes and helpers of `variables.ts` / `functions.ts` -/

/-- Modelled from the spec: `md5` of `functions.ts` (the file is not under
`src/`; only its callers are). The spec needs only that placeholder names
are content hashes in lowercase hexadecimal that do not collide; we model
the hash as the injective hexadecimal encoding of the string's bytes. -/
def md5 (s : String) : String :=
  ⟨(s.data.map (fun c => hexByte (c.toNat % 256))).flatten⟩

/-- `getVariableHash` of `variables.ts`: hash of the source string as a
variable name, with the reserved `_` second... first character for system
names. -/
def getVariableHash (inputString : String) (isSystem : Bool := false) : String :=
  (if isSystem then "_" else "") ++ md5 inputString

/-- `isVariable` of `variables.ts`. -/
def isVariableStr (inputString : String) : Bool := strStarts inputString "$"

/-- `isRunnableVariable` of `variables.ts`. -/
def isRunnableVariableStr (inputString : String) : Bool := strStarts inputString "$$"

/-- `getVariableName` of `variables.ts`. -/
def getVariableName (name : String) : String := "$" ++ name

/-- `getRunnableVariableName` of `variables.ts`. -/
def getRunnableVariableName (name : String) : String := "$$" ++ name

/-- `getConstName` of `variables.ts`. -/
def getConstName (name : String) : String :=
  "__XSH_VAR_" ++ upperStr name ++ "__"

/-- `getRunnableConstName` of `variables.ts`. -/
def getRunnableConstName (name : String) (isSystem : Bool := false) : String :=
  "__XSH_" ++ (if isSystem then "SYSTEM" else "RUN") ++ "_" ++ upperStr name ++ "__"

/-- Modelled from the spec: `stripSlashes` of `functions.ts` — removes the
backslash escapes of a quoted literal (`\x` becomes `x`). -/
def stripSlashes (s : String) : String := ⟨go s.data⟩
where
  /-- drop each backslash, keeping the escaped character -/
  go : List Char → List Char
    | [] => []
    | '\\' :: c :: rest => c :: go rest
    | c :: rest => c :: go rest

/-- Modelled from the spec: `convertToCamelCase` of `functions.ts` —
"convert `name` from kebab-case to camelCase" (§4.3), also used with `_`
to turn `TEST_VAR_2` into `testVar2`: the first fragment is lowercased,
every later fragment is capitalised. -/
def convertToCamelCase (s : String) (sep : String) : String :=
  match splitStr s sep with
  | [] => ""
  | p :: ps => lowerStr p ++ String.join (ps.map capitalize)
where
  /-- uppercase first letter, lowercase rest -/
  capitalize (p : String) : String :=
    match p.data with
    | [] => ""
    | c :: cs => ⟨c.toUpper :: (cs.map Char.toLower)⟩

/-! ## `variables.ts`: `getVar` and `setVar` -/

/-- The simple-name branch of `getVar`:
`scope[name] ?? VARS[name] ?? defaultValue`. -/
def getVarStr (st : St) (name : String) (dflt : Value) : Value :=
  ((jsGet st.scope name).orElse ((jsGet st.vars name).orElse dflt))

/-- One step of `getVar`'s promise continuation (`res.then(...)`): inside
the continuation a nullish resolution propagates, otherwise the property
is read (a bound method keeps its value in this defunctionalised model). -/
def thenStep (key : Value) (r : Value) : Value :=
  if r.isNullish then r
  else propGet r key

/-- The path-walking loop of `getVar` over the remaining keys, including
its early returns: a promise defers every remaining step into the
continuation; a nullish link returns `res ?? defaultValue` at once; after
the loop a promise result resolves to `res ?? defaultValue`. -/
def getVarWalk (dflt : Value) : Value → List Value → Value
  | res, [] =>
    match res with
    | .vprom v => .vprom ((Value.awaitV v).orElse dflt)
    | res => res.orElse dflt
  | res, key :: rest =>
    match res with
    | .vprom v => getVarWalk dflt (.vprom (thenStep key (Value.awaitV v))) rest
    | res =>
      if res.isNullish then res.orElse dflt
      else
        let item := propGet res key
        if item.isNullish then item.orElse dflt
        else getVarWalk dflt item rest

/-- `getVar` of `variables.ts`: a simple name reads
`scope[name] ?? VARS[name] ?? defaultValue`; a sequence of keys resolves
the head and walks the remaining keys promise-transparently; any other
name shape fails the `prepareParam` type check. -/
def getVar (st : St) (name : Value) (dflt : Value := .vundef) : Except Err Value :=
  match name with
  | .vstr s => .ok (getVarStr st s dflt)
  | .varr ns =>
    match ns with
    | [] => .error .parameterTypeInvalid
    | n0 :: rest => do
      let head ← getVar st n0 dflt
      .ok (getVarWalk dflt head rest)
  | _ => .error .parameterTypeInvalid

/-- `getProperty` of `utilities.ts`: `checkProperty` then the read —
fails with `PropertyNotFound` when the property is absent or nullish
(note that a `Promise` receiver has no own properties, so reading through
it fails here already). -/
def getPropertyE (cur : Value) (key : String) : Except Err Value := do
  let b ← hasOwnNonNull cur key
  if b then .ok (propGet cur (.vstr key)) else .error .propertyNotFound

/-- JS property assignment `cur[key] = value` as a functional update:
objects and arrays are updated (array writes pad with holes read back as
`undefined`); assignment onto a `Promise` object stores a property the
engine can never observe again, hence a no-op here; primitives silently
ignore the write (sloppy mode); `null`/`undefined` receivers raise a
native `TypeError`. -/
def assignOn (cur : Value) (key : String) (value : Value) : Except Err Value :=
  match cur with
  | .vnull => .error .jsTypeError
  | .vundef => .error .jsTypeError
  | .vobj fs => .ok (.vobj (aSet fs key value))
  | .varr xs =>
    match strToIndex key with
    | some i =>
      if i < xs.length then .ok (.varr (xs.set i value))
      else .ok (.varr (xs ++ List.replicate (i - xs.length) .vundef ++ [value]))
    | none => .ok (.varr xs)
  | cur => .ok cur

/-- The traversal loop of `setVar` over the keys after the head, mirroring
the source's order of operations: `getProperty` first, then the (therefore
unreachable for genuine promises) `isPromise(res)` check on the value the
loop is standing on — so the value traversed at the final position before
the assignment is never promise-checked. -/
def setVarGo (value : Value) : Value → List Value → Except Err Value
  | cur, [] => assignOn cur "undefined" value
  | cur, [k] => assignOn cur (jsToString k) value
  | cur, k :: rest => do
    let item ← getPropertyE cur (jsToString k)
    if cur.isPromiseV then .error .propertyTypeMismatch
    else do
      let new ← setVarGo value item rest
      assignOn cur (jsToString k) new

/-- `setVar` of `variables.ts`: a simple (string or number) name writes
the process-global store `VARS`; a key sequence reads `VARS[name[0]]`,
rejects a `Promise` there, traverses all but the last key and assigns;
other name shapes fail the `prepareParam` type check. -/
def setVar (st : St) (name : Value) (value : Value) : Except Err St :=
  match name with
  | .vstr s => .ok { st with vars := aSet st.vars s value }
  | .vnum q => .ok { st with vars := aSet st.vars (jsNumToString q) value }
  | .varr ns =>
    match ns with
    | [] => .error .jsTypeError
    | n0 :: rest => do
      let key0 := jsToString n0
      let res0 := jsGet st.vars key0
      if res0.isPromiseV then .error .propertyTypeMismatch
      else do
        let new ←
          match rest with
          | [] => assignOn res0 key0 value
          | _ => setVarGo value res0 rest
        .ok { st with vars := aSet st.vars key0 new }
  | _ => .error .parameterTypeInvalid

/-! ## The normalizer (`parse`-category rules of the core plugin) -/

/-- JS `\s` on the ASCII range. -/
def isWs (c : Char) : Bool := isWsC c

/-- A quote character of the `brackets` rule. -/
def isQuote (c : Char) : Bool := c = '"' || c = '\'' || c = '`'

/-- Find the matching closing quote not preceded by a backslash (the lazy
body of the `brackets` regexp; `.` does not cross newlines), tracking the
previous original character for the `(?<!\\)` lookbehind. -/
def findClose (q : Char) : List Char → Option Char → Option (List Char × List Char)
  | [], _ => none
  | c :: rest, prev =>
    if c = '\n' then none
    else if c = q && prev ≠ some '\\' then some ([], rest)
    else (findClose q rest (some c)).map (fun p => (c :: p.1, p.2))

/-- Scanner of the `brackets` parse rule: each quoted literal is
de-escaped, stored in the scope under its hash name, and replaced by
`$hash`; the previous original character feeds the `(?<!\\)` lookbehind. -/
def bracketsGo : Nat → List Char → Option Char → St → List Char × St
  | 0, cs, _, st => (cs, st)
  | _ + 1, [], _, st => ([], st)
  | f + 1, c :: rest, prev, st =>
    if isQuote c && prev ≠ some '\\' then
      match findClose c rest (some c) with
      | some (body, remaining) =>
        let value := stripSlashes ⟨body⟩
        let name := getVariableHash value true
        let st' := { st with scope := aSet st.scope name (.vstr value) }
        let (out, st'') := bracketsGo f remaining (some c) st'
        ((getVariableName name).data ++ out, st'')
      | none =>
        let (out, st') := bracketsGo f rest (some c) st
        (c :: out, st')
    else
      let (out, st') := bracketsGo f rest (some c) st
      (c :: out, st')

/-- The `brackets` parse rule (order −1000).  The fuel `length + 1` is
never exhausted: every step consumes at least one character
(`findClose_length`). -/
def bracketsPass (s : String) (st : St) : String × St :=
  let (out, st) := bracketsGo (s.length + 1) s.data none st
  (⟨out⟩, st)

/-- The `trimBorders` parse rule (order −900): strip leading and trailing
whitespace. -/
def trimBordersPass (s : String) : String :=
  ⟨((s.data.dropWhile isWs).reverse.dropWhile isWs).reverse⟩

/-- The `trimSpaces` parse rule (order −800): each run of two or more
whitespace characters becomes a single space (a lone whitespace character
is left as it is). Every step consumes at least one character, so fuel
`length + 1` is never exhausted. -/
def trimSpacesGo : Nat → List Char → List Char
  | 0, cs => cs
  | _, [] => []
  | f + 1, c :: rest =>
    if isWs c then
      match rest with
      | d :: _ =>
        if isWs d then ' ' :: trimSpacesGo f (rest.dropWhile isWs)
        else c :: trimSpacesGo f rest
      | [] => [c]
    else c :: trimSpacesGo f rest

/-- String form of the `trimSpaces` rule. -/
def trimSpacesPass (s : String) : String := ⟨trimSpacesGo (s.length + 1) s.data⟩

/-- The ordered operator alternatives of the `trimMath` regexp. -/
def trimMathOps : List String :=
  [",", ":", "||", "&&", "??", "===", "!==", "==", "!=", ">=", "<=", ">",
   "<", "+", "*", "/", "|", "%"]

/-- First alternative of the `trimMath` regexp that matches at this
position, with the rest of the input (the regexp's alternatives are all
nonempty, recorded in the guard). -/
def matchOp : List String → List Char → Option (String × List Char)
  | [], _ => none
  | op :: ops, cs =>
    if op.data ≠ [] ∧ op.data.isPrefixOf cs then some (op, cs.drop op.length)
    else matchOp ops cs

/-- Scanner of the `trimMath` parse rule (order −700): whitespace around
any occurrence of an operator alternative is removed (the `\s*…\s*` match
is replaced by the bare operator). -/
def trimMathGo : Nat → List Char → List Char
  | 0, cs => cs
  | _, [] => []
  | f + 1, c :: rest =>
    match matchOp trimMathOps (if isWs c then rest.dropWhile isWs else c :: rest) with
    | some (op, rest') => op.data ++ trimMathGo f (rest'.dropWhile isWs)
    | none => c :: trimMathGo f rest

/-- String form of the `trimMath` rule. -/
def trimMathPass (s : String) : String := ⟨trimMathGo (s.length + 1) s.data⟩

/-- An opening brace of the `trimBraces` rule. -/
def isOpener (c : Char) : Bool := c = '[' || c = '(' || c = '{'

/-- A closing brace of the `trimBraces` rule. -/
def isCloser (c : Char) : Bool := c = ')' || c = '}' || c = ']'

/-- First half of the `trimBraces` parse rule (order −600): drop
whitespace directly after `[`, `(` or `{`. -/
def trimBracesOpenGo : Nat → List Char → List Char
  | 0, cs => cs
  | _, [] => []
  | f + 1, c :: rest =>
    if isOpener c then c :: trimBracesOpenGo f (rest.dropWhile isWs)
    else c :: trimBracesOpenGo f rest

/-- Second half of the `trimBraces` parse rule: drop whitespace directly
before `)`, `}` or `]`. -/
def trimBracesCloseGo : Nat → List Char → List Char
  | 0, cs => cs
  | _, [] => []
  | f + 1, c :: rest =>
    if isWs c then
      match rest.dropWhile isWs with
      | d :: rest' =>
        if isCloser d then d :: trimBracesCloseGo f rest'
        else c :: trimBracesCloseGo f rest
      | [] => c :: trimBracesCloseGo f rest
    else c :: trimBracesCloseGo f rest

/-- String form of the `trimBraces` rule (both regexps, in order). -/
def trimBracesPass (s : String) : String :=
  ⟨trimBracesCloseGo (s.length + 1) (trimBracesOpenGo (s.length + 1) s.data)⟩

/-- Context characters allowed before a negative number by the `minus`
regexp's lookbehind. -/
def minusPrevChars : List Char :=
  ['[', '(', '{', '*', '/', '+', ',', '&', '|', '>', '<', '=', '%', '?', ':', ';']

/-- Context characters allowed after a negative number by the `minus`
regexp's lookahead. -/
def minusNextChars : List Char :=
  [']', ')', '}', '*', '/', '+', ',', '&', '|', '!', '>', '<', '=', '%', '?', ';']

/-- The `(?<=…)` lookbehind of the `minus` rule (start of input counts). -/
def minusPrevOk : Option Char → Bool
  | none => true
  | some c => isWs c || minusPrevChars.contains c

/-- The `(?=…)` lookahead of the `minus` rule (end of input counts). -/
def minusNextOk : List Char → Bool
  | [] => true
  | d :: _ => isWs d || minusNextChars.contains d

/-- The optional fraction `(\.\d+)?` after the integer digits of the
`minus` rule: its characters and the remaining input (a failing greedy
fraction cannot be rescued by backtracking because `.` never satisfies
the lookahead, exactly as in the regexp). -/
def minusTail (afterInt : List Char) : List Char × List Char :=
  match afterInt with
  | c :: r2 =>
    if c = '.' then
      if (r2.takeWhile Char.isDigit).isEmpty then ([], c :: r2)
      else ('.' :: r2.takeWhile Char.isDigit, r2.drop (r2.takeWhile Char.isDigit).length)
    else ([], c :: r2)
  | [] => ([], [])

/-- Scanner of the `minus` parse rule (order −500): a negative numeric
token in operator/boundary context is parsed, stored in the scope under
its hash name, and replaced by `$hash`. -/
def minusGo : Nat → List Char → Option Char → St → List Char × St
  | 0, cs, _, st => (cs, st)
  | _, [], _, st => ([], st)
  | f + 1, c :: rest, prev, st =>
    if c = '-' && minusPrevOk prev then
      let digits := rest.takeWhile Char.isDigit
      if digits.isEmpty then
        let (out, st') := minusGo f rest (some c) st
        (c :: out, st')
      else
        let numchars := '-' :: digits ++ (minusTail (rest.drop digits.length)).1
        let after := (minusTail (rest.drop digits.length)).2
        if minusNextOk after then
          let value : String := ⟨numchars⟩
          let name := getVariableHash value true
          let stored : Value :=
            if isIntLit value then .vnum (parseIntLit value)
            else if isFloatLit value then .vnum (parseFloatLit value)
            else .vstr value
          let st' := { st with scope := aSet st.scope name stored }
          let (out, st'') := minusGo f after numchars.getLast? st'
          ((getVariableName name).data ++ out, st'')
        else
          let (out, st') := minusGo f rest (some c) st
          (c :: out, st')
    else
      let (out, st') := minusGo f rest (some c) st
      (c :: out, st')

/-- String form of the `minus` rule. -/
def minusPass (s : String) (st : St) : String × St :=
  let (out, st) := minusGo (s.length + 1) s.data none st
  (⟨out⟩, st)

/-- Scanner of one regexp of the `braces` parse rule (order −400): each
innermost `open…close` group (no nested braces of the same kind inside)
is stored verbatim, braces included, under its hash name, and replaced by
`$$hash`. -/
def braceExtractGo (openc closec : Char) : Nat → List Char → St → List Char × St
  | 0, cs, st => (cs, st)
  | _, [], st => ([], st)
  | f + 1, c :: rest, st =>
    if c = openc then
      let seg := rest.takeWhile (fun d => d ≠ openc && d ≠ closec)
      match rest.drop seg.length with
      | d :: rest' =>
        if d = closec then
          let full : String := ⟨openc :: (seg ++ [closec])⟩
          let name := getVariableHash full true
          let st' := { st with scope := aSet st.scope name (.vstr full) }
          let (out, st'') := braceExtractGo openc closec f rest' st'
          ((getRunnableVariableName name).data ++ out, st'')
        else
          let (out, st') := braceExtractGo openc closec f rest st
          (c :: out, st')
      | [] =>
        let (out, st') := braceExtractGo openc closec f rest st
        (c :: out, st')
    else
      let (out, st') := braceExtractGo openc closec f rest st
      (c :: out, st')

/-- The `braces` parse rule: its three regexps in array order
(parentheses, brackets, curly braces), each applied once. -/
def bracesPass (s : String) (st : St) : String × St :=
  let (s1, st) := braceExtractGo '(' ')' (s.length + 1) s.data st
  let (s2, st) := braceExtractGo '[' ']' (s1.length + 1) s1 st
  let (s3, st) := braceExtractGo '{' '}' (s2.length + 1) s2 st
  (⟨s3⟩, st)

/-- The whole normalizer: the `parse`-category rules in ascending order
(−1000 `brackets`, −900 `trimBorders`, −800 `trimSpaces`, −700
`trimMath`, −600 `trimBraces`, −500 `minus`, −400 `braces`), as applied
by the `replacer` at the head of every `parseCommand` call. -/
def applyParseRules (s : String) (st : St) : String × St :=
  let (s, st) := bracketsPass s st
  let s := trimBordersPass s
  let s := trimSpacesPass s
  let s := trimMathPass s
  let s := trimBracesPass s
  let (s, st) := minusPass s st
  bracesPass s st

/-! ## The command splitter (`parser.ts` `parseCommand`) -/

/-- The seven command-operator rules of the core plugin, identified by
name; registered orders −1000 … −400 put them in this sequence. -/
inductive OpKind where
  | endOp | fail | success | nullish | context | out | param
deriving DecidableEq, Repr

/-- The operator literal (`key`) of each command rule. -/
def OpKind.key : OpKind → String
  | .endOp => ";"
  | .fail => "||"
  | .success => "&&"
  | .nullish => "??"
  | .context => "|"
  | .out => ">>"
  | .param => " "

/-- The command-rule category, sorted by `order`. -/
def commandRules : List OpKind :=
  [.endOp, .fail, .success, .nullish, .context, .out, .param]

/-- The subcommand tree: a leaf is a raw string, an internal node is the
ordered children together with the operator rule that split them. -/
inductive SubCommand where
  | leaf (s : String)
  | node (op : OpKind) (children : List SubCommand)

mutual

/-- `parseCommand` of `parser.ts`, with the remaining rule suffix in
place of the numeric index: apply the normalizer, then try the current
delimiter — if its key occurs, split on it and recurse on every piece
with the next index, otherwise recurse with the next index; past the last
rule the string is a leaf.  `g` is structural fuel bounding the call
depth (seven rule levels, each piece list no longer than its string);
the entry point passes enough for it never to run out. -/
def parseCommandAux : Nat → List OpKind → String → St → SubCommand × St
  | 0, _, command, st => (.leaf command, st)
  | g + 1, rules, command, st =>
    let (command, st) := applyParseRules command st
    match rules with
    | [] => (.leaf command, st)
    | r :: rest =>
      let pieces := splitStr command r.key
      if pieces.length > 1 then
        let (children, st) := parseCommandPieces g rest pieces st
        (.node r children, st)
      else parseCommandAux g rest command st
termination_by structural g => g

/-- Parse every split piece with the next delimiter index, threading the
scope. -/
def parseCommandPieces : Nat → List OpKind → List String → St → List SubCommand × St
  | 0, _, _, st => ([], st)
  | _ + 1, _, [], st => ([], st)
  | g + 1, rules, p :: ps, st =>
    let (c, st) := parseCommandAux g rules p st
    let (cs, st) := parseCommandPieces g rules ps st
    (c :: cs, st)
termination_by structural g => g

end

/-- Entry: `parseCommand(command, scope)` starts at index 0. -/
def parseCommand (command : String) (st : St) : SubCommand × St :=
  parseCommandAux (4096 * (command.length + 2)) commandRules command st

/-! ## `commands.ts`: registry and `execFn` argument binding -/

/-- An argument descriptor (`CommandArg`): name, `required?`, `variadic?`
and the `default` value (`dflt`; `none` models an absent property). -/
structure ArgDesc where
  name : String
  required : Bool := false
  variadic : Bool := false
  dflt : Option Value := none

/-- A registered command: callback (modelled as a pure function of the
bound argument vector), single-character flag weights, and the ordered
argument descriptors. -/
structure Cmd where
  callback : List Value → Value
  flags : List (String × Nat) := []
  args : List ArgDesc := []

/-- The command storage `COMMANDS`, keyed by name. -/
abbrev Registry := List (String × Cmd)

/-- `isCommandCallable` of `commands.ts`. -/
def isCommandCallable (reg : Registry) (name : String) : Bool :=
  (reg.lookup name).isSome

/-- The compiled name → (position, descriptor) map (`namedArgs`); a later
duplicate name overwrites an earlier one, hence the last match wins. -/
def namedIndex (args : List ArgDesc) (key : String) : Option (Nat × ArgDesc) :=
  args.enum.foldl (fun acc p => if p.2.name = key then some p else acc) none

/-- Read of the sparse `callbackArgs` JS array: holes and out-of-range
reads give `undefined`. -/
def caGet (arr : List (Option Value)) (i : Nat) : Value :=
  ((arr.get? i).getD none).getD Value.vundef

/-- Write into the sparse `callbackArgs` JS array, extending its length
with holes as needed. -/
def caSet (arr : List (Option Value)) (i : Nat) (v : Value) : List (Option Value) :=
  let arr := if arr.length ≤ i then arr ++ List.replicate (i + 1 - arr.length) none else arr
  arr.set i (some v)

/-- The mutable locals of the `execFn` binding loop besides the remaining
input tokens. -/
structure BindSt where
  key : Option String := none
  optional : Bool := false
  variadic : Bool := false
  callbackArgs : List (Option Value) := []
  lastArgs : List Value := []

/-- The mode value accumulated so far (`callbackArgs[modeInd] as number
?? 0`). -/
def modeOf (v : Value) : Nat :=
  match v with
  | .vnum q => if q.den = 1 ∧ 0 ≤ q.num then q.num.toNat else 0
  | _ => 0

/-- OR-combine the flag weights of a short-flag run (`-abc`), failing
`PropertyNotFound` on a character absent from the command's flag table. -/
def foldFlags (flags : List (String × Nat)) : List Char → Nat → Except Err Nat
  | [], m => .ok m
  | ch :: chs, m =>
    match flags.lookup (String.singleton ch) with
    | some w => foldFlags flags chs (m ||| w)
    | none => .error .propertyNotFound

mutual

/-- The `while (args.length)` loop of `execFn` for one positional
descriptor `i`: drains input tokens, handling `--name` long options,
`-xyz` short-flag runs and plain tokens; a `break` returns the remaining
tokens. Mirrors `commands.ts` lines 303–370. -/
def innerLoop (cmd : Cmd) (scope : Value) (i : Nat) :
    Nat → List Value → BindSt → Except Err (List Value × BindSt)
  | 0, _, _ => .error .fuel
  | _ + 1, [], b => .ok ([], b)
  | f + 1, arg :: rest, b =>
    match arg with
    | .vstr s =>
      if strStarts s "--" then
        if b.variadic then .error .wrongArgumentPosition
        else
          let b := { b with optional := true }
          let b :=
            match b.key with
            | some k =>
              match namedIndex cmd.args k with
              | some (ki, kd) =>
                if !kd.variadic then { b with callbackArgs := caSet b.callbackArgs ki (.vbool true) }
                else b
              | none => b
            | none => b
          let newKey := convertToCamelCase (s.drop 2) "-"
          match namedIndex cmd.args newKey with
          | some _ => innerLoop cmd scope i f rest { b with key := some newKey }
          | none => .error .propertyNotFound
      else if strStarts s "-" then
        if b.variadic then .error .wrongArgumentPosition
        else
          match namedIndex cmd.args "mode" with
          | none => .error .propertyNotFound
          | some (mi, _) => do
            let mode ← foldFlags cmd.flags (s.drop 1).data (modeOf (caGet b.callbackArgs mi))
            innerLoop cmd scope i f rest { b with callbackArgs := caSet b.callbackArgs mi (.vnum mode) }
      else innerPlain cmd scope i f arg rest b
    | _ => innerPlain cmd scope i f arg rest b
termination_by structural f => f

/-- The plain-token branch of the `while` loop: a pending `--key` takes
the token as its value (`break`) or collects it when the key is variadic;
otherwise the token fills the current positional slot (`break`), starts
positional variadic collection, or — once an option has appeared — fails
`WrongArgumentPosition`. -/
def innerPlain (cmd : Cmd) (scope : Value) (i : Nat) :
    Nat → Value → List Value → BindSt → Except Err (List Value × BindSt)
  | 0, _, _, _ => .error .fuel
  | f + 1, arg, rest, b =>
    match b.key with
    | some k =>
      match namedIndex cmd.args k with
      | some (ki, kd) =>
        if !kd.variadic then
          let v := if arg.isNullish then kd.dflt.getD .vundef else arg
          .ok (rest, { b with callbackArgs := caSet b.callbackArgs ki v, key := none })
        else innerLoop cmd scope i f rest { b with lastArgs := b.lastArgs ++ [arg] }
      | none => .error .propertyNotFound
    | none =>
      if !b.optional then
        match cmd.args.get? i with
        | some d =>
          if d.variadic then
            innerLoop cmd scope i f rest { b with lastArgs := b.lastArgs ++ [arg], variadic := true }
          else
            let v := if arg.isNullish then d.dflt.getD .vundef else arg
            .ok (rest, { b with callbackArgs := caSet b.callbackArgs i v })
        | none => .error .jsTypeError
      else .error .wrongArgumentPosition
termination_by structural f => f

end

/-- The `for` loop of `execFn` over the declared positional descriptors:
`scope` binds the scope, `mode` is skipped (filled after the loop),
a non-last variadic fails, then the `while` loop drains tokens and the
post-steps apply (dangling key becomes `true`, `??=` default, required
check). Mirrors `commands.ts` lines 284–393. -/
def outerLoop (cmd : Cmd) (scope : Value) :
    List ArgDesc → Nat → List Value → BindSt → Except Err (List Value × BindSt)
  | [], _, args, b => .ok (args, b)
  | d :: ds, i, args, b =>
    if d.name = "scope" then
      outerLoop cmd scope ds (i + 1) args { b with callbackArgs := caSet b.callbackArgs i scope }
    else if d.name = "mode" then
      outerLoop cmd scope ds (i + 1) args b
    else if d.variadic && !ds.isEmpty then .error .wrongArgumentPosition
    else do
      let (args, b) ← innerLoop cmd scope i (2 * args.length + 2) args b
      let b :=
        match b.key with
        | some k =>
          match namedIndex cmd.args k with
          | some (ki, kd) =>
            if !kd.variadic then { b with callbackArgs := caSet b.callbackArgs ki (.vbool true) }
            else b
          | none => b
        | none => b
      let b :=
        if !d.variadic then
          if (caGet b.callbackArgs i).isNullish then
            { b with callbackArgs := caSet b.callbackArgs i (d.dflt.getD .vundef) }
          else b
        else b
      if d.required &&
          ((!d.variadic && (caGet b.callbackArgs i).isNullish) ||
            (d.variadic && b.lastArgs.length == 0)) then
        .error .propertyRequired
      else outerLoop cmd scope ds (i + 1) args b

/-- `execFn` after the command is located: run the binding loops, apply
the `mode` default, reject leftover tokens of an argument-less command,
and invoke `callback(...callbackArgs, ...lastArgs)`. -/
def bindAndCall (cmd : Cmd) (args : List Value) (scope : Value) : Except Err Value := do
  let (args, b) ← outerLoop cmd scope cmd.args 0 args {}
  let b :=
    match namedIndex cmd.args "mode" with
    | some (mi, md) =>
      if (caGet b.callbackArgs mi).isNullish then
        let dv := match md.dflt with
          | some v => if v.isNullish then Value.vnum 0 else v
          | none => Value.vnum 0
        { b with callbackArgs := caSet b.callbackArgs mi dv }
      else b
    | none => b
  if cmd.args.length = 0 ∧ args.length > 0 then .error .argumentsLengthInvalid
  else .ok (cmd.callback ((b.callbackArgs.map (fun o => o.getD .vundef)) ++ b.lastArgs))

/-! ## The math rules and `parseMath` -/

/-- The thirteen math rules of the core plugin, in registration order
(they all share the default `order`, so insertion order is kept). -/
inductive MathOp where
  | ge | le | eqv | neq | eq | ne | gt | lt | add | sub | mul | div | mod
deriving DecidableEq, Repr

/-- The operator literal (`key`) of each math rule. -/
def MathOp.key : MathOp → String
  | .ge => ">=" | .le => "<=" | .eqv => "===" | .neq => "!==" | .eq => "=="
  | .ne => "!=" | .gt => ">" | .lt => "<" | .add => "+" | .sub => "-"
  | .mul => "*" | .div => "/" | .mod => "%"

/-- The math-rule category in iteration order. -/
def mathRules : List MathOp :=
  [.ge, .le, .eqv, .neq, .eq, .ne, .gt, .lt, .add, .sub, .mul, .div, .mod]

/-- `prepareProperty(context, operand, NUMBER)`: any non-number operand
(including nullish values) fails with `PropertyTypeMismatch`. -/
def prepareNum (v : Value) : Except Err Q :=
  match v with
  | .vnum q => .ok q
  | _ => .error .propertyTypeMismatch

/-- JS `%` (remainder with the dividend's sign) on exact rationals; a
zero divisor, NaN in JS, is out of the model's value range and maps to 0. -/
def jsMod (a b : Q) : Q :=
  if b = 0 then 0 else a - b * (((Int.tdiv (a / b).num (a / b).den : Int) : Int) : Q)

/-- The enumerable own fields a spread `{...v}` sees. -/
def spreadFields : Value → List (String × Value)
  | .vobj fs => fs
  | .varr xs => xs.enum.map (fun p => (toString p.1, p.2))
  | _ => []

/-- The `add` math callback: array ⧺ array concatenates, object ⊎ object
merges right-biased, numbers add, anything else concatenates as strings
(both operands have already passed the number/string/array/object
check). -/
def addCallback (a b : Value) : Except Err Value := do
  let check : Value → Except Err Unit := fun v =>
    match v with
    | .vnum _ => .ok () | .vstr _ => .ok () | .varr _ => .ok ()
    | .vobj _ => .ok () | .vprom _ => .ok () | .vfun _ => .ok ()
    | _ => .error .propertyTypeMismatch
  check a
  check b
  match a, b with
  | .varr xs, .varr ys => .ok (.varr (xs ++ ys))
  | a, b =>
    if a.isObjectV && b.isObjectV then
      .ok (.vobj ((spreadFields b).foldl (fun acc p => aSet acc p.1 p.2) (spreadFields a)))
    else
      match a, b with
      | .vnum x, .vnum y => .ok (.vnum (x + y))
      | a, b => .ok (.vstr (jsToString a ++ jsToString b))

/-- One math rule callback on two operands (`part_002`, `math`
category). -/
def mathCallback (op : MathOp) (a b : Value) : Except Err Value :=
  match op with
  | .ge => do .ok (.vbool ((← prepareNum a) ≥ (← prepareNum b)))
  | .le => do .ok (.vbool ((← prepareNum a) ≤ (← prepareNum b)))
  | .eqv => .ok (.vbool (Value.strictEq a b))
  | .neq => .ok (.vbool (!Value.strictEq a b))
  | .eq => .ok (.vbool (looseEq a b))
  | .ne => .ok (.vbool (!looseEq a b))
  | .gt => do .ok (.vbool ((← prepareNum a) > (← prepareNum b)))
  | .lt => do .ok (.vbool ((← prepareNum a) < (← prepareNum b)))
  | .add => addCallback a b
  | .sub => do .ok (.vnum ((← prepareNum a) - (← prepareNum b)))
  | .mul => do .ok (.vnum ((← prepareNum a) * (← prepareNum b)))
  | .div => do .ok (.vnum ((← prepareNum a) / (← prepareNum b)))
  | .mod => do .ok (.vnum (jsMod (← prepareNum a) (← prepareNum b)))

/-- The operand fold of `parseMath` (`convert.ts` lines 66–93): left fold
under the rule's callback; a `Continue` signal replaces the accumulator
with its payload, if any, and proceeds. -/
def parseMathGo (op : MathOp) : Value → List Value → Except Err Value
  | res, [] => .ok res
  | res, y :: ys =>
    match mathCallback op res y with
    | .ok r => parseMathGo op r ys
    | .error (.cont p) => parseMathGo op (p.getD res) ys
    | .error e => .error e

/-- `parseMath(rule, operands, scope)`. -/
def parseMath (op : MathOp) (operands : List Value) : Except Err Value :=
  match operands with
  | [] => .ok .vundef
  | x :: rest => parseMathGo op x rest

/-- The `HAS_MATH` test
(`/(===|!==|==|!=|>=|<=|>|<|-|\+|\*|\/|%)/`): equivalent to containing
one of the single-character operators or the two-character cores `==` or
`!=`. -/
def hasMathStr (s : String) : Bool :=
  s.data.any (fun c => c ∈ ['>', '<', '-', '+', '*', '/', '%']) ||
    (splitStr s "==").length > 1 || (splitStr s "!=").length > 1

/-- The rule loop of `isMath`: the first math rule whose key splits the
string into at least two parts. -/
def findMathSplit : List MathOp → String → Option (MathOp × List String)
  | [], _ => none
  | m :: ms, s =>
    let parts := splitStr s m.key
    if parts.length > 1 then some (m, parts) else findMathSplit ms s

/-! ## Generic rule-ladder and operator-fold combinators

The converter ladders and the command-operator folds are list recursions
over an abstract child evaluator `ex`; the engine instantiates `ex` with
the (fuel-indexed) mutual evaluator below, and the claim theorems reason
about the folds for arbitrary `ex`. -/

/-- JS `await` applied only in async mode. -/
def aw (asy : Bool) (v : Value) : Value := if asy then v.awaitV else v

/-- `await` of a rule or callback result (`return await callback(...)` in
the async converter). -/
def awRes (asy : Bool) (r : Except Err (Value × St)) : Except Err (Value × St) :=
  r.map (fun p => (aw asy p.1, p.2))

/-- The converter's rule ladder (`convertSync` / `convertAsync` loops):
try each rule; `Continue` moves on, replacing the value with the payload
when one is carried; exhaustion returns the value unchanged. -/
def ladderRun : List (Value → St → Except Err (Value × St)) → Value → St →
    Except Err (Value × St)
  | [], v, st => .ok (v, st)
  | r :: rs, v, st =>
    match r v st with
    | .error (.cont p) => ladderRun rs (p.getD v) st
    | other => other

/-- Is a subcommand an empty string after trimming
(`isEmptyString(part, true)`; a complex node is never empty)? -/
def subIsEmpty : SubCommand → Bool
  | .leaf s => trimStr s = ""
  | .node _ _ => false

/-- The `;` (`end`) operator fold: execute each child in order, an empty
child setting the running result to `undefined`; the result is the value
left by the last child. -/
def endFoldG (ex : SubCommand → St → Except Err (Value × St)) :
    List SubCommand → Value → St → Except Err (Value × St)
  | [], res, st => .ok (res, st)
  | part :: parts, _, st =>
    if subIsEmpty part then endFoldG ex parts .vundef st
    else
      match ex part st with
      | .ok (r, st') => endFoldG ex parts r st'
      | .error e => .error e

/-- The `||` (`fail`) operator fold: return the first truthy child
result, else the last result (`undefined` for no children). -/
def failFoldG (ex : SubCommand → St → Except Err (Value × St)) :
    List SubCommand → St → Except Err (Value × St)
  | [], st => .ok (.vundef, st)
  | part :: parts, st =>
    match ex part st with
    | .ok (r, st') =>
      if r.truthy then .ok (r, st')
      else
        match parts with
        | [] => .ok (r, st')
        | _ => failFoldG ex parts st'
    | .error e => .error e

/-- The `&&` (`success`) operator fold: return the first falsy child
result, else the last result. -/
def successFoldG (ex : SubCommand → St → Except Err (Value × St)) :
    List SubCommand → St → Except Err (Value × St)
  | [], st => .ok (.vundef, st)
  | part :: parts, st =>
    match ex part st with
    | .ok (r, st') =>
      if !r.truthy then .ok (r, st')
      else
        match parts with
        | [] => .ok (r, st')
        | _ => successFoldG ex parts st'
    | .error e => .error e

/-- The `??` (`nullish`) operator fold: return the first non-nullish
child result, else the last result. -/
def nullishFoldG (ex : SubCommand → St → Except Err (Value × St)) :
    List SubCommand → St → Except Err (Value × St)
  | [], st => .ok (.vundef, st)
  | part :: parts, st =>
    match ex part st with
    | .ok (r, st') =>
      if !r.isNullish then .ok (r, st')
      else
        match parts with
        | [] => .ok (r, st')
        | _ => nullishFoldG ex parts st'
    | .error e => .error e

/-- The `|` (`context`) operator fold: before each child the old
`scope.context` is saved and — when the running result is not
`undefined` — `scope.context` is set to it; after the child the saved
value is restored. -/
def contextFoldG (ex : SubCommand → St → Except Err (Value × St)) :
    List SubCommand → Value → St → Except Err (Value × St)
  | [], res, st => .ok (res, st)
  | part :: parts, res, st =>
    let prevContext := jsGet st.scope "context"
    let st :=
      match res with
      | .vundef => st
      | _ => { st with scope := aSet st.scope "context" res }
    match ex part st with
    | .ok (r, st') =>
      contextFoldG ex parts r { st' with scope := aSet st'.scope "context" prevContext }
    | .error e => .error e

/-- The assignment loop of the `>>` (`out`) operator over the children
after the first: each evaluates to a name which receives the result via
`setVar`. -/
def outAssignG (ex : SubCommand → St → Except Err (Value × St)) (res : Value) :
    List SubCommand → St → Except Err St
  | [], st => .ok st
  | p :: ps, st =>
    match ex p st with
    | .ok (varName, st') =>
      match setVar st' varName res with
      | .ok st'' => outAssignG ex res ps st''
      | .error e => .error e
    | .error e => .error e

/-- The `>>` (`out`) operator fold: execute the first child, assign its
result to every following name, and return the result. -/
def outFoldG (ex : SubCommand → St → Except Err (Value × St)) :
    List SubCommand → St → Except Err (Value × St)
  | [], _ => .error .jsTypeError
  | first :: rest, st =>
    match ex first st with
    | .ok (res, st') =>
      match outAssignG ex res rest st' with
      | .ok st'' => .ok (res, st'')
      | .error e => .error e
    | .error e => .error e

/-- `convertArray`'s element loop over an abstract converter, threading
the state. -/
def convertListG (cv : Value → St → Except Err (Value × St)) :
    List Value → St → Except Err (List Value × St)
  | [], st => .ok ([], st)
  | x :: xs, st => do
    let (v, st) ← cv x st
    let (vs, st) ← convertListG cv xs st
    .ok (v :: vs, st)

/-- `convertObjectFromEntities`' loop: each entry converts its key then
its value (`convertEntityItem`), a pair-wise `Promise.all` resolving both
in async mode. -/
def convertEntriesG (cv : Value → St → Except Err (Value × St)) (asy : Bool) :
    List (Value × Value) → St → Except Err (List (Value × Value) × St)
  | [], st => .ok ([], st)
  | (k, v) :: items, st => do
    let (k', st) ← cv k st
    let (v', st) ← cv v st
    let p := if asy then (k'.awaitV, v'.awaitV) else (k', v')
    let (ps, st) ← convertEntriesG cv asy items st
    .ok (p :: ps, st)

/-! ## Pure convert rules (no recursion into the evaluator) -/

/-- The `isString` convert rule (order −9999): a non-string is already a
value. -/
def rIsString (v : Value) (st : St) : Except Err (Value × St) :=
  if !v.isStringV then .ok (v, st) else .error (.cont none)

/-- The `isNull` convert rule (order −9800). -/
def rIsNull (v : Value) (st : St) : Except Err (Value × St) :=
  match v with
  | .vstr s => if lowerStr s = "null" then .ok (.vnull, st) else .error (.cont none)
  | _ => .error (.cont none)

/-- The `isUndefined` convert rule (order −9700). -/
def rIsUndefined (v : Value) (st : St) : Except Err (Value × St) :=
  match v with
  | .vstr s => if lowerStr s = "undefined" then .ok (.vundef, st) else .error (.cont none)
  | _ => .error (.cont none)

/-- The `isEmptyString` convert rule (order −9600). -/
def rIsEmptyString (v : Value) (st : St) : Except Err (Value × St) :=
  match v with
  | .vstr s => if s = "" then .ok (.vstr "", st) else .error (.cont none)
  | _ => .error (.cont none)

/-- The `isTrue` convert rule (order −9500). -/
def rIsTrue (v : Value) (st : St) : Except Err (Value × St) :=
  match v with
  | .vstr s => if lowerStr s = "true" then .ok (.vbool true, st) else .error (.cont none)
  | _ => .error (.cont none)

/-- The `isFalse` convert rule (order −9400). -/
def rIsFalse (v : Value) (st : St) : Except Err (Value × St) :=
  match v with
  | .vstr s => if lowerStr s = "false" then .ok (.vbool false, st) else .error (.cont none)
  | _ => .error (.cont none)

/-- The `isNumber` convert rule (order −9300). -/
def rIsNumber (v : Value) (st : St) : Except Err (Value × St) :=
  match v with
  | .vstr s => if isIntLit s then .ok (.vnum (parseIntLit s), st) else .error (.cont none)
  | _ => .error (.cont none)

/-- The `isFloat` convert rule (order −9300, inserted after `isNumber`). -/
def rIsFloat (v : Value) (st : St) : Except Err (Value × St) :=
  match v with
  | .vstr s => if isFloatLit s then .ok (.vnum (parseFloatLit s), st) else .error (.cont none)
  | _ => .error (.cont none)

/-- The `isKeys` convert rule (order −1000): a token starting with `-` is
an optional-parameter or mode marker and passes through as-is. -/
def rIsKeys (v : Value) (st : St) : Except Err (Value × St) :=
  match v with
  | .vstr s => if strStarts s "-" then .ok (.vstr s, st) else .error (.cont none)
  | _ => .error (.cont none)

/-- The children of a `param` node, which the source casts to `string[]`:
by construction of `parseCommand` (the space rule is last) they are
always leaves. -/
def childLeafValues : List SubCommand → Except Err (List Value)
  | [] => .ok []
  | .leaf s :: cs => (childLeafValues cs).map (Value.vstr s :: ·)
  | .node _ _ :: _ => .error .jsTypeError

/-- The inner text of a bracketed token (`value.substring(1,
value.length - 1)`). -/
def middleStr (s : String) : String := ⟨s.data.drop 1 |>.dropLast⟩

/-- The formatting `checkValue` of the `ext-js` template rules (3rd
revision): numbers, strings and bigints print suffixed with the captured
line terminator, every other value becomes the empty string (dropping the
terminator). The model's single number type covers both `number` and
`bigint`. -/
def tplCheckValue (value : Value) (endg : String) : String :=
  match value with
  | .vnum q => jsNumToString q ++ endg
  | .vstr s => s ++ endg
  | _ => ""

/-- The key-splitting of the object-literal branch: an item with a `:`
keeps its first two fragments as key and value, a key-less item gets the
next ascending integer key. -/
def objEntries (ind : Nat) : List String → List (Value × Value)
  | [] => []
  | item :: items =>
    let assoc := splitStr item ":"
    match assoc with
    | a :: b :: _ => (.vstr a, .vstr b) :: objEntries ind items
    | _ => (.vnum ind, .vstr (assoc.headD "")) :: objEntries (ind + 1) items

mutual

/-- `convert` of `convert.ts` (`convertSync` / `convertAsync`): run the
convert-rule ladder in registered order; in async mode every rule result
is awaited (`return await callback(...)`), the fall-through value is not. -/
def convert (reg : Registry) (f : Nat) (asy : Bool) (v : Value) (st : St) (ex : Bool) :
    Except Err (Value × St) :=
  match f with
  | 0 => .error .fuel
  | f + 1 =>
    ladderRun
      [ fun v st => awRes asy (rIsString v st),
        fun v st => awRes asy (rIsNull v st),
        fun v st => awRes asy (rIsUndefined v st),
        fun v st => awRes asy (rIsEmptyString v st),
        fun v st => awRes asy (rIsTrue v st),
        fun v st => awRes asy (rIsFalse v st),
        fun v st => awRes asy (rIsNumber v st),
        fun v st => awRes asy (rIsFloat v st),
        fun v st => awRes asy (rIsKeys v st),
        fun v st => awRes asy
          (match v with
            | .vstr s => isMathApply reg f asy s st
            | _ => .error (.cont none)),
        fun v st => awRes asy
          (match v with
            | .vstr s => isVarApply reg f asy s st
            | _ => .error (.cont none)),
        fun v st => awRes asy
          (match v with
            | .vstr s =>
              if isCommandCallable reg s && ex then execFn reg f (.vstr s) [] st false
              else .error (.cont none)
            | _ => .error (.cont none)) ]
      v st
termination_by structural f

/-- The `isMath` convert rule (order −900): on a token containing a math
operator, split by the first splitting math rule, convert the operand
strings (without command execution, awaited in async mode), left-fold
with `parseMath`, and fail `MathResultInvalid` on an `undefined` fold. -/
def isMathApply (reg : Registry) (f : Nat) (asy : Bool) (s : String) (st : St) :
    Except Err (Value × St) :=
  match f with
  | 0 => .error .fuel
  | f + 1 =>
    if hasMathStr s then
      match findMathSplit mathRules s with
      | some (m, parts) =>
        match convertListG (fun v st => convert reg f asy v st false) (parts.map .vstr) st with
        | .ok (ops, st) =>
          let ops := if asy then ops.map Value.awaitV else ops
          match parseMath m ops with
          | .ok r =>
            match r with
            | .vundef => .error .mathResultInvalid
            | _ => .ok (r, st)
          | .error e => .error e
        | .error e => .error e
      | none => .error (.cont none)
    else .error (.cont none)
termination_by structural f

/-- The `isVariable` convert rule (order −800): strip the `$` prefix,
convert each dot segment, resolve the path with `getVar` (awaited in
async mode); a nullish result returns at once; a `$$` token
force-evaluates the result. -/
def isVarApply (reg : Registry) (f : Nat) (asy : Bool) (s : String) (st : St) :
    Except Err (Value × St) :=
  match f with
  | 0 => .error .fuel
  | f + 1 =>
    if isVariableStr s then
      let variable' : String := ⟨s.data.dropWhile (· = '$')⟩
      match convertListG (fun v st => convert reg f asy v st false)
          ((splitStr variable' ".").map .vstr) st with
      | .ok (vars, st) =>
        let vars := if asy then vars.map Value.awaitV else vars
        match getVar st (.varr vars) with
        | .ok res =>
          let res := if asy then res.awaitV else res
          if res.isNullish then .ok (res, st)
          else if isRunnableVariableStr s then ivCheckValue reg f asy res st
          else .ok (res, st)
        | .error e => .error e
      | .error e => .error e
    else .error (.cont none)
termination_by structural f

/-- The `checkValue` helper of the `isVariable` rule: a string in
parentheses re-enters `exec`; `[…]` and `{…}` parse as array and object
literals; other strings are text commands; arrays convert element-wise;
a function is invoked with no arguments; anything else is returned
raw. -/
def ivCheckValue (reg : Registry) (f : Nat) (asy : Bool) (value : Value) (st : St) :
    Except Err (Value × St) :=
  match f with
  | 0 => .error .fuel
  | f + 1 =>
    match value with
    | .vstr v =>
      if strStarts v "(" && strEnds v ")" then
        execXsh reg f asy (middleStr v) st true
      else if strStarts v "[" && strEnds v "]" then
        let inner := middleStr v
        if trimStr inner = "" then .ok (.varr [], st)
        else
          match convertListG (fun v st => convert reg f asy v st false)
              ((splitStr inner ",").map .vstr) st with
          | .ok (vs, st) =>
            .ok (.varr (if asy then vs.map Value.awaitV else vs), st)
          | .error e => .error e
      else if strStarts v "\x7b" && strEnds v "\x7d" then
        let inner := middleStr v
        if trimStr inner = "" then .ok (.vobj [], st)
        else
          let entries := objEntries 0 (splitStr inner ",")
          match convertEntriesG (fun v st => convert reg f asy v st false) asy entries st with
          | .ok (pairs, st) =>
            .ok (.vobj (pairs.foldl (fun acc p => aSet acc (jsToString p.1) p.2) []), st)
          | .error e => .error e
      else execXsh reg f asy v st true
    | .varr xs =>
      match convertListG (fun v st => convert reg f asy v st false) xs st with
      | .ok (vs, st) => .ok (.varr (if asy then vs.map Value.awaitV else vs), st)
      | .error e => .error e
    | .vfun _ => execFn reg f value [] st true
    | _ => .ok (value, st)
termination_by structural f

/-- The `checkValue` helper of the `param` rule: the first converted
value names a registered command or is a native callable — invoke it with
the rest as arguments; otherwise a multi-element list is returned as an
array, a single element as a scalar. -/
def paramCheckValue (reg : Registry) (f : Nat) (vals : List Value) (st : St) :
    Except Err (Value × St) :=
  match f with
  | 0 => .error .fuel
  | f + 1 =>
    match vals with
    | [] => .ok (.vundef, st)
    | fn :: rest =>
      let isNative := fn.isFunctionV
      if (match fn with | .vstr s => isCommandCallable reg s | _ => false) || isNative then
        execFn reg f fn rest st isNative
      else if vals.length > 1 then .ok (.varr vals, st)
      else .ok (fn, st)
termination_by structural f

/-- `execFn` of `commands.ts`: a native callable is invoked directly
(here: a defunctionalised closure is interpreted); otherwise the command
is located by name (`PropertyNotFound` when absent) and the binding loop
and callback run. -/
def execFn (reg : Registry) (f : Nat) (fn : Value) (args : List Value) (st : St) (native : Bool) :
    Except Err (Value × St) :=
  match f with
  | 0 => .error .fuel
  | f + 1 =>
    if native then
      match fn with
      | .vfun d => interpThunk reg f d st
      | _ => .error .parameterTypeInvalid
    else
      match fn with
      | .vstr name =>
        match reg.lookup name with
        | some cmd =>
          match bindAndCall cmd args (.vobj st.scope) with
          | .ok v => .ok (v, st)
          | .error e => .error e
        | none => .error .propertyNotFound
      | _ => .error .parameterTypeInvalid
termination_by structural f

/-- Interpretation of the closures the template rules store in scopes.
Each one calls `parse(command, scope, async)` — passing the async flag in
the `context` position, so the nested parse always runs synchronously —
and the `ext-js` thunks format the result with `checkValue`. -/
def interpThunk (reg : Registry) (f : Nat) (d : FnData) (st : St) : Except Err (Value × St) :=
  match f with
  | 0 => .error .fuel
  | f + 1 =>
    match d with
    | .tplLine command endg thAsy =>
      match parse reg f false command st (.vbool thAsy) with
      | .ok (res, st) =>
        let res := if thAsy then res.awaitV else res
        .ok (.vstr (tplCheckValue res endg), st)
      | .error e => .error e
    | .tplBlock command block endg off thAsy =>
      let prevOffset := jsGet st.scope "offset"
      let prevTemplate := jsGet st.scope "template"
      let st := { st with scope := aSet (aSet st.scope "offset" (Value.vnum off)) "template" (Value.vstr block) }
      match parse reg f false command st (.vbool thAsy) with
      | .ok (res, st) =>
        let res := if thAsy then res.awaitV else res
        let st := { st with scope := aSet (aSet st.scope "offset" prevOffset) "template" prevTemplate }
        .ok (.vstr (tplCheckValue res endg), st)
      | .error e => .error e
    | .inlineCmd command thAsy =>
      parse reg f false command st (.vbool thAsy)
    | .varConst name thAsy =>
      let variable' := if name.data.head? = some '_' then lowerStr name
        else convertToCamelCase name "_"
      parse reg f false (getVariableName variable') st (.vbool thAsy)
    | .runConst name thAsy =>
      let variable' := if name.data.head? = some '_' then lowerStr name
        else convertToCamelCase name "_"
      parse reg f false (getRunnableVariableName variable') st (.vbool thAsy)
termination_by structural f

/-- `execCommand` of `parser.ts`: a string leaf goes to the converter;
a node dispatches on its operator rule's callback (`callbackAsync` in
async mode — the async folds await each child's result). -/
def execCmd (reg : Registry) (f : Nat) (asy : Bool) (sc : SubCommand) (st : St) (ex : Bool) :
    Except Err (Value × St) :=
  match f with
  | 0 => .error .fuel
  | f + 1 =>
    match sc with
    | .leaf s => convert reg f asy (.vstr s) st ex
    | .node op children =>
      match op with
      | .endOp => endFoldG (fun c st => awRes asy (execCmd reg f asy c st true)) children .vundef st
      | .fail => failFoldG (fun c st => awRes asy (execCmd reg f asy c st true)) children st
      | .success => successFoldG (fun c st => awRes asy (execCmd reg f asy c st true)) children st
      | .nullish => nullishFoldG (fun c st => awRes asy (execCmd reg f asy c st true)) children st
      | .context => contextFoldG (fun c st => awRes asy (execCmd reg f asy c st true)) children .vundef st
      | .out => outFoldG (fun c st => awRes asy (execCmd reg f asy c st true)) children st
      | .param =>
        match childLeafValues children with
        | .ok leaves =>
          match convertListG (fun v st => convert reg f asy v st false) leaves st with
          | .ok (args, st) =>
            let args := if asy then args.map Value.awaitV else args
            paramCheckValue reg f args st
          | .error e => .error e
        | .error e => .error e
termination_by structural f

/-- `exec` of `parser.ts`: split the command into subcommands, then
execute the tree. -/
def execXsh (reg : Registry) (f : Nat) (asy : Bool) (command : String) (st : St) (ex : Bool) :
    Except Err (Value × St) :=
  match f with
  | 0 => .error .fuel
  | f + 1 =>
    let (sub, st) := parseCommand command st
    execCmd reg f asy sub st ex
termination_by structural f

/-- `parse` of `parser.ts`: bind the `context` scope variable, then
`exec` with command execution enabled. -/
def parse (reg : Registry) (f : Nat) (asy : Bool) (command : String) (st : St) (ctx : Value) :
    Except Err (Value × St) :=
  match f with
  | 0 => .error .fuel
  | f + 1 =>
    execXsh reg f asy command { st with scope := aSet st.scope "context" ctx } true
termination_by structural f

end

/-! ### Template engine

`parseTemplate` of `parser.ts` runs the registered template rules of the
requested type through `replacer` of `utilities.ts`, which applies each
rule's regex as a global `String.replace` with the rule's callback.  The
patterns are transcribed item by item into a small backtracking matcher;
the `g`-flag replacement loop and the callbacks follow the source.  -/

/-- One item of a template regex: literals (`ci` = the `i` flag),
one-character classes, greedy or lazy repetition over a class, the
`m`-flag anchors `^`/`$`, alternation, numbered capture groups and the
one-character negative lookbehind `(?<!c)`.  `grpEnd` is produced only by
the matcher itself to close a capture. -/
inductive RItem where
  | lit (ci : Bool) (s : String)
  | cls (p : Char → Bool)
  | star (lz : Bool) (p : Char → Bool)
  | plus (lz : Bool) (p : Char → Bool)
  | bol
  | eol
  | alt (a b : List RItem)
  | grp (n : Nat) (items : List RItem)
  | grpEnd (n : Nat) (start : Nat)
  | nlb (p : Char → Bool)

/-- Case-insensitive character comparison (the `i` flag). -/
def ciEq (a b : Char) : Bool := a.toLower = b.toLower

/-- Match a literal at position `p`, returning the position after it. -/
def litAt (ci : Bool) (cs : Array Char) : List Char → Nat → Option Nat
  | [], p => some p
  | c :: rest, p =>
    if h : p < cs.size then
      if (if ci then ciEq cs[p] c else cs[p] = c) then litAt ci cs rest (p + 1)
      else none
    else none

/-- Backtracking matcher in continuation-passing style: match `items` at
position `p` with recorded captures `caps`, calling `k` on success.  A
lazy star first tries the continuation, a greedy star first tries to
consume; `alt` tries the left branch first — the semantics of a JS
backtracking regex.  `f` is fuel; the drivers pass enough for the small
patterns below. -/
def mrun (cs : Array Char) :
    Nat → List RItem → Nat → List (Nat × Nat × Nat) →
    (Nat → List (Nat × Nat × Nat) → Option (Nat × List (Nat × Nat × Nat))) →
    Option (Nat × List (Nat × Nat × Nat))
  | 0, _, _, _, _ => none
  | _ + 1, [], p, caps, k => k p caps
  | f + 1, it :: rest, p, caps, k =>
    match it with
    | .lit ci s =>
      match litAt ci cs s.data p with
      | some q => mrun cs f rest q caps k
      | none => none
    | .cls pr =>
      if h : p < cs.size then
        if pr cs[p] then mrun cs f rest (p + 1) caps k else none
      else none
    | .star lz pr =>
      if lz then
        match mrun cs f rest p caps k with
        | some r => some r
        | none => mrun cs f (.cls pr :: .star true pr :: rest) p caps k
      else
        match mrun cs f (.cls pr :: .star false pr :: rest) p caps k with
        | some r => some r
        | none => mrun cs f rest p caps k
    | .plus lz pr => mrun cs f (.cls pr :: .star lz pr :: rest) p caps k
    | .bol =>
      if p = 0 then mrun cs f rest p caps k
      else if h : p - 1 < cs.size then
        if cs[p - 1] = '\n' then mrun cs f rest p caps k else none
      else none
    | .eol =>
      if h : p < cs.size then
        if cs[p] = '\n' then mrun cs f rest p caps k else none
      else mrun cs f rest p caps k
    | .alt a b =>
      match mrun cs f (a ++ rest) p caps k with
      | some r => some r
      | none => mrun cs f (b ++ rest) p caps k
    | .grp n items => mrun cs f (items ++ (.grpEnd n p :: rest)) p caps k
    | .grpEnd n s => mrun cs f rest p ((n, s, p) :: caps) k
    | .nlb pr =>
      if p = 0 then mrun cs f rest p caps k
      else if h : p - 1 < cs.size then
        if pr cs[p - 1] then none else mrun cs f rest p caps k
      else mrun cs f rest p caps k

/-- Fuel for one match attempt: generous cubic bound on the backtracking
of the patterns below. -/
def reFuel (cs : Array Char) : Nat := (cs.size + 16) * (cs.size + 16) * (cs.size + 16)

/-- Leftmost match at or after position `p`: `(start, stop, captures)`. -/
def findFrom (items : List RItem) (cs : Array Char) : Nat → Nat → Option (Nat × Nat × List (Nat × Nat × Nat))
  | 0, _ => none
  | sf + 1, p =>
    if p > cs.size then none
    else
      match mrun cs (reFuel cs) items p [] (fun q caps => some (q, caps)) with
      | some (q, caps) => some (p, q, caps)
      | none => findFrom items cs sf (p + 1)

/-- The slice `cs[s..e)` as a string. -/
def sliceStr (cs : Array Char) (s e : Nat) : String :=
  ⟨(cs.toList.drop s).take (e - s)⟩

/-- Captured text of group `n` (empty when the group did not participate). -/
def capStr (cs : Array Char) (caps : List (Nat × Nat × Nat)) (n : Nat) : String :=
  match caps.find? (fun t => t.1 = n) with
  | some (_, s, e) => sliceStr cs s e
  | none => ""

/-- A rule callback as used by `replace` of `utilities.ts`: from the
subject, the captures and the match offset, produce the replacement
string (possibly touching the scope or raising). -/
def RepCb := Array Char → List (Nat × Nat × Nat) → Nat → St → Except Err (String × St)

/-- The global-replacement loop of `String.replace` with the `g` flag:
repeatedly find the leftmost match, emit the text before it and the
callback's replacement, and continue after the match (a zero-length match
advances one character). -/
def gReplaceGo (items : List RItem) (cb : RepCb) (cs : Array Char) :
    Nat → Nat → String → St → Except Err (String × St)
  | 0, _, _, _ => .error .fuel
  | gf + 1, i, acc, st =>
    match findFrom items cs (cs.size + 2) i with
    | none => .ok (acc ++ sliceStr cs i cs.size, st)
    | some (ms, me, caps) =>
      match cb cs caps ms st with
      | .error e => .error e
      | .ok (rep, st) =>
        let acc := acc ++ sliceStr cs i ms ++ rep
        if me > ms then gReplaceGo items cb cs gf me acc st
        else if ms < cs.size then gReplaceGo items cb cs gf (ms + 1) (acc ++ sliceStr cs ms (ms + 1)) st
        else .ok (acc, st)

/-- `replace` of `utilities.ts` applied with a `g`-flag regex and a
callback (the promise-collecting variant resolves to the same string in
our sequential model of the microtask queue). -/
def gReplaceE (items : List RItem) (cb : RepCb) (s : String) (st : St) : Except Err (String × St) :=
  gReplaceGo items cb s.data.toArray (s.length + 2) 0 "" st

/-- JS `\s`. -/
def wsP (c : Char) : Bool := isWs c

/-- JS `\w`. -/
def wordP (c : Char) : Bool := c.isAlphanum || c = '_'

/-- JS `.` without the `s` flag: any character but a line terminator. -/
def dotP (c : Char) : Bool := c ≠ '\n' && c ≠ '\r'

/-- JS `[\s\S]`. -/
def anyP (_ : Char) : Bool := true

/-- `TPL_XSH_COMMAND` of `ext-js/usr/src/index.ts` (current revision) —
the line-directive regex, flags `gimu`. -/
def reTplLine : List RItem :=
  [ .grp 1 [.bol, .star false wsP],
    .lit true "//#xsh",
    .plus false wsP,
    .grp 2 [.star true dotP],
    .grp 3 [.alt [.lit false "\n"] [.eol]] ]

/-- `TPL_XSHT_COMMAND` of `ext-js/usr/src/index.ts` (current revision) —
the block-directive regex, flags `gimu`. -/
def reTplBlock : List RItem :=
  [ .grp 1 [.bol, .star false wsP],
    .lit true "//#xsht",
    .plus false wsP,
    .grp 2 [.star true dotP],
    .lit false "\n",
    .grp 3 [.star true anyP],
    .grp 4 [.alt [.lit false "\n", .star false wsP] [.alt [.bol, .star false wsP] [.eol]]],
    .lit true "///xsht",
    .grp 5 [.alt [.lit false "\n"] [.eol]] ]

/-- `TPL_XSH_INLINE_COMMAND` of the core plugin — the inline-command
regex (backquoted `#xsh`), flags `gi`. -/
def reTplInline : List RItem :=
  [ .lit false "\x60", .lit true "#xsh", .plus false wsP,
    .grp 1 [.star true dotP], .nlb (fun c => c = '\\'), .lit false "\x60" ]

/-- `TPL_XSH_VAR_CONST` of the core plugin, flags `gi`. -/
def reTplVarConst : List RItem :=
  [ .lit true "__XSH_VAR_", .grp 1 [.plus true wordP], .lit true "__" ]

/-- `TPL_XSH_RUN_CONST` of the core plugin, flags `gi`. -/
def reTplRunConst : List RItem :=
  [ .lit true "__XSH_RUN_", .grp 1 [.plus true wordP], .lit true "__" ]

/-- `TPL_XSH_SYSTEM_CONST` of the core plugin, flags `gi`. -/
def reTplSystemConst : List RItem :=
  [ .lit true "__XSH_SYSTEM_", .grp 1 [.plus true wordP], .lit true "__" ]

/-- Callback of the ext-js `command` (line-directive) rule: store a thunk
for the command under its system hash and emit the runnable
system-constant name (the captured `start`/`end` text is consumed). -/
def tplLineCb (asy : Bool) : RepCb := fun cs caps _ st =>
  let command := stripSlashes (capStr cs caps 2)
  let endg := capStr cs caps 3
  let varName := getVariableHash command true
  .ok (getRunnableConstName varName true,
    { st with scope := aSet st.scope varName (.vfun (.tplLine command endg asy)) })

/-- Callback of the ext-js `template` (block-directive) rule. -/
def tplBlockCb (asy : Bool) : RepCb := fun cs caps off st =>
  let command := stripSlashes (capStr cs caps 2)
  let block := capStr cs caps 3
  let endg := capStr cs caps 5
  let varName := getVariableHash command true
  .ok (getRunnableConstName varName true,
    { st with scope := aSet st.scope varName (.vfun (.tplBlock command block endg off asy)) })

/-- Callback of the core `inlineCommand` rule. -/
def tplInlineCb (asy : Bool) : RepCb := fun cs caps _ st =>
  let command := stripSlashes (capStr cs caps 1)
  let varName := getVariableHash command true
  .ok (getRunnableConstName varName true,
    { st with scope := aSet st.scope varName (.vfun (.inlineCmd command asy)) })

/-- Callback of the core `varConst` rule. -/
def tplVarConstCb (asy : Bool) : RepCb := fun cs caps _ st =>
  let name := capStr cs caps 1
  let varName := getVariableHash name true
  .ok (getRunnableConstName varName true,
    { st with scope := aSet st.scope varName (.vfun (.varConst name asy)) })

/-- Callback of the core `runConst` rule. -/
def tplRunConstCb (asy : Bool) : RepCb := fun cs caps _ st =>
  let name := capStr cs caps 1
  let varName := getVariableHash name true
  .ok (getRunnableConstName varName true,
    { st with scope := aSet st.scope varName (.vfun (.runConst name asy)) })

/-- Callback of the core `systemConst` rule: run `$$name` through `parse`
(the source passes the async flag in the `context` slot, so the nested
parse itself is synchronous) and splice the stringified result in. -/
def tplSystemConstCb (reg : Registry) (f : Nat) (asy : Bool) : RepCb := fun cs caps _ st =>
  let name := capStr cs caps 1
  let variable' := if name.data.head? = some '_' then lowerStr name
    else convertToCamelCase name "_"
  match parse reg f false (getRunnableVariableName variable') st (.vbool asy) with
  | .ok (res, st) =>
    let res := if asy then res.awaitV else res
    .ok (jsToString res, st)
  | .error e => .error e

/-- `parseTemplate` of `parser.ts` for the `ext-js` template type: the
template rules of that type in ascending `order` — ext-js `template`
(−9999), then core `inlineCommand`, `varConst`, `runConst` and ext-js
`command` (all 0, in registration order), then core `systemConst`
(9999) — each applied as a global regex replacement over the result of
the previous one. -/
def parseTemplateJs (reg : Registry) (f : Nat) (asy : Bool) (template : String) (st : St) :
    Except Err (String × St) :=
  match gReplaceE reTplBlock (tplBlockCb asy) template st with
  | .error e => .error e
  | .ok (s, st) =>
    match gReplaceE reTplInline (tplInlineCb asy) s st with
    | .error e => .error e
    | .ok (s, st) =>
      match gReplaceE reTplVarConst (tplVarConstCb asy) s st with
      | .error e => .error e
      | .ok (s, st) =>
        match gReplaceE reTplRunConst (tplRunConstCb asy) s st with
        | .error e => .error e
        | .ok (s, st) =>
          match gReplaceE reTplLine (tplLineCb asy) s st with
          | .error e => .error e
          | .ok (s, st) =>
            gReplaceE reTplSystemConst (tplSystemConstCb reg f asy) s st

/-- Number of lines of a string (`split("\n").length`), the measure used
by the template line-count property. -/
def lineCount (s : String) : Nat := (splitStr s "\n").length

/-! ## Helpers and concrete material for the claim theorems -/

/-- The value component of an evaluation result. -/
def resVal (r : Except Err (Value × St)) : Except Err Value := r.map Prod.fst

/-- The output string of a template evaluation (`none` on an error). -/
def tplOut (r : Except Err (String × St)) : Option String :=
  match r with
  | .ok (s, _) => some s
  | .error _ => none

/-- The `concat` command of the repository's test registry:
`(scope, mode, delim = " ", ...args) => args.join(delim)`. -/
def concatCb (args : List Value) : Value :=
  match args with
  | _ :: _ :: delim :: rest =>
    .vstr (jsJoinWith (match delim with | .vundef => " " | d => jsToString d) rest)
  | _ => Value.vundef

/-- The `concat` command descriptor (flags `a b c D`, arguments
`scope! mode!=2 delim=" " ...args`). -/
def concatCmd : Cmd where
  callback := concatCb
  flags := [("a", 1), ("b", 2), ("c", 4), ("D", 8)]
  args := [ { name := "scope", required := true },
            { name := "mode", required := true, dflt := some (.vnum 2) },
            { name := "delim", dflt := some (.vstr " ") },
            { name := "args", variadic := true, required := false } ]

/-- The `async` command of the test registry:
`async (context?, asArray = false) => asArray ? [context] : context` —
an async function, so its value is always a deferred one. -/
def asyncCb (args : List Value) : Value :=
  .vprom (match args with
    | ctx :: asArray :: _ => if asArray.truthy then .varr [ctx] else ctx
    | ctx :: _ => ctx
    | _ => .vundef)

/-- The `async` command descriptor (arguments `context asArray=false`). -/
def asyncCmd : Cmd where
  callback := asyncCb
  args := [ { name := "context" }, { name := "asArray", dflt := some (.vbool false) } ]

/-- The registry the dispatch claims are exercised on. -/
def readmeReg : Registry := [("concat", concatCmd), ("async", asyncCmd)]

/-- A deferred-free registry: every callback yields a deferred-free value
and every declared argument default is deferred-free. -/
def noPromReg (reg : Registry) : Prop :=
  ∀ p ∈ reg, (∀ args, (p.2.callback args).noProm = true) ∧
    ∀ d ∈ p.2.args, ∀ v, d.dflt = some v → v.noProm = true

/-- A child evaluator that preserves deferred-freedom of value and state. -/
def ExGood (ex : SubCommand → St → Except Err (Value × St)) : Prop :=
  ∀ c st v st', st.noPromSt = true → ex c st = .ok (v, st') →
    v.noProm = true ∧ st'.noPromSt = true

/-- Two child evaluators that agree on deferred-free states. -/
def ExAgree (exA exS : SubCommand → St → Except Err (Value × St)) : Prop :=
  ∀ c st, st.noPromSt = true → exA c st = exS c st

/-- A value converter that preserves deferred-freedom of value and state. -/
def CvGood (cv : Value → St → Except Err (Value × St)) : Prop :=
  ∀ x st v st', st.noPromSt = true → x.noProm = true → cv x st = .ok (v, st') →
    v.noProm = true ∧ st'.noPromSt = true

/-- Two value converters that agree on deferred-free states and inputs. -/
def CvAgree (cvA cvS : Value → St → Except Err (Value × St)) : Prop :=
  ∀ x st, st.noPromSt = true → x.noProm = true → cvA x st = cvS x st

/-- Is an engine error the converter-internal `Continue` signal? -/
def Err.isCont : Err → Bool
  | .cont _ => true
  | _ => false

/-- A child evaluator that preserves deferred-freedom of value and state
and never raises `Continue` carrying a payload. -/
def ExOK (ex : SubCommand → St → Except Err (Value × St)) : Prop :=
  ∀ c st, St.noPromSt st = true →
    (∀ v st', ex c st = .ok (v, st') → noProm v = true ∧ St.noPromSt st' = true) ∧
    (∀ w, ex c st = .error (.cont (some w)) → False)

/-- A value converter that preserves deferred-freedom of value and state
and never raises `Continue` carrying a payload. -/
def CvOK (cv : Value → St → Except Err (Value × St)) : Prop :=
  ∀ x st, noProm x = true → St.noPromSt st = true →
    (∀ v st', cv x st = .ok (v, st') → noProm v = true ∧ St.noPromSt st' = true) ∧
    (∀ w, cv x st = .error (.cont (some w)) → False)

/-- One converter-ladder rule that preserves deferred-freedom and never
raises `Continue` carrying a payload. -/
def RuleOK (r : Value → St → Except Err (Value × St)) : Prop :=
  ∀ v st, noProm v = true → St.noPromSt st = true →
    (∀ x st', r v st = .ok (x, st') → noProm x = true ∧ St.noPromSt st' = true) ∧
    (∀ w, r v st = .error (.cont (some w)) → False)

/-- Pointwise agreement of two ladder rules on deferred-free input. -/
def RuleAgree (rA rS : Value → St → Except Err (Value × St)) : Prop :=
  ∀ v st, noProm v = true → St.noPromSt st = true → rA v st = rS v st

/-- Sync/async agreement, deferred-freedom preservation and
`Continue`-freedom of `convert` at one fuel level. -/
def OkConvert (reg : Registry) (f : Nat) : Prop :=
  ∀ asy v st ex, noProm v = true → St.noPromSt st = true →
    convert reg f asy v st ex = convert reg f false v st ex ∧
    (∀ x st', convert reg f false v st ex = .ok (x, st') →
      noProm x = true ∧ St.noPromSt st' = true) ∧
    (∀ w, convert reg f false v st ex = .error (.cont (some w)) → False)

/-- The same three properties for the `isMath` rule body. -/
def OkMath (reg : Registry) (f : Nat) : Prop :=
  ∀ asy s st, St.noPromSt st = true →
    isMathApply reg f asy s st = isMathApply reg f false s st ∧
    (∀ x st', isMathApply reg f false s st = .ok (x, st') →
      noProm x = true ∧ St.noPromSt st' = true) ∧
    (∀ w, isMathApply reg f false s st = .error (.cont (some w)) → False)

/-- The same three properties for the `isVariable` rule body. -/
def OkVar (reg : Registry) (f : Nat) : Prop :=
  ∀ asy s st, St.noPromSt st = true →
    isVarApply reg f asy s st = isVarApply reg f false s st ∧
    (∀ x st', isVarApply reg f false s st = .ok (x, st') →
      noProm x = true ∧ St.noPromSt st' = true) ∧
    (∀ w, isVarApply reg f false s st = .error (.cont (some w)) → False)

/-- The same three properties for the `isVariable` rule's `checkValue`. -/
def OkIv (reg : Registry) (f : Nat) : Prop :=
  ∀ asy value st, noProm value = true → St.noPromSt st = true →
    ivCheckValue reg f asy value st = ivCheckValue reg f false value st ∧
    (∀ x st', ivCheckValue reg f false value st = .ok (x, st') →
      noProm x = true ∧ St.noPromSt st' = true) ∧
    (∀ w, ivCheckValue reg f false value st = .error (.cont (some w)) → False)

/-- Deferred-freedom preservation and `Continue`-freedom of the `param`
rule's `checkValue` (it takes no async flag). -/
def OkParam (reg : Registry) (f : Nat) : Prop :=
  ∀ vals st, noProm.go vals = true → St.noPromSt st = true →
    (∀ x st', paramCheckValue reg f vals st = .ok (x, st') →
      noProm x = true ∧ St.noPromSt st' = true) ∧
    (∀ w, paramCheckValue reg f vals st = .error (.cont (some w)) → False)

/-- Deferred-freedom preservation and `Continue`-freedom of `execFn` (it
takes no async flag). -/
def OkFn (reg : Registry) (f : Nat) : Prop :=
  ∀ fn args st native, noProm fn = true → noProm.go args = true → St.noPromSt st = true →
    (∀ x st', execFn reg f fn args st native = .ok (x, st') →
      noProm x = true ∧ St.noPromSt st' = true) ∧
    (∀ w, execFn reg f fn args st native = .error (.cont (some w)) → False)

/-- Deferred-freedom preservation and `Continue`-freedom of the stored
template-closure interpreter (it takes no async flag; the thunks always
parse synchronously). -/
def OkThunk (reg : Registry) (f : Nat) : Prop :=
  ∀ d st, St.noPromSt st = true →
    (∀ x st', interpThunk reg f d st = .ok (x, st') →
      noProm x = true ∧ St.noPromSt st' = true) ∧
    (∀ w, interpThunk reg f d st = .error (.cont (some w)) → False)

/-- The three properties for `execCommand`. -/
def OkCmd (reg : Registry) (f : Nat) : Prop :=
  ∀ asy sc st ex, St.noPromSt st = true →
    execCmd reg f asy sc st ex = execCmd reg f false sc st ex ∧
    (∀ x st', execCmd reg f false sc st ex = .ok (x, st') →
      noProm x = true ∧ St.noPromSt st' = true) ∧
    (∀ w, execCmd reg f false sc st ex = .error (.cont (some w)) → False)

/-- The three properties for `exec`. -/
def OkXsh (reg : Registry) (f : Nat) : Prop :=
  ∀ asy command st ex, St.noPromSt st = true →
    execXsh reg f asy command st ex = execXsh reg f false command st ex ∧
    (∀ x st', execXsh reg f false command st ex = .ok (x, st') →
      noProm x = true ∧ St.noPromSt st' = true) ∧
    (∀ w, execXsh reg f false command st ex = .error (.cont (some w)) → False)

/-- The three properties for `parse`. -/
def OkParse (reg : Registry) (f : Nat) : Prop :=
  ∀ asy command st ctx, St.noPromSt st = true → noProm ctx = true →
    parse reg f asy command st ctx = parse reg f false command st ctx ∧
    (∀ x st', parse reg f false command st ctx = .ok (x, st') →
      noProm x = true ∧ St.noPromSt st' = true) ∧
    (∀ w, parse reg f false command st ctx = .error (.cont (some w)) → False)

/-- Sync/async agreement, deferred-freedom preservation and
`Continue`-freedom of the whole mutual evaluator at one fuel level. -/
def LevelOK (reg : Registry) (f : Nat) : Prop :=
  OkConvert reg f ∧ OkMath reg f ∧ OkVar reg f ∧ OkIv reg f ∧ OkParam reg f ∧
    OkFn reg f ∧ OkThunk reg f ∧ OkCmd reg f ∧ OkXsh reg f ∧ OkParse reg f

/-! ## Basic lemmas -/

/-- Reading back the key just written. -/
theorem aGet_aSet_self (fs : List (String × Value)) (k : String) (v : Value) :
    aGet (aSet fs k v) k = some v := by
  induction fs with
  | nil => simp [aSet, aGet]
  | cons p fs ih =>
    obtain ⟨k', w⟩ := p
    by_cases h : k' = k
    · simp [aSet, h, aGet]
    · simp [aSet, h, aGet, ih]

/-- Reading back the key just written, as a JS read. -/
theorem jsGet_aSet_self (fs : List (String × Value)) (k : String) (v : Value) :
    jsGet (aSet fs k v) k = v := by
  simp [jsGet, aGet_aSet_self]

/-- A non-nullish value wins its `??`. -/
theorem orElse_of_not_nullish {v : Value} (w : Value) (h : v.isNullish = false) :
    v.orElse w = v := by
  cases v <;> simp_all [Value.orElse, Value.isNullish]

/-- A `--`-token is also a `-`-token. -/
theorem strStarts_dash_of_ddash {s : String} (h : strStarts s "--" = true) :
    strStarts s "-" = true := by
  unfold strStarts at h ⊢
  rw [List.isPrefixOf_iff_prefix] at h ⊢
  exact List.IsPrefix.trans ⟨['-'], rfl⟩ h

/-! ## Fold characterizations (for the operator claims) -/

/-- A non-empty trailing child of a `;` fold receives the state left by
the prefix and decides the result alone. -/
theorem endFoldG_append_exec (ex : SubCommand → St → Except Err (Value × St))
    (parts : List SubCommand) (p : SubCommand) (r0 : Value) (st : St)
    (hp : subIsEmpty p = false) :
    endFoldG ex (parts ++ [p]) r0 st =
      (match endFoldG ex parts r0 st with
       | .ok (_, st') => ex p st'
       | .error e => .error e) := by
  induction parts generalizing r0 st with
  | nil =>
    simp only [List.nil_append, endFoldG, hp, Bool.false_eq_true, if_false]
    cases hex : ex p st with
    | ok v => obtain ⟨r, st'⟩ := v; simp [endFoldG]
    | error e => simp
  | cons q qs ih =>
    simp only [List.cons_append, endFoldG]
    by_cases hq : subIsEmpty q
    · simp [hq, ih]
    · simp only [hq, Bool.false_eq_true, if_false]
      cases hex : ex q st with
      | ok v => obtain ⟨r, st'⟩ := v; simp [ih]
      | error e => simp

/-- An empty trailing child of a `;` fold resets the result to
`undefined`. -/
theorem endFoldG_append_empty (ex : SubCommand → St → Except Err (Value × St))
    (parts : List SubCommand) (p : SubCommand) (r0 : Value) (st : St)
    (hp : subIsEmpty p = true) :
    endFoldG ex (parts ++ [p]) r0 st =
      (match endFoldG ex parts r0 st with
       | .ok (_, st') => .ok (.vundef, st')
       | .error e => .error e) := by
  induction parts generalizing r0 st with
  | nil => simp [endFoldG, hp]
  | cons q qs ih =>
    simp only [List.cons_append, endFoldG]
    by_cases hq : subIsEmpty q
    · simp [hq, ih]
    · simp only [hq, Bool.false_eq_true, if_false]
      cases hex : ex q st with
      | ok v => obtain ⟨r, st'⟩ := v; simp [ih]
      | error e => simp

/-- A successful `|` fold leaves `scope.context` exactly as it found it,
whatever the children do. -/
theorem contextFoldG_restores (ex : SubCommand → St → Except Err (Value × St))
    (parts : List SubCommand) (r0 : Value) (st : St) (r : Value) (st₂ : St)
    (h : contextFoldG ex parts r0 st = .ok (r, st₂)) :
    jsGet st₂.scope "context" = jsGet st.scope "context" := by
  induction parts generalizing r0 st with
  | nil =>
    simp only [contextFoldG, Except.ok.injEq, Prod.mk.injEq] at h
    rw [← h.2]
  | cons q qs ih =>
    have step : ∀ stM, (match ex q stM with
        | .ok (rq, st') => contextFoldG ex qs rq
            { st' with scope := aSet st'.scope "context" (jsGet st.scope "context") }
        | .error e => (.error e : Except Err (Value × St))) = .ok (r, st₂) →
        jsGet st₂.scope "context" = jsGet st.scope "context" := by
      intro stM hm
      cases hex : ex q stM with
      | ok v =>
        obtain ⟨rq, st'⟩ := v
        rw [hex] at hm
        exact (ih _ _ hm).trans (jsGet_aSet_self ..)
      | error e => rw [hex] at hm; cases hm
    cases r0 <;> exact step _ h

/-- The `>>` fold returns the first child's value once the assignments
succeed. -/
theorem outFoldG_first (ex : SubCommand → St → Except Err (Value × St))
    (c : SubCommand) (rest : List SubCommand) (st : St) (r : Value) (st₁ stA : St)
    (hc : ex c st = .ok (r, st₁))
    (ha : outAssignG ex r rest st₁ = .ok stA) :
    outFoldG ex (c :: rest) st = .ok (r, stA) := by
  simp [outFoldG, hc, ha]

/-- A simple-name assignment followed by an unshadowed read gives the
value back, provided it is not nullish. -/
theorem setVar_getVar_roundtrip (st : St) (s : String) (r : Value)
    (hnn : r.isNullish = false) (hsc : (jsGet st.scope s).isNullish = true) :
    setVar st (.vstr s) r = .ok { st with vars := aSet st.vars s r } ∧
    getVarStr { st with vars := aSet st.vars s r } s .vundef = r := by
  refine ⟨rfl, ?_⟩
  unfold getVarStr
  simp only [jsGet_aSet_self]
  cases hv : jsGet st.scope s <;> simp_all [Value.isNullish, Value.orElse, orElse_of_not_nullish]

/-- The operand loop of `parseMath` is a monadic left fold. -/
theorem parseMathGo_foldlM (op : MathOp) (x : Value) (ys : List Value) :
    parseMathGo op x ys =
      ys.foldlM (fun acc y =>
        match mathCallback op acc y with
        | .ok r => .ok r
        | .error (.cont p) => .ok (p.getD acc)
        | .error e => .error e) x := by
  induction ys generalizing x with
  | nil => rfl
  | cons y ys ih =>
    rw [List.foldlM_cons, parseMathGo]
    cases hcb : mathCallback op x y with
    | ok r => simp only [hcb, ih, Except.bind]; rfl
    | error e =>
      cases e with
      | cont p => simp only [hcb, ih, Except.bind]; rfl
      | _ => simp only [hcb, Except.bind]; rfl

/-- A ladder whose head rule succeeds returns that result. -/
theorem ladderRun_head_ok {rule : Value → St → Except Err (Value × St)}
    {rs : List (Value → St → Except Err (Value × St))} {v : Value} {st : St}
    {a : Value × St} (h : rule v st = .ok a) :
    ladderRun (rule :: rs) v st = .ok a := by
  rw [ladderRun, h]

/-- The context-setting step keeps the state only for an `undefined`
running result. -/
theorem ctxUpdate_eq (r : Value) (st stU : St) :
    (match r with | Value.vundef => st | _ => stU) = cond r.isUndef st stU := by
  cases r <;> rfl

/-- Reading the leaf `$context` under a non-nullish, non-deferred context
binding returns that binding and leaves the state alone. -/
theorem execCmd_context_leaf (reg : Registry) (g : Nat) (st : St) (r : Value)
    (hr : jsGet st.scope "context" = r)
    (hnn : r.isNullish = false) (hnp : r.isPromiseV = false) :
    execCmd reg (g + 5) false (.leaf "$context") st true = .ok (r, st) := by
  have h1 : getVarStr st "context" .vundef = r := by
    unfold getVarStr
    rw [hr, orElse_of_not_nullish _ hnn]
  have h3 : getVarWalk .vundef r [] = r := by
    cases r <;> simp_all [getVarWalk, Value.isPromiseV, Value.orElse, Value.isNullish]
  have h2 : getVar st (.varr [.vstr "context"]) = .ok r := by
    show (do
      let head ← getVar st (.vstr "context") .vundef
      Except.ok (getVarWalk .vundef head [])) = Except.ok r
    rw [show getVar st (.vstr "context") .vundef = .ok (getVarStr st "context" .vundef) from rfl,
      h1]
    show Except.ok (getVarWalk .vundef r []) = Except.ok r
    rw [h3]
  have hseg : ∀ st' : St, convert reg (g + 2) false (.vstr "context") st' false =
      .ok (.vstr "context", st') := by
    intro st'
    show (match awRes false
        (if isCommandCallable reg "context" && false then
          execFn reg (g + 1) (.vstr "context") [] st' false
        else .error (.cont none)) with
      | .error (.cont p) => ladderRun [] (p.getD (Value.vstr "context")) st'
      | other => other) = Except.ok (Value.vstr "context", st')
    rw [Bool.and_false]
    rfl
  have hlist : convertListG (fun v st => convert reg (g + 2) false v st false)
      [Value.vstr "context"] st = .ok ([Value.vstr "context"], st) := by
    show (do
      let (v, st) ← convert reg (g + 2) false (Value.vstr "context") st false
      let (vs, st) ← convertListG (fun v st => convert reg (g + 2) false v st false) [] st
      Except.ok (v :: vs, st)) = Except.ok ([Value.vstr "context"], st)
    rw [hseg]
    rfl
  have hvar : isVarApply reg (g + 3) false "$context" st = .ok (r, st) := by
    show (match convertListG (fun v st => convert reg (g + 2) false v st false)
        [Value.vstr "context"] st with
      | .ok (vars, st) =>
        (match getVar st (.varr vars) with
         | .ok res =>
           if res.isNullish then .ok (res, st)
           else if isRunnableVariableStr "$context" then ivCheckValue reg (g + 2) false res st
           else .ok (res, st)
         | .error e => .error e)
      | .error e => .error e) = Except.ok (r, st)
    rw [hlist]
    show (match getVar st (.varr [Value.vstr "context"]) with
      | .ok res =>
        if res.isNullish then .ok (res, st)
        else if isRunnableVariableStr "$context" then ivCheckValue reg (g + 2) false res st
        else .ok (res, st)
      | .error e => .error e) = Except.ok (r, st)
    rw [h2]
    show (if r.isNullish then Except.ok (r, st)
      else if isRunnableVariableStr "$context" then ivCheckValue reg (g + 2) false r st
      else .ok (r, st)) = Except.ok (r, st)
    rw [hnn]
    show (if isRunnableVariableStr "$context" then ivCheckValue reg (g + 2) false r st
      else Except.ok (r, st)) = Except.ok (r, st)
    rfl
  show ladderRun
      [ (fun v st => awRes false
          (match v with
            | .vstr s => isVarApply reg (g + 3) false s st
            | _ => .error (.cont none))),
        (fun v st => awRes false
          (match v with
            | .vstr s =>
              if isCommandCallable reg s && true then execFn reg (g + 3) (.vstr s) [] st false
              else .error (.cont none)
            | _ => .error (.cont none))) ]
      (.vstr "$context") st = Except.ok (r, st)
  refine ladderRun_head_ok ?_
  show awRes false (isVarApply reg (g + 3) false "$context" st) = Except.ok (r, st)
  rw [hvar]
  rfl

/-- Two-child `|` fold, evaluated step by step: the first child runs on
the unchanged state (initial result `undefined`), the second with
`scope.context` bound to the first's result, and each step restores the
context it found. -/
theorem contextFoldG_cons (ex : SubCommand → St → Except Err (Value × St))
    (q : SubCommand) (qs : List SubCommand) (r0 : Value) (st : St) :
    contextFoldG ex (q :: qs) r0 st =
      (match ex q (match r0 with
          | Value.vundef => st
          | _ => { st with scope := aSet st.scope "context" r0 }) with
       | .ok (rq, st') => contextFoldG ex qs rq { st' with scope := aSet st'.scope "context" (jsGet st.scope "context") }
       | .error e => .error e) := rfl

/-- Two-child `|` fold, evaluated step by step: the first child runs on
the unchanged state (initial result `undefined`), the second with
`scope.context` bound to the first's result, and each step restores the
context it found. -/
theorem contextFoldG_two (ex : SubCommand → St → Except Err (Value × St))
    (c p2 : SubCommand) (st : St) (r : Value) (st₁ : St) (r2 : Value) (st₂ : St)
    (hc : ex c st = .ok (r, st₁)) (hru : r.isUndef = false)
    (h2 : ex p2 { st₁ with scope := aSet (aSet st₁.scope "context" (jsGet st.scope "context")) "context" r } = .ok (r2, st₂)) :
    contextFoldG ex [c, p2] .vundef st =
      .ok (r2, { st₂ with scope := aSet st₂.scope "context" (jsGet (aSet st₁.scope "context" (jsGet st.scope "context")) "context") }) := by
  rw [contextFoldG_cons]
  dsimp only
  rw [hc]
  dsimp only
  rw [contextFoldG_cons, ctxUpdate_eq, hru]
  simp only [Bool.cond_false]
  rw [h2]
  rfl

/-! ## Claim theorems -/

/-- Claim C2, counterexample: `parse("1;")` yields `undefined` while
`parse("1")` yields `1` — the trailing empty child of `;` resets the
result, so `parse("a;") == parse("a")` fails. -/
theorem c2_counterexample :
    resVal (parse [] 20 false "1;" St.empty .vnull) = .ok .vundef ∧
    resVal (parse [] 20 false "1" St.empty .vnull) = .ok (.vnum 1) ∧
    resVal (parse [] 20 false "1;" St.empty .vnull) ≠
      resVal (parse [] 20 false "1" St.empty .vnull) := by
  refine ⟨rfl, rfl, fun h => ?_⟩
  have h' : (Except.ok Value.vundef : Except Err Value) = .ok (.vnum 1) := h
  injection h' with h''
  exact Value.noConfusion h''

/-- Claim C2, amended: the `;` fold executes the children in order; a
non-empty last child receives the prefix's state and decides the result
alone (so `parse("a; b")` is `b` evaluated after `a`'s effects, not
`parse("b")`), while an empty last child resets the result to
`undefined` (so `parse("a;") ≠ parse("a")` in general); concretely
`parse("1; 2") = 2`. -/
theorem c2_sequence_amended :
    (∀ (ex : SubCommand → St → Except Err (Value × St)) (parts : List SubCommand)
        (p : SubCommand) (r0 : Value) (st : St), subIsEmpty p = false →
        endFoldG ex (parts ++ [p]) r0 st =
          (match endFoldG ex parts r0 st with
           | .ok (_, st') => ex p st'
           | .error e => .error e)) ∧
    (∀ (ex : SubCommand → St → Except Err (Value × St)) (parts : List SubCommand)
        (p : SubCommand) (r0 : Value) (st : St), subIsEmpty p = true →
        endFoldG ex (parts ++ [p]) r0 st =
          (match endFoldG ex parts r0 st with
           | .ok (_, st') => .ok (.vundef, st')
           | .error e => .error e)) ∧
    resVal (parse [] 20 false "1; 2" St.empty .vnull) = .ok (.vnum 2) :=
  ⟨endFoldG_append_exec, endFoldG_append_empty, rfl⟩

/-- Claim C2, amended, witness at `1; 2` and `1;`. -/
theorem c2_sequence_amended_witness :
    (endFoldG (fun _ st => .ok (.vnum 1, st)) ([.leaf "1"] ++ [.leaf "2"]) .vundef St.empty =
      (match endFoldG (fun _ st => .ok (.vnum 1, st)) [.leaf "1"] .vundef St.empty with
       | .ok (_, st') => (fun (_ : SubCommand) (st : St) => (.ok (.vnum 1, st) : Except Err (Value × St))) (.leaf "2") st'
       | .error e => .error e)) ∧
    (endFoldG (fun _ st => .ok (.vnum 1, st)) ([.leaf "1"] ++ [.leaf ""]) .vundef St.empty =
      (match endFoldG (fun _ st => .ok (.vnum 1, st)) [.leaf "1"] .vundef St.empty with
       | .ok (_, st') => .ok (.vundef, st')
       | .error e => .error e)) :=
  ⟨c2_sequence_amended.1 (fun _ st => .ok (.vnum 1, st)) [.leaf "1"] (.leaf "2") .vundef St.empty rfl,
   c2_sequence_amended.2.1 (fun _ st => .ok (.vnum 1, st)) [.leaf "1"] (.leaf "") .vundef St.empty rfl⟩

/-- Claim C3, counterexample: `parse("null | $context")` yields
`undefined` while `parse("null")` yields `null` — reading `$context`
turns the nullish binding into the `undefined` default, so
`parse("x | $context") == parse("x")` fails at `x = null`. -/
theorem c3_counterexample :
    resVal (parse [] 20 false "null | $context" St.empty .vnull) = .ok .vundef ∧
    resVal (parse [] 20 false "null" St.empty .vnull) = .ok .vnull ∧
    resVal (parse [] 20 false "null | $context" St.empty .vnull) ≠
      resVal (parse [] 20 false "null" St.empty .vnull) := by
  refine ⟨rfl, rfl, fun h => ?_⟩
  have h' : (Except.ok Value.vundef : Except Err Value) = .ok .vnull := h
  injection h' with h''
  exact Value.noConfusion h''

/-- Claim C3, amended: the `|` fold does save, set and restore
`scope.context` around each child, so a successful chain leaves
`scope.context` untouched; and `x | $context` returns `x`'s value
whenever that value is neither nullish (else the `$context` read falls
back to the `undefined` default) nor deferred (else the read resolves
it). -/
theorem c3_pipe_context_amended :
    (∀ (ex : SubCommand → St → Except Err (Value × St)) (parts : List SubCommand)
        (r0 : Value) (st : St) (r : Value) (st₂ : St),
        contextFoldG ex parts r0 st = .ok (r, st₂) →
        jsGet st₂.scope "context" = jsGet st.scope "context") ∧
    (∀ (reg : Registry) (g : Nat) (c : SubCommand) (st : St) (r : Value) (st₁ : St),
        execCmd reg (g + 5) false c st true = .ok (r, st₁) →
        r.isNullish = false → r.isPromiseV = false →
        ∃ st₂, execCmd reg (g + 6) false (.node .context [c, .leaf "$context"]) st true =
            .ok (r, st₂) ∧
          jsGet st₂.scope "context" = jsGet st.scope "context") := by
  refine ⟨contextFoldG_restores, ?_⟩
  intro reg g c st r st₁ hc hnn hnp
  have hru : r.isUndef = false := by
    cases r <;> simp_all [Value.isUndef, Value.isNullish]
  have hb : jsGet (aSet (aSet st₁.scope "context" (jsGet st.scope "context")) "context" r) "context" = r :=
    jsGet_aSet_self ..
  have hleaf := execCmd_context_leaf reg g
    { st₁ with scope := aSet (aSet st₁.scope "context" (jsGet st.scope "context")) "context" r } r hb hnn hnp
  have hcex : (fun c st => awRes false (execCmd reg (g + 5) false c st true)) c st = .ok (r, st₁) := by
    show awRes false (execCmd reg (g + 5) false c st true) = .ok (r, st₁)
    rw [hc]; rfl
  have hlex : (fun c st => awRes false (execCmd reg (g + 5) false c st true)) (.leaf "$context")
      { st₁ with scope := aSet (aSet st₁.scope "context" (jsGet st.scope "context")) "context" r } =
      .ok (r, { st₁ with scope := aSet (aSet st₁.scope "context" (jsGet st.scope "context")) "context" r }) := by
    show awRes false (execCmd reg (g + 5) false (.leaf "$context")
      { st₁ with scope := aSet (aSet st₁.scope "context" (jsGet st.scope "context")) "context" r } true) = _
    rw [hleaf]; rfl
  have hfold := contextFoldG_two (fun c st => awRes false (execCmd reg (g + 5) false c st true))
    c (.leaf "$context") st r st₁ r _ hcex hru hlex
  have hfold2 : execCmd reg (g + 6) false (.node .context [c, .leaf "$context"]) st true = _ := hfold
  refine ⟨_, hfold2, ?_⟩
  simp only [jsGet_aSet_self]

/-- Claim C3, amended, witness: empty chain restoration and the pipe
equation at `1 | $context`. -/
theorem c3_pipe_context_amended_witness :
    (jsGet St.empty.scope "context" = jsGet St.empty.scope "context") ∧
    (∃ st₂, execCmd [] 6 false (.node .context [.leaf "1", .leaf "$context"]) St.empty true =
        .ok (.vnum 1, st₂) ∧
      jsGet st₂.scope "context" = jsGet St.empty.scope "context") :=
  ⟨c3_pipe_context_amended.1 (fun _ st => .ok (.vnull, st)) [] .vnull St.empty .vnull St.empty rfl,
   c3_pipe_context_amended.2 [] 0 (.leaf "1") St.empty (.vnum 1) St.empty rfl rfl rfl⟩

/-- Claim C4, counterexample: `parse("null >> x; $x")` yields
`undefined` while `parse("null")` yields `null` — the read of a nullish
assigned value falls through to the `undefined` default, so
`parse("v >> x; $x") == parse("v")` fails at `v = null`. -/
theorem c4_counterexample :
    resVal (parse [] 30 false "null >> x; $x" St.empty .vnull) = .ok .vundef ∧
    resVal (parse [] 30 false "null" St.empty .vnull) = .ok .vnull ∧
    resVal (parse [] 30 false "null >> x; $x" St.empty .vnull) ≠
      resVal (parse [] 30 false "null" St.empty .vnull) := by
  refine ⟨rfl, rfl, fun h => ?_⟩
  have h' : (Except.ok Value.vundef : Except Err Value) = .ok .vnull := h
  injection h' with h''
  exact Value.noConfusion h''

/-- Claim C4, amended: `>>` executes its first child, assigns the result
to each later name and returns the result; the assigned value reads back
through a simple unshadowed name exactly when it is not nullish (a
nullish value reads back as the `undefined` default); concretely
`parse("7 >> x; $x") = 7`. -/
theorem c4_out_roundtrip_amended :
    (∀ (ex : SubCommand → St → Except Err (Value × St)) (c : SubCommand)
        (rest : List SubCommand) (st : St) (r : Value) (st₁ stA : St),
        ex c st = .ok (r, st₁) → outAssignG ex r rest st₁ = .ok stA →
        outFoldG ex (c :: rest) st = .ok (r, stA)) ∧
    (∀ (st : St) (s : String) (r : Value), r.isNullish = false →
        (jsGet st.scope s).isNullish = true →
        setVar st (.vstr s) r = .ok { st with vars := aSet st.vars s r } ∧
        getVarStr { st with vars := aSet st.vars s r } s .vundef = r) ∧
    resVal (parse [] 30 false "7 >> x; $x" St.empty .vnull) = .ok (.vnum 7) :=
  ⟨outFoldG_first, setVar_getVar_roundtrip, rfl⟩

/-- Claim C4, amended, witness at `7 >> x`. -/
theorem c4_out_roundtrip_amended_witness :
    outFoldG (fun c st => match c with
        | .leaf "7" => .ok (.vnum 7, st)
        | _ => .ok (.vstr "x", st))
      [.leaf "7", .leaf "x"] St.empty = .ok (.vnum 7, ⟨[], [("x", .vnum 7)]⟩) ∧
    (setVar St.empty (.vstr "x") (.vnum 7) =
        .ok { St.empty with vars := aSet St.empty.vars "x" (.vnum 7) } ∧
      getVarStr { St.empty with vars := aSet St.empty.vars "x" (.vnum 7) } "x" .vundef = .vnum 7) :=
  ⟨c4_out_roundtrip_amended.1 _ (.leaf "7") [.leaf "x"] St.empty (.vnum 7) St.empty _ rfl rfl,
   c4_out_roundtrip_amended.2.1 St.empty "x" (.vnum 7) rfl rfl⟩

/-- Claim C5, counterexample: a `-xyz` short-flag run does not set the
optional marker, so plain positional tokens after it still bind —
`concat -a 1 2` succeeds (returning `"2"`), and so does a plain token
collected by a `--name` bound to a variadic descriptor
(`concat --args 1 2 3` returns `"1 2 3"`). -/
theorem c5_counterexample :
    resVal (parse readmeReg 40 false "concat -a 1 2" St.empty .vnull) = .ok (.vstr "2") ∧
    resVal (parse readmeReg 40 false "concat --args 1 2 3" St.empty .vnull) = .ok (.vstr "1 2 3") :=
  ⟨rfl, rfl⟩

/-- Claim C5, amended: once a `--name` long option has appeared (it sets
the optional marker; `-xyz` runs do not), a later plain token with no
pending key fails `WrongArgumentPosition`; and once variadic collection
has begun, any later `-`-token fails `WrongArgumentPosition`. -/
theorem c5_dispatch_order_amended :
    (∀ (cmd : Cmd) (scope : Value) (i f : Nat) (s : String) (rest : List Value) (b : BindSt),
        b.variadic = true → strStarts s "-" = true →
        innerLoop cmd scope i (f + 1) (.vstr s :: rest) b = .error .wrongArgumentPosition) ∧
    (∀ (cmd : Cmd) (scope : Value) (i f : Nat) (arg : Value) (rest : List Value) (b : BindSt),
        b.optional = true → b.key = none →
        (match arg with | .vstr s => strStarts s "-" = false | _ => True) →
        innerLoop cmd scope i (f + 2) (arg :: rest) b = .error .wrongArgumentPosition) := by
  constructor
  · intro cmd scope i f s rest b hv hs
    by_cases hdd : strStarts s "--" <;> simp [innerLoop, hdd, hs, hv]
  · intro cmd scope i f arg rest b ho hk hnd
    have hp : innerPlain cmd scope i (f + 1) arg rest b = .error .wrongArgumentPosition := by
      simp [innerPlain, hk, ho]
    cases arg with
    | vstr s =>
      have hnd' : strStarts s "-" = false := hnd
      have hdd : strStarts s "--" = false := by
        cases h' : strStarts s "--"
        · rfl
        · rw [strStarts_dash_of_ddash h'] at hnd'; exact hnd'
      simp [innerLoop, hdd, hnd', hp]
    | _ => simp [innerLoop, hp]

/-- Claim C5, amended, witness on the `concat` command. -/
theorem c5_dispatch_order_amended_witness :
    innerLoop concatCmd (.vobj []) 3 1 [.vstr "--delim"] { variadic := true } =
      .error .wrongArgumentPosition ∧
    innerLoop concatCmd (.vobj []) 2 2 [.vnum 9] { optional := true } =
      .error .wrongArgumentPosition :=
  ⟨c5_dispatch_order_amended.1 concatCmd (.vobj []) 3 0 "--delim" [] { variadic := true } rfl rfl,
   c5_dispatch_order_amended.2 concatCmd (.vobj []) 2 0 (.vnum 9) [] { optional := true } rfl rfl trivial⟩

/-- Claim C6 (confirmed): `parse("((1+2)*3-4)/5")` with an empty scope in
sync mode returns exactly `1`, and the operand loop of `parseMath` is the
left fold `acc = x₀; acc = callback(acc, xᵢ)` (a `Continue` payload
replacing the accumulator). -/
theorem c6_math_eval :
    resVal (parse [] 100 false "((1+2)*3-4)/5" St.empty .vnull) = .ok (.vnum 1) ∧
    ∀ (op : MathOp) (x : Value) (ys : List Value),
      parseMath op (x :: ys) =
        ys.foldlM (fun acc y =>
          match mathCallback op acc y with
          | .ok r => .ok r
          | .error (.cont p) => .ok (p.getD acc)
          | .error e => .error e) x :=
  ⟨rfl, fun op x ys => parseMathGo_foldlM op x ys⟩

/-- Claim C7, counterexample: the template `"//#xsh 2 >> testVar4;\n"`
(two lines) renders to `""` (one line) — the line directive's terminator
is captured into the replacement and the `undefined` directive result
formats to the empty string, dropping it. -/
theorem c7_counterexample :
    tplOut (parseTemplateJs [] 200 false "//#xsh 2 >> testVar4;\n" St.empty) = some "" ∧
    lineCount "//#xsh 2 >> testVar4;\n" = 2 ∧ lineCount "" = 1 :=
  ⟨rfl, rfl, rfl⟩

/-- Claim C7, amended: a line directive keeps its captured terminator
exactly when its result is a number, string or bigint (`checkValue`
appends `end` for those and yields `""` otherwise), so only templates
whose directives all produce such values keep their line count;
concretely `"a\n//#xsh 1+1\nb"` renders to `"a\n2\nb"` with the line
count preserved. -/
theorem c7_template_lines_amended :
    (tplOut (parseTemplateJs [] 200 false "a\n//#xsh 1+1\nb" St.empty) = some "a\n2\nb" ∧
      lineCount "a\n2\nb" = lineCount "a\n//#xsh 1+1\nb") ∧
    (∀ (q : Q) (e : String), tplCheckValue (.vnum q) e = jsNumToString q ++ e) ∧
    (∀ (t e : String), tplCheckValue (.vstr t) e = t ++ e) ∧
    (∀ (e : String), tplCheckValue .vundef e = "" ∧ tplCheckValue .vnull e = "" ∧
      tplCheckValue (.vbool true) e = "") :=
  ⟨⟨rfl, rfl⟩, fun _ _ => rfl, fun _ _ => rfl, fun _ => ⟨rfl, rfl, rfl⟩⟩

/-- Claim C8 (confirmed): for a simple name, `getVar` returns
`scope[name] ?? VARS[name] ?? default`, preferring the scope binding
whenever it is neither null nor undefined. -/
theorem c8_getvar_lookup (st : St) (name : String) (d : Value) :
    getVar st (.vstr name) d =
      .ok (if (jsGet st.scope name).isNullish = false then jsGet st.scope name
        else if (jsGet st.vars name).isNullish = false then jsGet st.vars name
        else d) := by
  show Except.ok (getVarStr st name d) = _
  unfold getVarStr
  by_cases h1 : (jsGet st.scope name).isNullish <;>
    by_cases h2 : (jsGet st.vars name).isNullish <;>
      simp [Value.orElse, h1, h2]

/-- Claim C9 (code bug): with `VARS.a.b` a deferred value, the write
`setVar(["a","b","c"], 1)` returns successfully — `getProperty` runs
before the promise check, which tests the node already left behind, and
the final assignment onto the deferred value is an unobservable JS
property write — instead of failing with `PropertyTypeMismatch` as
specified. -/
theorem c9_setvar_deep_promise_no_error :
    setVar ⟨[], [("a", .vobj [("b", .vprom .vnull)])]⟩
        (.varr [.vstr "a", .vstr "b", .vstr "c"]) (.vnum 1) =
      .ok ⟨[], [("a", .vobj [("b", .vprom .vnull)])]⟩ := rfl

/-- Claim C10 (confirmed): a simple-name `setVar` writes only the
process-global store, leaving the scope object alone; hence a value
stored through `>>` in one `parse` call is still readable by a later
`parse` call that starts from a fresh scope over the same store. -/
theorem c10_setvar_global_persistence :
    (∀ (st : St) (s : String) (v : Value),
        setVar st (.vstr s) v = .ok { st with vars := aSet st.vars s v }) ∧
    (match parse [] 30 false "7 >> x" St.empty .vnull with
     | .ok (v, st₁) =>
        v = .vnum 7 ∧
        resVal (parse [] 30 false "$x" ⟨[], st₁.vars⟩ .vnull) = .ok (.vnum 7)
     | .error _ => False) :=
  ⟨fun _ _ _ => rfl, ⟨rfl, rfl⟩⟩

/-! ## Deferred-freedom lemmas (for the sync/async claim) -/

theorem noProm_go_iff (xs : List Value) :
    noProm.go xs = true ↔ ∀ x ∈ xs, noProm x = true := by
  induction xs with
  | nil => simp [noProm.go]
  | cons x xs ih => simp [noProm.go, ih]

theorem noProm_goF_iff (fs : List (String × Value)) :
    noProm.goF fs = true ↔ ∀ p ∈ fs, noProm p.2 = true := by
  induction fs with
  | nil => simp [noProm.goF]
  | cons p fs ih => obtain ⟨k, v⟩ := p; simp [noProm.goF, ih]

theorem awaitV_of_noProm {v : Value} (h : noProm v = true) : v.awaitV = v := by
  cases v <;> simp_all [awaitV, noProm]

theorem aw_true_of_noProm {v : Value} (h : noProm v = true) : aw true v = v := by
  simp [aw, awaitV_of_noProm h]

theorem awRes_false_eq (r : Except Err (Value × St)) : awRes false r = r := by
  cases r with
  | ok p => obtain ⟨v, st⟩ := p; rfl
  | error e => rfl

theorem map_awaitV_of_noProm {l : List Value} (h : noProm.go l = true) :
    l.map Value.awaitV = l := by
  induction l with
  | nil => rfl
  | cons x xs ih =>
    simp only [noProm.go, Bool.and_eq_true] at h
    simp [awaitV_of_noProm h.1, ih h.2]

theorem jsGet_noProm_of_all {l : List (String × Value)} {k : String}
    (h : ∀ p ∈ l, noProm p.2 = true) : noProm (jsGet l k) = true := by
  induction l with
  | nil => simp [jsGet, aGet, noProm]
  | cons p l ih =>
    obtain ⟨k', v⟩ := p
    by_cases hk : k' = k
    · simp only [jsGet, aGet, hk, if_pos rfl, Option.getD_some]
      exact h (k, v) (by rw [← hk]; exact List.mem_cons_self ..)
    · simp only [jsGet, aGet, hk, if_neg hk]
      exact ih (fun q hq => h q (List.mem_cons_of_mem _ hq))

theorem all_iff_noProm (l : List (String × Value)) :
    (l.all fun p => noProm p.2) = true ↔ ∀ p ∈ l, noProm p.2 = true := by
  simp [List.all_eq_true]

theorem aSet_all_noProm {l : List (String × Value)} {k : String} {v : Value}
    (h : ∀ p ∈ l, noProm p.2 = true) (hv : noProm v = true) :
    ∀ p ∈ aSet l k v, noProm p.2 = true := by
  induction l with
  | nil => simp [aSet, hv]
  | cons q l ih =>
    obtain ⟨k', w⟩ := q
    by_cases hk : k' = k
    · simp only [aSet, if_pos hk]
      intro p hp
      rcases List.mem_cons.mp hp with h1 | h2
      · subst h1; exact hv
      · exact h p (List.mem_cons_of_mem _ h2)
    · simp only [aSet, if_neg hk]
      intro p hp
      rcases List.mem_cons.mp hp with h1 | h2
      · subst h1; exact h (k', w) (List.mem_cons_self ..)
      · exact ih (fun q hq => h q (List.mem_cons_of_mem _ hq)) p h2

theorem noPromSt_iff (st : St) :
    st.noPromSt = true ↔
      (∀ p ∈ st.scope, noProm p.2 = true) ∧ ∀ p ∈ st.vars, noProm p.2 = true := by
  simp [St.noPromSt, List.all_eq_true]

theorem noPromSt_setScope {st : St} {k : String} {v : Value}
    (h : st.noPromSt = true) (hv : noProm v = true) :
    ({ st with scope := aSet st.scope k v } : St).noPromSt = true := by
  rw [noPromSt_iff] at h ⊢
  exact ⟨aSet_all_noProm h.1 hv, h.2⟩

theorem noPromSt_setVars {st : St} {k : String} {v : Value}
    (h : st.noPromSt = true) (hv : noProm v = true) :
    ({ st with vars := aSet st.vars k v } : St).noPromSt = true := by
  rw [noPromSt_iff] at h ⊢
  exact ⟨h.1, aSet_all_noProm h.2 hv⟩

theorem jsGet_scope_noProm {st : St} {k : String} (h : st.noPromSt = true) :
    noProm (jsGet st.scope k) = true :=
  jsGet_noProm_of_all ((noPromSt_iff st).mp h).1

theorem jsGet_vars_noProm {st : St} {k : String} (h : st.noPromSt = true) :
    noProm (jsGet st.vars k) = true :=
  jsGet_noProm_of_all ((noPromSt_iff st).mp h).2

theorem orElse_noProm {a b : Value} (ha : noProm a = true) (hb : noProm b = true) :
    noProm (a.orElse b) = true := by
  unfold Value.orElse
  by_cases h : a.isNullish <;> simp [h, ha, hb]

theorem propGet_noProm {v k : Value} (hv : noProm v = true) :
    noProm (propGet v k) = true := by
  cases v with
  | varr xs =>
    simp only [propGet]
    by_cases hl : jsToString k = "length"
    · simp [hl, noProm]
    · simp only [hl, if_neg hl]
      cases hi : strToIndex (jsToString k) with
      | none => simp [noProm]
      | some i =>
        simp only
        cases hg : xs.get? i with
        | none => simp [noProm]
        | some x =>
          simp only [Option.getD_some]
          exact (noProm_go_iff xs).mp hv x (List.get?_mem hg)
  | vobj fs =>
    exact jsGet_noProm_of_all ((noProm_goF_iff fs).mp hv)
  | _ => simp_all [propGet, noProm]

theorem getVarStr_noProm {st : St} {s : String} {d : Value}
    (hst : st.noPromSt = true) (hd : noProm d = true) :
    noProm (getVarStr st s d) = true := by
  unfold getVarStr
  exact orElse_noProm (jsGet_scope_noProm hst)
    (orElse_noProm (jsGet_vars_noProm hst) hd)

theorem getVarWalk_noProm {d : Value} (hd : noProm d = true) :
    ∀ (keys : List Value) (res : Value), noProm res = true →
      noProm (getVarWalk d res keys) = true := by
  intro keys
  induction keys with
  | nil =>
    intro res hres
    cases res with
    | vprom v => simp [noProm] at hres
    | _ => exact orElse_noProm hres hd
  | cons k rest ih =>
    intro res hres
    have step : ∀ item : Value, noProm item = true →
        noProm (if item.isNullish then item.orElse d else getVarWalk d item rest) = true := by
      intro item hitem
      by_cases hni : item.isNullish
      · simp only [hni, if_pos]
        exact orElse_noProm hitem hd
      · simp only [hni, Bool.false_eq_true, if_false]
        exact ih _ hitem
    cases res with
    | vprom v => simp [noProm] at hres
    | vnull => exact orElse_noProm hres hd
    | vundef => exact orElse_noProm hres hd
    | vbool b => exact step (propGet (Value.vbool b) k) (propGet_noProm hres)
    | vnum q => exact step (propGet (Value.vnum q) k) (propGet_noProm hres)
    | vstr t => exact step (propGet (Value.vstr t) k) (propGet_noProm hres)
    | varr xs => exact step (propGet (Value.varr xs) k) (propGet_noProm hres)
    | vobj fs => exact step (propGet (Value.vobj fs) k) (propGet_noProm hres)
    | vfun fd => exact step (propGet (Value.vfun fd) k) (propGet_noProm hres)

theorem getVar_noProm : ∀ (name : Value) (st : St) (d : Value), st.noPromSt = true →
    noProm d = true → ∀ v, getVar st name d = .ok v → noProm v = true
  | .vstr t, st, d, hst, hd, v, h => by
      have h2 : Except.ok (getVarStr st t d) = Except.ok v := h
      injection h2 with h3
      rw [← h3]
      exact getVarStr_noProm hst hd
  | .varr [], st, d, hst, hd, v, h => by cases h
  | .varr (n0 :: rest), st, d, hst, hd, v, h => by
      cases hh : getVar st n0 d with
      | ok head =>
        have h2 : (Except.ok (getVarWalk d head rest) : Except Err Value) = Except.ok v := by
          rw [← h]
          show (Except.ok (getVarWalk d head rest) : Except Err Value) =
            Except.bind (getVar st n0 d) (fun head => Except.ok (getVarWalk d head rest))
          rw [hh]
          rfl
        injection h2 with h3
        rw [← h3]
        exact getVarWalk_noProm hd rest head (getVar_noProm n0 st d hst hd head hh)
      | error e =>
        have h2 : (Except.error e : Except Err Value) = Except.ok v := by
          rw [← h]
          show (Except.error e : Except Err Value) =
            Except.bind (getVar st n0 d) (fun head => Except.ok (getVarWalk d head rest))
          rw [hh]
          rfl
        cases h2
  | .vnull, st, d, hst, hd, v, h => by cases h
  | .vundef, st, d, hst, hd, v, h => by cases h
  | .vbool b, st, d, hst, hd, v, h => by cases h
  | .vnum q, st, d, hst, hd, v, h => by cases h
  | .vobj fs, st, d, hst, hd, v, h => by cases h
  | .vprom p, st, d, hst, hd, v, h => by cases h
  | .vfun fd, st, d, hst, hd, v, h => by cases h
termination_by name _ _ _ _ _ _ => sizeOf name

theorem getPropertyE_noProm {cur : Value} {key : String} {v : Value}
    (hc : noProm cur = true) (h : getPropertyE cur key = .ok v) : noProm v = true := by
  unfold getPropertyE at h
  cases hb : hasOwnNonNull cur key with
  | ok b =>
    rw [hb] at h
    by_cases hbb : b = true
    · subst hbb
      have h2 : (Except.ok (propGet cur (.vstr key)) : Except Err Value) = Except.ok v := h
      injection h2 with h3
      rw [← h3]
      exact propGet_noProm hc
    · rw [Bool.eq_false_iff.mpr hbb] at h
      cases h
  | error e => rw [hb] at h; cases h

theorem list_set_noProm {xs : List Value} {i : Nat} {v : Value}
    (hxs : noProm.go xs = true) (hv : noProm v = true) :
    noProm.go (xs.set i v) = true := by
  rw [noProm_go_iff] at hxs ⊢
  intro x hx
  rcases List.mem_or_eq_of_mem_set hx with h | h
  · exact hxs x h
  · rw [h]; exact hv

theorem list_append_noProm {xs ys : List Value}
    (hxs : noProm.go xs = true) (hys : noProm.go ys = true) :
    noProm.go (xs ++ ys) = true := by
  rw [noProm_go_iff] at hxs hys ⊢
  intro x hx
  rcases List.mem_append.mp hx with h | h
  · exact hxs x h
  · exact hys x h

theorem replicate_vundef_noProm (n : Nat) : noProm.go (List.replicate n .vundef) = true := by
  rw [noProm_go_iff]
  intro x hx
  rw [List.eq_of_mem_replicate hx]
  rfl

theorem assignOn_noProm {cur : Value} {key : String} {value v' : Value}
    (hc : noProm cur = true) (hv : noProm value = true)
    (h : assignOn cur key value = .ok v') : noProm v' = true := by
  cases cur with
  | vnull => cases h
  | vundef => cases h
  | vobj fs =>
    have h2 : (Except.ok (Value.vobj (aSet fs key value)) : Except Err Value) = Except.ok v' := h
    injection h2 with h3
    rw [← h3]
    show noProm.goF (aSet fs key value) = true
    rw [noProm_goF_iff]
    exact aSet_all_noProm ((noProm_goF_iff fs).mp hc) hv
  | varr xs =>
    unfold assignOn at h
    cases hi : strToIndex key with
    | some i =>
      rw [hi] at h
      dsimp only at h
      by_cases hlt : i < xs.length
      · rw [if_pos hlt] at h
        injection h with h3
        rw [← h3]
        exact list_set_noProm hc hv
      · rw [if_neg hlt] at h
        injection h with h3
        rw [← h3]
        show noProm.go (xs ++ List.replicate (i - xs.length) .vundef ++ [value]) = true
        exact list_append_noProm (list_append_noProm hc (replicate_vundef_noProm _))
          (by simp [noProm.go, hv])
    | none =>
      rw [hi] at h
      dsimp only at h
      injection h with h3
      rw [← h3]
      exact hc
  | vbool b => injection h with h3; rw [← h3]; exact hc
  | vnum q => injection h with h3; rw [← h3]; exact hc
  | vstr t => injection h with h3; rw [← h3]; exact hc
  | vprom p => injection h with h3; rw [← h3]; exact hc
  | vfun fd => injection h with h3; rw [← h3]; exact hc

theorem setVarGo_noProm {value : Value} (hv : noProm value = true) :
    ∀ (keys : List Value) (cur : Value), noProm cur = true →
      ∀ new, setVarGo value cur keys = .ok new → noProm new = true
  | [], cur, hc, new, h => assignOn_noProm hc hv h
  | [k], cur, hc, new, h => assignOn_noProm hc hv h
  | k :: k2 :: rest, cur, hc, new, h => by
      rw [show setVarGo value cur (k :: k2 :: rest) =
          Except.bind (getPropertyE cur (jsToString k)) (fun item =>
            if cur.isPromiseV then .error .propertyTypeMismatch
            else Except.bind (setVarGo value item (k2 :: rest)) (fun new =>
              assignOn cur (jsToString k) new)) from rfl] at h
      cases hg : getPropertyE cur (jsToString k) with
      | ok item =>
        rw [hg] at h
        by_cases hcp : cur.isPromiseV
        · simp only [Except.bind, hcp, if_pos] at h
          cases h
        · simp only [Except.bind, hcp, Bool.false_eq_true, if_false] at h
          cases hsg : setVarGo value item (k2 :: rest) with
          | ok new2 =>
            rw [hsg] at h
            simp only [Except.bind] at h
            exact assignOn_noProm hc
              (setVarGo_noProm hv (k2 :: rest) item (getPropertyE_noProm hc hg) new2 hsg) h
          | error e => rw [hsg] at h; simp only [Except.bind] at h; cases h
      | error e => rw [hg] at h; simp only [Except.bind] at h; cases h

theorem setVar_noPromSt {st : St} {name value : Value} {st' : St}
    (hst : st.noPromSt = true) (hv : noProm value = true)
    (h : setVar st name value = .ok st') : st'.noPromSt = true := by
  cases name with
  | vstr t =>
    injection h with h3
    rw [← h3]
    exact noPromSt_setVars hst hv
  | vnum q =>
    injection h with h3
    rw [← h3]
    exact noPromSt_setVars hst hv
  | varr ns =>
    cases ns with
    | nil => cases h
    | cons n0 rest =>
      unfold setVar at h
      by_cases hp : (jsGet st.vars (jsToString n0)).isPromiseV
      · simp only [hp, if_pos] at h
        cases h
      · simp only [hp, Bool.false_eq_true, if_false] at h
        have hres0 : noProm (jsGet st.vars (jsToString n0)) = true := jsGet_vars_noProm hst
        cases rest with
        | nil =>
          cases ha : assignOn (jsGet st.vars (jsToString n0)) (jsToString n0) value with
          | ok new =>
            rw [ha] at h
            simp only [Except.bind] at h
            injection h with h3
            rw [← h3]
            exact noPromSt_setVars hst (assignOn_noProm hres0 hv ha)
          | error e => rw [ha] at h; simp only [Except.bind] at h; cases h
        | cons k2 krest =>
          cases hs : setVarGo value (jsGet st.vars (jsToString n0)) (k2 :: krest) with
          | ok new =>
            rw [hs] at h
            simp only [Except.bind] at h
            injection h with h3
            rw [← h3]
            exact noPromSt_setVars hst (setVarGo_noProm hv _ _ hres0 new hs)
          | error e => rw [hs] at h; simp only [Except.bind] at h; cases h
  | vnull => cases h
  | vundef => cases h
  | vbool b => cases h
  | vobj fs => cases h
  | vprom p => cases h
  | vfun fd => cases h

theorem prepareNum_spec (v : Value) :
    (∃ q, prepareNum v = .ok q) ∨ prepareNum v = .error .propertyTypeMismatch := by
  cases v <;> simp [prepareNum]

theorem spreadFields_noProm {v : Value} (hv : noProm v = true) :
    ∀ p ∈ spreadFields v, noProm p.2 = true := by
  cases v with
  | vobj fs => exact (noProm_goF_iff fs).mp hv
  | varr xs =>
    intro p hp
    simp only [spreadFields, List.mem_map] at hp
    obtain ⟨q, hq, hpq⟩ := hp
    rw [← hpq]
    exact (noProm_go_iff xs).mp hv q.2 (List.mem_enum_iff_get?.mp hq |> fun h => List.get?_mem h)
  | _ => intro p hp; simp [spreadFields] at hp

theorem foldl_aSet_noProm {l init : List (String × Value)}
    (hi : ∀ p ∈ init, noProm p.2 = true) (hl : ∀ p ∈ l, noProm p.2 = true) :
    ∀ p ∈ l.foldl (fun acc q => aSet acc q.1 q.2) init, noProm p.2 = true := by
  induction l generalizing init with
  | nil => exact hi
  | cons q l ih =>
    simp only [List.foldl_cons]
    exact ih (aSet_all_noProm hi (hl q (List.mem_cons_self ..)))
      (fun p hp => hl p (List.mem_cons_of_mem _ hp))

theorem addCallback_cases (a b : Value) :
    (∃ v, addCallback a b = .ok v ∧
      (noProm a = true → noProm b = true → noProm v = true)) ∨
    addCallback a b = .error .propertyTypeMismatch := by
  unfold addCallback
  cases a <;> cases b <;> simp only [Except.bind] <;>
    first
    | (right; rfl)
    | (left
       refine ⟨_, rfl, ?_⟩
       intro ha hb
       first
       | rfl
       | exact list_append_noProm ha hb
       | (show noProm.goF _ = true
          rw [noProm_goF_iff]
          exact foldl_aSet_noProm (spreadFields_noProm ha) (spreadFields_noProm hb)))

theorem mathCallback_cases (op : MathOp) (a b : Value) :
    (∃ v, mathCallback op a b = .ok v ∧
      (noProm a = true → noProm b = true → noProm v = true)) ∨
    mathCallback op a b = .error .propertyTypeMismatch := by
  have hnum : ∀ (mk : Q → Q → Value), (∀ x y, noProm (mk x y) = true) →
      (∃ v, (do
          let x ← prepareNum a
          let y ← prepareNum b
          (Except.ok (mk x y) : Except Err Value)) = .ok v ∧
        (noProm a = true → noProm b = true → noProm v = true)) ∨
      (do
        let x ← prepareNum a
        let y ← prepareNum b
        (Except.ok (mk x y) : Except Err Value)) = .error .propertyTypeMismatch := by
    intro mk hmk
    rcases prepareNum_spec a with ⟨qa, hqa⟩ | hqa <;>
      rcases prepareNum_spec b with ⟨qb, hqb⟩ | hqb <;>
        simp only [hqa, hqb, Except.bind] <;>
          first
          | (left; exact ⟨_, rfl, fun _ _ => hmk qa qb⟩)
          | (right; rfl)
  cases op with
  | eqv => exact Or.inl ⟨_, rfl, fun _ _ => rfl⟩
  | neq => exact Or.inl ⟨_, rfl, fun _ _ => rfl⟩
  | eq => exact Or.inl ⟨_, rfl, fun _ _ => rfl⟩
  | ne => exact Or.inl ⟨_, rfl, fun _ _ => rfl⟩
  | add => exact addCallback_cases a b
  | ge => exact hnum (fun x y => .vbool (y ≤ x)) (fun _ _ => rfl)
  | le => exact hnum (fun x y => .vbool (x ≤ y)) (fun _ _ => rfl)
  | gt => exact hnum (fun x y => .vbool (y < x)) (fun _ _ => rfl)
  | lt => exact hnum (fun x y => .vbool (x < y)) (fun _ _ => rfl)
  | sub => exact hnum (fun x y => .vnum (x - y)) (fun _ _ => rfl)
  | mul => exact hnum (fun x y => .vnum (x * y)) (fun _ _ => rfl)
  | div => exact hnum (fun x y => .vnum (x / y)) (fun _ _ => rfl)
  | mod => exact hnum (fun x y => .vnum (jsMod x y)) (fun _ _ => rfl)

theorem parseMathGo_noProm : ∀ (ys : List Value) (op : MathOp) (x : Value),
    noProm x = true → noProm.go ys = true →
    ∀ v, parseMathGo op x ys = .ok v → noProm v = true
  | [], op, x, hx, hys, v, h => by injection h with h3; rw [← h3]; exact hx
  | y :: ys, op, x, hx, hys, v, h => by
      have hy : noProm y = true ∧ noProm.go ys = true := by
        simpa [noProm.go, Bool.and_eq_true] using hys
      rcases mathCallback_cases op x y with ⟨r, hr, hpres⟩ | hr
      · rw [show parseMathGo op x (y :: ys) =
            (match mathCallback op x y with
             | .ok r => parseMathGo op r ys
             | .error (.cont p) => parseMathGo op (p.getD x) ys
             | .error e => .error e) from rfl, hr] at h
        exact parseMathGo_noProm ys op r (hpres hx hy.1) hy.2 v h
      · rw [show parseMathGo op x (y :: ys) =
            (match mathCallback op x y with
             | .ok r => parseMathGo op r ys
             | .error (.cont p) => parseMathGo op (p.getD x) ys
             | .error e => .error e) from rfl, hr] at h
        cases h

theorem parseMath_noProm {op : MathOp} {operands : List Value} {v : Value}
    (hops : noProm.go operands = true) (h : parseMath op operands = .ok v) :
    noProm v = true := by
  cases operands with
  | nil => injection h with h3; rw [← h3]; rfl
  | cons x rest =>
    have hx : noProm x = true ∧ noProm.go rest = true := by
      simpa [noProm.go, Bool.and_eq_true] using hops
    exact parseMathGo_noProm rest op x hx.1 hx.2 v h

/-! ## Normalizer state preservation -/

theorem noProm_numLit (value : String) :
    noProm (if isIntLit value = true then Value.vnum (parseIntLit value)
      else if isFloatLit value = true then Value.vnum (parseFloatLit value)
      else Value.vstr value) = true := by
  split
  · rfl
  split <;> rfl

theorem bracketsGo_noPromSt : ∀ (f : Nat) (cs : List Char) (prev : Option Char) (st : St),
    st.noPromSt = true → (bracketsGo f cs prev st).2.noPromSt = true := by
  intro f cs prev st
  induction f, cs, prev, st using bracketsGo.induct <;> intro h <;>
    first
    | exact h
    | (simp_all +zetaDelta [bracketsGo, noPromSt_setScope, noProm]
       all_goals
         (rename_i hq hrec ih
          rw [if_neg fun hc => hc.2 (hq hc.1)]
          exact ih))

theorem minusGo_noPromSt : ∀ (f : Nat) (cs : List Char) (prev : Option Char) (st : St),
    st.noPromSt = true → (minusGo f cs prev st).2.noPromSt = true := by
  intro f cs prev st
  induction f, cs, prev, st using minusGo.induct <;> intro h <;>
    first
    | exact h
    | (simp_all +zetaDelta [minusGo, noPromSt_setScope, noProm_numLit]
       all_goals
         first
         | (rename_i hpm hdig hnext hrec ih
            rw [if_neg fun hall => by obtain ⟨hl, hd⟩ := hdig; simp [hall hl] at hd]
            exact ih)
         | (rename_i hq hrec ih
            rw [if_neg fun hc => absurd hc.2 (by simp [hq hc.1])]
            exact ih))

theorem braceExtractGo_noPromSt : ∀ (openc closec : Char) (f : Nat) (cs : List Char) (st : St),
    st.noPromSt = true → (braceExtractGo openc closec f cs st).2.noPromSt = true := by
  intro openc closec f cs st
  induction f, cs, st using braceExtractGo.induct openc closec <;> intro h <;>
    first
    | exact h
    | (simp_all +zetaDelta [braceExtractGo, noPromSt_setScope, noProm]
       all_goals
         (rename_i hle hrec ih
          rw [List.drop_eq_nil_of_le hle]
          exact ih))

theorem applyParseRules_noPromSt {s : String} {st : St} (h : st.noPromSt = true) :
    (applyParseRules s st).2.noPromSt = true := by
  unfold applyParseRules bracketsPass minusPass bracesPass
  dsimp only
  exact braceExtractGo_noPromSt _ _ _ _ _
    (braceExtractGo_noPromSt _ _ _ _ _
      (braceExtractGo_noPromSt _ _ _ _ _
        (minusGo_noPromSt _ _ _ _
          (bracketsGo_noPromSt _ _ _ _ h))))

mutual

theorem parseCommandAux_noPromSt : ∀ (g : Nat) (rules : List OpKind) (command : String) (st : St),
    st.noPromSt = true → (parseCommandAux g rules command st).2.noPromSt = true
  | 0, _, _, _, h => h
  | g + 1, rules, command, st, h => by
      rw [parseCommandAux]
      rcases hx : applyParseRules command st with ⟨c2, st2⟩
      have hap : st2.noPromSt = true := by
        have hh := @applyParseRules_noPromSt command st h
        rw [hx] at hh
        exact hh
      cases rules with
      | nil => exact hap
      | cons r rest =>
        dsimp only
        by_cases hl : (splitStr c2 r.key).length > 1
        · rw [if_pos hl]
          rcases hp : parseCommandPieces g rest (splitStr c2 r.key) st2 with ⟨cs, st3⟩
          have hq := parseCommandPieces_noPromSt g rest (splitStr c2 r.key) st2 hap
          rw [hp] at hq
          exact hq
        · rw [if_neg hl]
          exact parseCommandAux_noPromSt g rest c2 st2 hap

theorem parseCommandPieces_noPromSt : ∀ (g : Nat) (rules : List OpKind) (ps : List String) (st : St),
    st.noPromSt = true → (parseCommandPieces g rules ps st).2.noPromSt = true
  | 0, _, _, _, h => h
  | _ + 1, _, [], _, h => h
  | g + 1, rules, p :: ps, st, h => by
      rw [parseCommandPieces]
      rcases ha : parseCommandAux g rules p st with ⟨c2, st2⟩
      have h2 := parseCommandAux_noPromSt g rules p st h
      rw [ha] at h2
      exact parseCommandPieces_noPromSt g rules ps st2 h2

end

theorem parseCommand_noPromSt {command : String} {st : St} (h : st.noPromSt = true) :
    (parseCommand command st).2.noPromSt = true :=
  parseCommandAux_noPromSt _ _ _ _ h

/-! ## Continue-freedom of the pure helpers -/

/-- JS `await` is the identity on a deferred-free value in either mode. -/
theorem aw_of_noProm (asy : Bool) {v : Value} (h : noProm v = true) : aw asy v = v := by
  cases asy
  · rfl
  · exact aw_true_of_noProm h

/-- `checkProperty` fails only with a native `TypeError`. -/
theorem hasOwnNonNull_err : ∀ {v : Value} {key : String} {e : Err},
    hasOwnNonNull v key = .error e → e = .jsTypeError := by
  intro v key e h
  cases v <;>
    first
    | (injection h with h1; exact h1.symm)
    | cases h
    | (simp only [hasOwnNonNull] at h; split at h <;> cases h)

/-- `getProperty` never raises `Continue`. -/
theorem getPropertyE_err {cur : Value} {key : String} {e : Err}
    (h : getPropertyE cur key = .error e) : e.isCont = false := by
  rw [show getPropertyE cur key =
      Except.bind (hasOwnNonNull cur key) (fun b =>
        if b then .ok (propGet cur (.vstr key)) else .error .propertyNotFound) from rfl] at h
  cases hb : hasOwnNonNull cur key with
  | ok b =>
    rw [hb] at h
    simp only [Except.bind] at h
    cases b with
    | true => cases h
    | false =>
      injection h with h1
      rw [← h1]
      rfl
  | error e2 =>
    rw [hb] at h
    simp only [Except.bind] at h
    injection h with h1
    rw [← h1, hasOwnNonNull_err hb]
    rfl

/-- Property assignment fails only with a native `TypeError`. -/
theorem assignOn_err : ∀ {cur : Value} {key : String} {value : Value} {e : Err},
    assignOn cur key value = .error e → e = .jsTypeError := by
  intro cur key value e h
  cases cur <;>
    first
    | (injection h with h1; exact h1.symm)
    | cases h
    | (simp only [assignOn] at h
       split at h <;> first | cases h | (split at h <;> cases h))

/-- The `setVar` traversal loop never raises `Continue`. -/
theorem setVarGo_err : ∀ {value cur : Value} {ks : List Value} {e : Err},
    setVarGo value cur ks = .error e → e.isCont = false
  | value, cur, [], e, h => by rw [assignOn_err h]; rfl
  | value, cur, [k], e, h => by rw [assignOn_err h]; rfl
  | value, cur, k :: k2 :: rest, e, h => by
      rw [show setVarGo value cur (k :: k2 :: rest) =
          Except.bind (getPropertyE cur (jsToString k)) (fun item =>
            if cur.isPromiseV then .error .propertyTypeMismatch
            else Except.bind (setVarGo value item (k2 :: rest)) (fun new =>
              assignOn cur (jsToString k) new)) from rfl] at h
      cases hg : getPropertyE cur (jsToString k) with
      | ok item =>
        rw [hg] at h
        by_cases hcp : cur.isPromiseV
        · simp only [Except.bind, hcp, if_pos] at h
          injection h with h1
          rw [← h1]
          rfl
        · simp only [Except.bind, hcp, Bool.false_eq_true, if_false] at h
          cases hsg : setVarGo value item (k2 :: rest) with
          | ok new2 =>
            rw [hsg] at h
            simp only [Except.bind] at h
            rw [assignOn_err h]
            rfl
          | error e2 =>
            rw [hsg] at h
            simp only [Except.bind] at h
            injection h with h1
            rw [← h1]
            exact setVarGo_err hsg
      | error e2 =>
        rw [hg] at h
        simp only [Except.bind] at h
        injection h with h1
        rw [← h1]
        exact getPropertyE_err hg

/-- `setVar` never raises `Continue`. -/
theorem setVar_err : ∀ {st : St} {name value : Value} {e : Err},
    setVar st name value = .error e → e.isCont = false := by
  intro st name value e h
  cases name with
  | vstr s => cases h
  | vnum q => cases h
  | vnull => injection h with h1; rw [← h1]; rfl
  | vundef => injection h with h1; rw [← h1]; rfl
  | vbool b => injection h with h1; rw [← h1]; rfl
  | vobj fs => injection h with h1; rw [← h1]; rfl
  | vprom p => injection h with h1; rw [← h1]; rfl
  | vfun d => injection h with h1; rw [← h1]; rfl
  | varr ns =>
    cases ns with
    | nil => injection h with h1; rw [← h1]; rfl
    | cons n0 rest =>
      simp only [setVar] at h
      by_cases hpr : (jsGet st.vars (jsToString n0)).isPromiseV
      · simp only [hpr, if_true] at h
        injection h with h1
        rw [← h1]
        rfl
      · simp only [hpr, Bool.false_eq_true, if_false] at h
        revert h
        cases rest with
        | nil =>
          cases ha : assignOn (jsGet st.vars (jsToString n0)) (jsToString n0) value with
          | ok new =>
            intro h
            simp only [Except.bind] at h
            cases h
          | error e2 =>
            intro h
            simp only [Except.bind] at h
            injection h with h1
            rw [← h1, assignOn_err ha]
            rfl
        | cons k2 ks =>
          cases hs : setVarGo value (jsGet st.vars (jsToString n0)) (k2 :: ks) with
          | ok new =>
            intro h
            simp only [Except.bind] at h
            cases h
          | error e2 =>
            intro h
            simp only [Except.bind] at h
            injection h with h1
            rw [← h1]
            exact setVarGo_err hs

/-- Case split for a failing `Except` bind. -/
theorem bind_err_cases {α β : Type} {x : Except Err α} {f : α → Except Err β} {e : Err}
    (h : Except.bind x f = .error e) :
    x = .error e ∨ ∃ a, x = .ok a ∧ f a = .error e := by
  cases x with
  | ok a => exact Or.inr ⟨a, rfl, h⟩
  | error e2 =>
    left
    have h2 : (Except.error e2 : Except Err β) = .error e := h
    injection h2 with h3
    rw [h3]

/-- Case split for an `if` known to equal a result. -/
theorem ite_eq_cases {α : Type} {c : Prop} [Decidable c] {a b r : α}
    (h : (if c then a else b) = r) : a = r ∨ b = r := by
  split at h
  · exact Or.inl h
  · exact Or.inr h

/-- Case split for a succeeding `Except` bind. -/
theorem bind_ok_cases {α β : Type} {x : Except Err α} {f : α → Except Err β} {r : β}
    (h : Except.bind x f = .ok r) : ∃ a, x = .ok a ∧ f a = .ok r := by
  cases x with
  | ok a => exact ⟨a, rfl, h⟩
  | error e2 => exact absurd h (by simp [Except.bind])

/-- `getVar` fails only with `ParameterTypeInvalid`. -/
theorem getVar_err : ∀ (name : Value) (st : St) (d : Value) {e : Err},
    getVar st name d = .error e → e = .parameterTypeInvalid
  | .vstr t, st, d, e, h => by cases h
  | .varr [], st, d, e, h => by injection h with h1; exact h1.symm
  | .varr (n0 :: rest), st, d, e, h => by
      have h2 : Except.bind (getVar st n0 d)
          (fun head => .ok (getVarWalk d head rest)) = .error e := h
      rcases bind_err_cases h2 with hg | ⟨a, _, hf⟩
      · exact getVar_err n0 st d hg
      · cases hf
  | .vnull, st, d, e, h => by injection h with h1; exact h1.symm
  | .vundef, st, d, e, h => by injection h with h1; exact h1.symm
  | .vbool b, st, d, e, h => by injection h with h1; exact h1.symm
  | .vnum q, st, d, e, h => by injection h with h1; exact h1.symm
  | .vobj fs, st, d, e, h => by injection h with h1; exact h1.symm
  | .vprom p, st, d, e, h => by injection h with h1; exact h1.symm
  | .vfun fd, st, d, e, h => by injection h with h1; exact h1.symm
termination_by name _ _ _ _ => sizeOf name

/-- The `parseMath` fold never raises `Continue`. -/
theorem parseMathGo_err : ∀ {ys : List Value} {op : MathOp} {x : Value} {e : Err},
    parseMathGo op x ys = .error e → e.isCont = false
  | [], op, x, e, h => by cases h
  | y :: ys, op, x, e, h => by
      rcases mathCallback_cases op x y with ⟨r, hr, _⟩ | hr
      · rw [show parseMathGo op x (y :: ys) =
            (match mathCallback op x y with
             | .ok r => parseMathGo op r ys
             | .error (.cont p) => parseMathGo op (p.getD x) ys
             | .error e => .error e) from rfl, hr] at h
        exact parseMathGo_err h
      · rw [show parseMathGo op x (y :: ys) =
            (match mathCallback op x y with
             | .ok r => parseMathGo op r ys
             | .error (.cont p) => parseMathGo op (p.getD x) ys
             | .error e => .error e) from rfl, hr] at h
        injection h with h1
        rw [← h1]
        rfl

/-- `parseMath` never raises `Continue`. -/
theorem parseMath_err {op : MathOp} {operands : List Value} {e : Err}
    (h : parseMath op operands = .error e) : e.isCont = false := by
  cases operands with
  | nil => cases h
  | cons x rest => exact parseMathGo_err h

/-- The `param` children cast fails only with a native `TypeError`. -/
theorem childLeafValues_err : ∀ {cs : List SubCommand} {e : Err},
    childLeafValues cs = .error e → e = .jsTypeError
  | [], e, h => by cases h
  | .leaf t :: cs, e, h => by
      revert h
      show (childLeafValues cs).map (fun l => Value.vstr t :: l) = .error e → _
      cases hc : childLeafValues cs with
      | ok ls => intro h; cases h
      | error e2 =>
        intro h
        injection h with h1
        rw [← h1]
        exact childLeafValues_err hc
  | .node op cs2 :: cs, e, h => by injection h with h1; exact h1.symm

/-- The `param` children are all strings, hence deferred-free. -/
theorem childLeafValues_noProm : ∀ {cs : List SubCommand} {leaves : List Value},
    childLeafValues cs = .ok leaves → noProm.go leaves = true
  | [], leaves, h => by injection h with h1; rw [← h1]; rfl
  | .leaf t :: cs, leaves, h => by
      revert h
      show (childLeafValues cs).map (fun l => Value.vstr t :: l) = .ok leaves → _
      cases hc : childLeafValues cs with
      | ok ls =>
        intro h
        injection h with h1
        rw [← h1]
        show (noProm (Value.vstr t) && noProm.go ls) = true
        rw [childLeafValues_noProm hc]
        rfl
      | error e2 => intro h; cases h
  | .node op cs2 :: cs, leaves, h => by cases h

/-- Every value list made of string literals is deferred-free. -/
theorem noProm_go_map_vstr : ∀ (ss : List String), noProm.go (ss.map Value.vstr) = true
  | [] => rfl
  | t :: ss => by
      show (noProm (Value.vstr t) && noProm.go (ss.map Value.vstr)) = true
      rw [noProm_go_map_vstr ss]
      rfl

/-- Every entry an object literal splits into is a pair of strings or an
index–string pair, hence deferred-free. -/
theorem objEntries_noProm : ∀ (ind : Nat) (items : List String) (p : Value × Value),
    p ∈ objEntries ind items → noProm p.1 = true ∧ noProm p.2 = true
  | ind, [], p, hp => by cases hp
  | ind, item :: items, p, hp => by
      revert hp
      show p ∈ (match splitStr item ":" with
        | a :: b :: _ => (Value.vstr a, Value.vstr b) :: objEntries ind items
        | _ => (Value.vnum ind, Value.vstr ((splitStr item ":").headD "")) ::
            objEntries (ind + 1) items) → _
      cases splitStr item ":" with
      | nil =>
        intro hp
        rcases List.mem_cons.mp hp with h1 | h2
        · rw [h1]; exact ⟨rfl, rfl⟩
        · exact objEntries_noProm (ind + 1) items p h2
      | cons a as =>
        cases as with
        | nil =>
          intro hp
          rcases List.mem_cons.mp hp with h1 | h2
          · rw [h1]; exact ⟨rfl, rfl⟩
          · exact objEntries_noProm (ind + 1) items p h2
        | cons b bs =>
          intro hp
          rcases List.mem_cons.mp hp with h1 | h2
          · rw [h1]; exact ⟨rfl, rfl⟩
          · exact objEntries_noProm ind items p h2

/-- A successful registry lookup locates a registered pair. -/
theorem lookup_mem : ∀ {l : List (String × Cmd)} {k : String} {c : Cmd},
    l.lookup k = some c → (k, c) ∈ l
  | [], k, c, h => by cases h
  | (k2, c2) :: l, k, c, h => by
      revert h
      show (match k == k2 with
            | true => some c2
            | false => List.lookup k l) = some c → _
      cases hk : k == k2 with
      | true =>
        intro h
        injection h with h1
        rw [← h1]
        have : k = k2 := eq_of_beq hk
        rw [this]
        exact List.mem_cons_self _ _
      | false =>
        intro h
        exact List.mem_cons_of_mem _ (lookup_mem h)

/-- The short-flag fold fails only with `PropertyNotFound`. -/
theorem foldFlags_err : ∀ {flags : List (String × Nat)} {chs : List Char} {m : Nat} {e : Err},
    foldFlags flags chs m = .error e → e = .propertyNotFound
  | flags, [], m, e, h => by cases h
  | flags, ch :: chs, m, e, h => by
      revert h
      show (match flags.lookup (String.singleton ch) with
            | some w => foldFlags flags chs (m ||| w)
            | none => .error .propertyNotFound) = .error e → _
      cases flags.lookup (String.singleton ch) with
      | some w => intro h; exact foldFlags_err h
      | none => intro h; injection h with h1; exact h1.symm

mutual

/-- The token-draining loop of `execFn` never raises `Continue`. -/
theorem innerLoop_err : ∀ (cmd : Cmd) (scope : Value) (i f : Nat) (args : List Value)
    (b : BindSt) {e : Err}, innerLoop cmd scope i f args b = .error e → e.isCont = false
  | cmd, scope, i, 0, args, b, e, h => by injection h with h1; rw [← h1]; rfl
  | cmd, scope, i, f + 1, [], b, e, h => by cases h
  | cmd, scope, i, f + 1, arg :: rest, b, e, h => by
      cases arg with
      | vstr t =>
        simp only [innerLoop] at h
        split at h
        · split at h
          · injection h with h1; rw [← h1]; rfl
          · split at h
            · exact innerLoop_err _ _ _ _ _ _ h
            · injection h with h1; rw [← h1]; rfl
        · split at h
          · split at h
            · injection h with h1; rw [← h1]; rfl
            · split at h
              · injection h with h1; rw [← h1]; rfl
              · rcases bind_err_cases h with hff | ⟨a, _, hrec⟩
                · rw [foldFlags_err hff]; rfl
                · exact innerLoop_err _ _ _ _ _ _ hrec
          · exact innerPlain_err _ _ _ _ _ _ _ h
      | vnull => exact innerPlain_err _ _ _ _ _ _ _ h
      | vundef => exact innerPlain_err _ _ _ _ _ _ _ h
      | vbool b2 => exact innerPlain_err _ _ _ _ _ _ _ h
      | vnum q => exact innerPlain_err _ _ _ _ _ _ _ h
      | varr xs => exact innerPlain_err _ _ _ _ _ _ _ h
      | vobj fs => exact innerPlain_err _ _ _ _ _ _ _ h
      | vprom p => exact innerPlain_err _ _ _ _ _ _ _ h
      | vfun fd => exact innerPlain_err _ _ _ _ _ _ _ h

/-- The plain-token branch of the loop never raises `Continue`. -/
theorem innerPlain_err : ∀ (cmd : Cmd) (scope : Value) (i f : Nat) (arg : Value)
    (rest : List Value) (b : BindSt) {e : Err},
    innerPlain cmd scope i f arg rest b = .error e → e.isCont = false
  | cmd, scope, i, 0, arg, rest, b, e, h => by injection h with h1; rw [← h1]; rfl
  | cmd, scope, i, f + 1, arg, rest, b, e, h => by
      simp only [innerPlain] at h
      split at h
      · split at h
        · split at h
          · cases h
          · exact innerLoop_err _ _ _ _ _ _ h
        · injection h with h1; rw [← h1]; rfl
      · split at h
        · split at h
          · split at h
            · exact innerLoop_err _ _ _ _ _ _ h
            · cases h
          · injection h with h1; rw [← h1]; rfl
        · injection h with h1; rw [← h1]; rfl

end

/-- The descriptor loop of `execFn` never raises `Continue`. -/
theorem outerLoop_err : ∀ (cmd : Cmd) (scope : Value) (ds : List ArgDesc) (i : Nat)
    (args : List Value) (b : BindSt) {e : Err},
    outerLoop cmd scope ds i args b = .error e → e.isCont = false
  | cmd, scope, [], i, args, b, e, h => by cases h
  | cmd, scope, d :: ds, i, args, b, e, h => by
      simp only [outerLoop] at h
      split at h
      · exact outerLoop_err _ _ _ _ _ _ h
      · split at h
        · exact outerLoop_err _ _ _ _ _ _ h
        · split at h
          · injection h with h1; rw [← h1]; rfl
          · rcases bind_err_cases h with hil | ⟨a, _, hrest⟩
            · exact innerLoop_err _ _ _ _ _ _ hil
            · obtain ⟨args2, b2⟩ := a
              dsimp only at hrest
              rcases ite_eq_cases hrest with h1 | h2
              · injection h1 with h1; rw [← h1]; rfl
              · exact outerLoop_err _ _ _ _ _ _ h2

/-- `bindAndCall` never raises `Continue`. -/
theorem bindAndCall_err {cmd : Cmd} {args : List Value} {scope : Value} {e : Err}
    (h : bindAndCall cmd args scope = .error e) : e.isCont = false := by
  rcases bind_err_cases h with ho | ⟨a, _, hrest⟩
  · exact outerLoop_err _ _ _ _ _ _ ho
  · obtain ⟨args2, b2⟩ := a
    dsimp only at hrest
    rcases ite_eq_cases hrest with h1 | h2
    · injection h1 with h1; rw [← h1]; rfl
    · cases h2

/-- A successful `bindAndCall` returns a plain callback application. -/
theorem bindAndCall_ok {cmd : Cmd} {args : List Value} {scope : Value} {v : Value}
    (h : bindAndCall cmd args scope = .ok v) : ∃ cargs, v = cmd.callback cargs := by
  rcases bind_ok_cases h with ⟨a, _, hrest⟩
  obtain ⟨args2, b2⟩ := a
  dsimp only at hrest
  rcases ite_eq_cases hrest with h1 | h2
  · cases h1
  · injection h2 with h1
    exact ⟨_, h1.symm⟩

/-! ## The converter ladder under deferred-free input -/

/-- The ladder never returns the `Continue` signal: every rule's
`Continue` is consumed by the loop itself. -/
theorem ladderRun_nocont : ∀ (rs : List (Value → St → Except Err (Value × St)))
    (v : Value) (st : St) {p : Option Value},
    ladderRun rs v st = .error (.cont p) → False
  | [], v, st, p, h => by cases h
  | r :: rs, v, st, p, h => by
      revert h
      show (match r v st with
            | .error (.cont q) => ladderRun rs (q.getD v) st
            | other => other) = .error (.cont p) → False
      cases hr : r v st with
      | ok pr => intro h; cases h
      | error e =>
        cases e <;> intro h <;>
          first
          | exact ladderRun_nocont rs _ st h
          | (injection h with h1; cases h1)

/-- Pairwise-agreeing rule ladders agree on deferred-free input. -/
theorem ladderRun_agree : ∀ {rsA rsS : List (Value → St → Except Err (Value × St))},
    List.Forall₂ RuleAgree rsA rsS →
    (∀ r ∈ rsS, RuleOK r) →
    ∀ v st, noProm v = true → St.noPromSt st = true →
      ladderRun rsA v st = ladderRun rsS v st := by
  intro rsA rsS hf
  induction hf with
  | nil => intro _ v st _ _; rfl
  | cons hag hf2 ih =>
    rename_i rA rS rsA2 rsS2
    intro hok v st hv hst
    show (match rA v st with
          | .error (.cont q) => ladderRun rsA2 (q.getD v) st
          | other => other) =
         (match rS v st with
          | .error (.cont q) => ladderRun rsS2 (q.getD v) st
          | other => other)
    rw [hag v st hv hst]
    cases hr : rS v st with
    | ok pr => rfl
    | error e =>
      cases e with
      | cont q =>
        cases q with
        | none => exact ih (fun r hr2 => hok r (List.mem_cons_of_mem _ hr2)) v st hv hst
        | some w =>
          exact (((hok rS (List.mem_cons_self _ _)) v st hv hst).2 w hr).elim
      | propertyNotFound => rfl
      | propertyTypeMismatch => rfl
      | propertyRequired => rfl
      | parameterTypeInvalid => rfl
      | variableTypeInvalid => rfl
      | assertFailed => rfl
      | argumentsLengthInvalid => rfl
      | wrongArgumentPosition => rfl
      | mathResultInvalid => rfl
      | jsTypeError => rfl
      | fuel => rfl

/-- A ladder of deferred-freedom-preserving rules preserves
deferred-freedom. -/
theorem ladderRun_ok : ∀ (rs : List (Value → St → Except Err (Value × St))),
    (∀ r ∈ rs, RuleOK r) →
    ∀ v st, noProm v = true → St.noPromSt st = true →
    ∀ x st', ladderRun rs v st = .ok (x, st') → noProm x = true ∧ St.noPromSt st' = true
  | [], hok, v, st, hv, hst, x, st', h => by
      injection h with h1
      have hx1 : v = x := congrArg Prod.fst h1
      have hx2 : st = st' := congrArg Prod.snd h1
      rw [← hx1, ← hx2]
      exact ⟨hv, hst⟩
  | r :: rs, hok, v, st, hv, hst, x, st', h => by
      revert h
      show (match r v st with
            | .error (.cont q) => ladderRun rs (q.getD v) st
            | other => other) = .ok (x, st') → _
      cases hr : r v st with
      | ok pr =>
        intro h
        injection h with h1
        subst h1
        exact ((hok r (List.mem_cons_self _ _)) v st hv hst).1 x st' hr
      | error e =>
        cases e with
        | cont q =>
          cases q with
          | none =>
            intro h
            exact ladderRun_ok rs (fun r2 hr2 => hok r2 (List.mem_cons_of_mem _ hr2))
              v st hv hst x st' h
          | some w =>
            intro h
            exact ((((hok r (List.mem_cons_self _ _)) v st hv hst).2 w) hr).elim
        | propertyNotFound => intro h; cases h
        | propertyTypeMismatch => intro h; cases h
        | propertyRequired => intro h; cases h
        | parameterTypeInvalid => intro h; cases h
        | variableTypeInvalid => intro h; cases h
        | assertFailed => intro h; cases h
        | argumentsLengthInvalid => intro h; cases h
        | wrongArgumentPosition => intro h; cases h
        | mathResultInvalid => intro h; cases h
        | jsTypeError => intro h; cases h
        | fuel => intro h; cases h

/-- `awRes` preserves a rule's `RuleOK`. -/
theorem ruleOK_awRes {rX : Value → St → Except Err (Value × St)}
    (hr : RuleOK rX) (asy : Bool) :
    RuleOK (fun v st => awRes asy (rX v st)) := by
  intro v st hv hst
  obtain ⟨hok, hnc⟩ := hr v st hv hst
  constructor
  · intro x st' hx
    revert hx
    show awRes asy (rX v st) = .ok (x, st') → _
    cases hr2 : rX v st with
    | ok pr =>
      intro hx
      have h3 : (Except.ok (aw asy pr.1, pr.2) : Except Err (Value × St)) = .ok (x, st') := hx
      injection h3 with h4
      obtain ⟨hp1, hp2⟩ := hok pr.1 pr.2 (by rw [hr2])
      have hx1 : aw asy pr.1 = x := congrArg Prod.fst h4
      have hx2 : pr.2 = st' := congrArg Prod.snd h4
      rw [← hx1, ← hx2]
      exact ⟨by rw [aw_of_noProm asy hp1]; exact hp1, hp2⟩
    | error e => intro hx; cases hx
  · intro w hw
    revert hw
    show awRes asy (rX v st) = .error (.cont (some w)) → _
    cases hr2 : rX v st with
    | ok pr => intro hw; cases hw
    | error e =>
      intro hw
      have h3 : (Except.error e : Except Err (Value × St)) = .error (.cont (some w)) := hw
      injection h3 with h4
      exact hnc w (by rw [hr2, h4])

/-- `awRes` turns rule agreement into agreement of the wrapped rules,
awaiting on the async side only. -/
theorem ruleAgree_awRes {rXA rXS : Value → St → Except Err (Value × St)}
    (hA : RuleAgree rXA rXS) (hS : RuleOK rXS) (asy : Bool) :
    RuleAgree (fun v st => awRes asy (rXA v st)) (fun v st => awRes false (rXS v st)) := by
  intro v st hv hst
  show awRes asy (rXA v st) = awRes false (rXS v st)
  rw [hA v st hv hst, awRes_false_eq]
  cases hr : rXS v st with
  | ok pr =>
    show Except.ok (aw asy pr.1, pr.2) = .ok pr
    rw [aw_of_noProm asy ((hS v st hv hst).1 pr.1 pr.2 (by rw [hr])).1]
  | error e => rfl

/-- Generic `RuleOK` for the string-test convert rules: on a string the
test either rewrites to a fixed deferred-free value or signals a bare
`Continue`; on anything else a bare `Continue`. -/
theorem ruleOK_strTest (P : String → Prop) [DecidablePred P] (W : String → Value)
    (hW : ∀ t, noProm (W t) = true) :
    RuleOK (fun v st => match v with
      | Value.vstr t => if P t then .ok (W t, st) else .error (.cont none)
      | _ => .error (.cont none)) := by
  intro v st hv hst
  constructor
  · intro x st' hx
    revert hx
    cases v with
    | vstr t =>
      show (if P t then (.ok (W t, st) : Except Err (Value × St))
            else .error (.cont none)) = .ok (x, st') → _
      by_cases hp : P t
      · rw [if_pos hp]
        intro hx
        injection hx with h1
        have hx1 : W t = x := congrArg Prod.fst h1
        have hx2 : st = st' := congrArg Prod.snd h1
        rw [← hx1, ← hx2]
        exact ⟨hW t, hst⟩
      · rw [if_neg hp]
        intro hx
        cases hx
    | vnull => intro hx; cases hx
    | vundef => intro hx; cases hx
    | vbool b => intro hx; cases hx
    | vnum q => intro hx; cases hx
    | varr xs => intro hx; cases hx
    | vobj fs => intro hx; cases hx
    | vprom p => intro hx; cases hx
    | vfun d => intro hx; cases hx
  · intro w hw
    revert hw
    cases v with
    | vstr t =>
      show (if P t then (.ok (W t, st) : Except Err (Value × St))
            else .error (.cont none)) = .error (.cont (some w)) → _
      by_cases hp : P t
      · rw [if_pos hp]; intro hw; cases hw
      · rw [if_neg hp]
        intro hw
        injection hw with h1
        injection h1 with h2
        cases h2
    | vnull => intro hw; injection hw with h1; injection h1 with h2; cases h2
    | vundef => intro hw; injection hw with h1; injection h1 with h2; cases h2
    | vbool b => intro hw; injection hw with h1; injection h1 with h2; cases h2
    | vnum q => intro hw; injection hw with h1; injection h1 with h2; cases h2
    | varr xs => intro hw; injection hw with h1; injection h1 with h2; cases h2
    | vobj fs => intro hw; injection hw with h1; injection h1 with h2; cases h2
    | vprom p => intro hw; injection hw with h1; injection h1 with h2; cases h2
    | vfun d => intro hw; injection hw with h1; injection h1 with h2; cases h2

/-- `RuleOK` of the `isString` rule. -/
theorem ruleOK_rIsString : RuleOK rIsString := by
  intro v st hv hst
  constructor
  · intro x st' hx
    revert hx
    show (if (!v.isStringV) = true then (.ok (v, st) : Except Err (Value × St))
          else .error (.cont none)) = .ok (x, st') → _
    by_cases hs : (!v.isStringV) = true
    · rw [if_pos hs]
      intro hx
      injection hx with h1
      have hx1 : v = x := congrArg Prod.fst h1
      have hx2 : st = st' := congrArg Prod.snd h1
      rw [← hx1, ← hx2]
      exact ⟨hv, hst⟩
    · rw [if_neg hs]
      intro hx
      cases hx
  · intro w hw
    revert hw
    show (if (!v.isStringV) = true then (.ok (v, st) : Except Err (Value × St))
          else .error (.cont none)) = .error (.cont (some w)) → _
    by_cases hs : (!v.isStringV) = true
    · rw [if_pos hs]; intro hw; cases hw
    · rw [if_neg hs]
      intro hw
      injection hw with h1
      injection h1 with h2
      cases h2

/-! ## The operator folds under deferred-free input -/

/-- Agreeing child evaluators give agreeing `;` folds. -/
theorem endFoldG_agreeP {exA exS : SubCommand → St → Except Err (Value × St)}
    (hA : ExAgree exA exS) (hG : ExOK exS) :
    ∀ (parts : List SubCommand) (res : Value) (st : St), St.noPromSt st = true →
      endFoldG exA parts res st = endFoldG exS parts res st
  | [], res, st, h => rfl
  | p :: ps, res, st, h => by
      show (if subIsEmpty p then endFoldG exA ps .vundef st
            else match exA p st with
                 | .ok (r, st') => endFoldG exA ps r st'
                 | .error e => .error e) =
           (if subIsEmpty p then endFoldG exS ps .vundef st
            else match exS p st with
                 | .ok (r, st') => endFoldG exS ps r st'
                 | .error e => .error e)
      by_cases he : subIsEmpty p
      · rw [if_pos he, if_pos he]
        exact endFoldG_agreeP hA hG ps .vundef st h
      · rw [if_neg he, if_neg he, hA p st h]
        cases hx : exS p st with
        | ok pr =>
          obtain ⟨r, st'⟩ := pr
          exact endFoldG_agreeP hA hG ps r st' ((hG p st h).1 r st' hx).2
        | error e => rfl

/-- A deferred-freedom-preserving child evaluator gives a preserving and
`Continue`-free `;` fold. -/
theorem endFoldG_okP {ex : SubCommand → St → Except Err (Value × St)} (hG : ExOK ex) :
    ∀ (parts : List SubCommand) (res : Value) (st : St), noProm res = true →
      St.noPromSt st = true →
      (∀ v st', endFoldG ex parts res st = .ok (v, st') →
        noProm v = true ∧ St.noPromSt st' = true) ∧
      (∀ w, endFoldG ex parts res st = .error (.cont (some w)) → False)
  | [], res, st, hres, hst => by
      constructor
      · intro v st' h
        injection h with h1
        have h2 : res = v := congrArg Prod.fst h1
        have h3 : st = st' := congrArg Prod.snd h1
        rw [← h2, ← h3]
        exact ⟨hres, hst⟩
      · intro w h; cases h
  | p :: ps, res, st, hres, hst => by
      by_cases he : subIsEmpty p
      · have heq : endFoldG ex (p :: ps) res st = endFoldG ex ps .vundef st := by
          show (if subIsEmpty p then endFoldG ex ps .vundef st
                else match ex p st with
                     | .ok (r, st') => endFoldG ex ps r st'
                     | .error e => .error e) = _
          rw [if_pos he]
        rw [heq]
        exact endFoldG_okP hG ps .vundef st rfl hst
      · have heq : endFoldG ex (p :: ps) res st =
            (match ex p st with
             | .ok (r, st') => endFoldG ex ps r st'
             | .error e => .error e) := by
          show (if subIsEmpty p then endFoldG ex ps .vundef st
                else match ex p st with
                     | .ok (r, st') => endFoldG ex ps r st'
                     | .error e => .error e) = _
          rw [if_neg he]
        rw [heq]
        cases hx : ex p st with
        | ok pr =>
          obtain ⟨r, st'⟩ := pr
          obtain ⟨hr, hs⟩ := (hG p st hst).1 r st' hx
          exact endFoldG_okP hG ps r st' hr hs
        | error e =>
          constructor
          · intro v st' h; cases h
          · intro w h
            injection h with h1
            exact (hG p st hst).2 w (by rw [hx, h1])

/-- Agreeing child evaluators give agreeing `||` folds. -/
theorem failFoldG_agreeP {exA exS : SubCommand → St → Except Err (Value × St)}
    (hA : ExAgree exA exS) (hG : ExOK exS) :
    ∀ (parts : List SubCommand) (st : St), St.noPromSt st = true →
      failFoldG exA parts st = failFoldG exS parts st
  | [], st, h => rfl
  | p :: ps, st, h => by
      show (match exA p st with
            | .ok (r, st') =>
              if r.truthy then Except.ok (r, st')
              else match ps with
                   | [] => Except.ok (r, st')
                   | _ => failFoldG exA ps st'
            | .error e => .error e) =
           (match exS p st with
            | .ok (r, st') =>
              if r.truthy then Except.ok (r, st')
              else match ps with
                   | [] => Except.ok (r, st')
                   | _ => failFoldG exS ps st'
            | .error e => .error e)
      rw [hA p st h]
      cases hx : exS p st with
      | ok pr =>
        obtain ⟨r, st'⟩ := pr
        dsimp only
        by_cases ht : r.truthy
        · rw [if_pos ht, if_pos ht]
        · rw [if_neg ht, if_neg ht]
          cases ps with
          | nil => rfl
          | cons q qs =>
            exact failFoldG_agreeP hA hG (q :: qs) st' ((hG p st h).1 r st' hx).2
      | error e => rfl

/-- A preserving child evaluator gives a preserving `||` fold. -/
theorem failFoldG_okP {ex : SubCommand → St → Except Err (Value × St)} (hG : ExOK ex) :
    ∀ (parts : List SubCommand) (st : St), St.noPromSt st = true →
      (∀ v st', failFoldG ex parts st = .ok (v, st') →
        noProm v = true ∧ St.noPromSt st' = true) ∧
      (∀ w, failFoldG ex parts st = .error (.cont (some w)) → False)
  | [], st, hst => by
      constructor
      · intro v st' h
        injection h with h1
        have h2 : Value.vundef = v := congrArg Prod.fst h1
        have h3 : st = st' := congrArg Prod.snd h1
        rw [← h2, ← h3]
        exact ⟨rfl, hst⟩
      · intro w h; cases h
  | p :: ps, st, hst => by
      have heq : failFoldG ex (p :: ps) st =
          (match ex p st with
           | .ok (r, st') =>
             if r.truthy then Except.ok (r, st')
             else match ps with
                  | [] => Except.ok (r, st')
                  | _ => failFoldG ex ps st'
           | .error e => .error e) := rfl
      rw [heq]
      cases hx : ex p st with
      | ok pr =>
        obtain ⟨r, st'⟩ := pr
        obtain ⟨hr, hs⟩ := (hG p st hst).1 r st' hx
        dsimp only
        by_cases ht : r.truthy
        · rw [if_pos ht]
          constructor
          · intro v st2 h
            injection h with h1
            have h2 : r = v := congrArg Prod.fst h1
            have h3 : st' = st2 := congrArg Prod.snd h1
            rw [← h2, ← h3]
            exact ⟨hr, hs⟩
          · intro w h; cases h
        · rw [if_neg ht]
          cases ps with
          | nil =>
            constructor
            · intro v st2 h
              injection h with h1
              have h2 : r = v := congrArg Prod.fst h1
              have h3 : st' = st2 := congrArg Prod.snd h1
              rw [← h2, ← h3]
              exact ⟨hr, hs⟩
            · intro w h; cases h
          | cons q qs => exact failFoldG_okP hG (q :: qs) st' hs
      | error e =>
        constructor
        · intro v st2 h; cases h
        · intro w h
          injection h with h1
          exact (hG p st hst).2 w (by rw [hx, h1])

/-- Agreeing child evaluators give agreeing `&&` folds. -/
theorem successFoldG_agreeP {exA exS : SubCommand → St → Except Err (Value × St)}
    (hA : ExAgree exA exS) (hG : ExOK exS) :
    ∀ (parts : List SubCommand) (st : St), St.noPromSt st = true →
      successFoldG exA parts st = successFoldG exS parts st
  | [], st, h => rfl
  | p :: ps, st, h => by
      show (match exA p st with
            | .ok (r, st') =>
              if !r.truthy then Except.ok (r, st')
              else match ps with
                   | [] => Except.ok (r, st')
                   | _ => successFoldG exA ps st'
            | .error e => .error e) =
           (match exS p st with
            | .ok (r, st') =>
              if !r.truthy then Except.ok (r, st')
              else match ps with
                   | [] => Except.ok (r, st')
                   | _ => successFoldG exS ps st'
            | .error e => .error e)
      rw [hA p st h]
      cases hx : exS p st with
      | ok pr =>
        obtain ⟨r, st'⟩ := pr
        dsimp only
        by_cases ht : (!r.truthy) = true
        · rw [if_pos ht, if_pos ht]
        · rw [if_neg ht, if_neg ht]
          cases ps with
          | nil => rfl
          | cons q qs =>
            exact successFoldG_agreeP hA hG (q :: qs) st' ((hG p st h).1 r st' hx).2
      | error e => rfl

/-- A preserving child evaluator gives a preserving `&&` fold. -/
theorem successFoldG_okP {ex : SubCommand → St → Except Err (Value × St)} (hG : ExOK ex) :
    ∀ (parts : List SubCommand) (st : St), St.noPromSt st = true →
      (∀ v st', successFoldG ex parts st = .ok (v, st') →
        noProm v = true ∧ St.noPromSt st' = true) ∧
      (∀ w, successFoldG ex parts st = .error (.cont (some w)) → False)
  | [], st, hst => by
      constructor
      · intro v st' h
        injection h with h1
        have h2 : Value.vundef = v := congrArg Prod.fst h1
        have h3 : st = st' := congrArg Prod.snd h1
        rw [← h2, ← h3]
        exact ⟨rfl, hst⟩
      · intro w h; cases h
  | p :: ps, st, hst => by
      have heq : successFoldG ex (p :: ps) st =
          (match ex p st with
           | .ok (r, st') =>
             if !r.truthy then Except.ok (r, st')
             else match ps with
                  | [] => Except.ok (r, st')
                  | _ => successFoldG ex ps st'
           | .error e => .error e) := rfl
      rw [heq]
      cases hx : ex p st with
      | ok pr =>
        obtain ⟨r, st'⟩ := pr
        obtain ⟨hr, hs⟩ := (hG p st hst).1 r st' hx
        dsimp only
        by_cases ht : (!r.truthy) = true
        · rw [if_pos ht]
          constructor
          · intro v st2 h
            injection h with h1
            have h2 : r = v := congrArg Prod.fst h1
            have h3 : st' = st2 := congrArg Prod.snd h1
            rw [← h2, ← h3]
            exact ⟨hr, hs⟩
          · intro w h; cases h
        · rw [if_neg ht]
          cases ps with
          | nil =>
            constructor
            · intro v st2 h
              injection h with h1
              have h2 : r = v := congrArg Prod.fst h1
              have h3 : st' = st2 := congrArg Prod.snd h1
              rw [← h2, ← h3]
              exact ⟨hr, hs⟩
            · intro w h; cases h
          | cons q qs => exact successFoldG_okP hG (q :: qs) st' hs
      | error e =>
        constructor
        · intro v st2 h; cases h
        · intro w h
          injection h with h1
          exact (hG p st hst).2 w (by rw [hx, h1])

/-- Agreeing child evaluators give agreeing `??` folds. -/
theorem nullishFoldG_agreeP {exA exS : SubCommand → St → Except Err (Value × St)}
    (hA : ExAgree exA exS) (hG : ExOK exS) :
    ∀ (parts : List SubCommand) (st : St), St.noPromSt st = true →
      nullishFoldG exA parts st = nullishFoldG exS parts st
  | [], st, h => rfl
  | p :: ps, st, h => by
      show (match exA p st with
            | .ok (r, st') =>
              if !r.isNullish then Except.ok (r, st')
              else match ps with
                   | [] => Except.ok (r, st')
                   | _ => nullishFoldG exA ps st'
            | .error e => .error e) =
           (match exS p st with
            | .ok (r, st') =>
              if !r.isNullish then Except.ok (r, st')
              else match ps with
                   | [] => Except.ok (r, st')
                   | _ => nullishFoldG exS ps st'
            | .error e => .error e)
      rw [hA p st h]
      cases hx : exS p st with
      | ok pr =>
        obtain ⟨r, st'⟩ := pr
        dsimp only
        by_cases ht : (!r.isNullish) = true
        · rw [if_pos ht, if_pos ht]
        · rw [if_neg ht, if_neg ht]
          cases ps with
          | nil => rfl
          | cons q qs =>
            exact nullishFoldG_agreeP hA hG (q :: qs) st' ((hG p st h).1 r st' hx).2
      | error e => rfl

/-- A preserving child evaluator gives a preserving `??` fold. -/
theorem nullishFoldG_okP {ex : SubCommand → St → Except Err (Value × St)} (hG : ExOK ex) :
    ∀ (parts : List SubCommand) (st : St), St.noPromSt st = true →
      (∀ v st', nullishFoldG ex parts st = .ok (v, st') →
        noProm v = true ∧ St.noPromSt st' = true) ∧
      (∀ w, nullishFoldG ex parts st = .error (.cont (some w)) → False)
  | [], st, hst => by
      constructor
      · intro v st' h
        injection h with h1
        have h2 : Value.vundef = v := congrArg Prod.fst h1
        have h3 : st = st' := congrArg Prod.snd h1
        rw [← h2, ← h3]
        exact ⟨rfl, hst⟩
      · intro w h; cases h
  | p :: ps, st, hst => by
      have heq : nullishFoldG ex (p :: ps) st =
          (match ex p st with
           | .ok (r, st') =>
             if !r.isNullish then Except.ok (r, st')
             else match ps with
                  | [] => Except.ok (r, st')
                  | _ => nullishFoldG ex ps st'
           | .error e => .error e) := rfl
      rw [heq]
      cases hx : ex p st with
      | ok pr =>
        obtain ⟨r, st'⟩ := pr
        obtain ⟨hr, hs⟩ := (hG p st hst).1 r st' hx
        dsimp only
        by_cases ht : (!r.isNullish) = true
        · rw [if_pos ht]
          constructor
          · intro v st2 h
            injection h with h1
            have h2 : r = v := congrArg Prod.fst h1
            have h3 : st' = st2 := congrArg Prod.snd h1
            rw [← h2, ← h3]
            exact ⟨hr, hs⟩
          · intro w h; cases h
        · rw [if_neg ht]
          cases ps with
          | nil =>
            constructor
            · intro v st2 h
              injection h with h1
              have h2 : r = v := congrArg Prod.fst h1
              have h3 : st' = st2 := congrArg Prod.snd h1
              rw [← h2, ← h3]
              exact ⟨hr, hs⟩
            · intro w h; cases h
          | cons q qs => exact nullishFoldG_okP hG (q :: qs) st' hs
      | error e =>
        constructor
        · intro v st2 h; cases h
        · intro w h
          injection h with h1
          exact (hG p st hst).2 w (by rw [hx, h1])

/-- Agreeing child evaluators give agreeing `|` folds. -/
theorem contextFoldG_agreeP {exA exS : SubCommand → St → Except Err (Value × St)}
    (hA : ExAgree exA exS) (hG : ExOK exS) :
    ∀ (parts : List SubCommand) (res : Value) (st : St), noProm res = true →
      St.noPromSt st = true →
      contextFoldG exA parts res st = contextFoldG exS parts res st
  | [], res, st, _, _ => rfl
  | p :: ps, res, st, hres, hst => by
      have hstU : St.noPromSt
          (cond res.isUndef st { st with scope := aSet st.scope "context" res }) = true := by
        cases res <;> first | exact hst | exact noPromSt_setScope hst hres
      have hkeyA : contextFoldG exA (p :: ps) res st =
          (match exA p (cond res.isUndef st { st with scope := aSet st.scope "context" res }) with
           | .ok (r, st') => contextFoldG exA ps r
               { st' with scope := aSet st'.scope "context" (jsGet st.scope "context") }
           | .error e => .error e) := by
        cases res <;> rfl
      have hkeyS : contextFoldG exS (p :: ps) res st =
          (match exS p (cond res.isUndef st { st with scope := aSet st.scope "context" res }) with
           | .ok (r, st') => contextFoldG exS ps r
               { st' with scope := aSet st'.scope "context" (jsGet st.scope "context") }
           | .error e => .error e) := by
        cases res <;> rfl
      rw [hkeyA, hkeyS, hA p _ hstU]
      cases hx : exS p (cond res.isUndef st { st with scope := aSet st.scope "context" res }) with
      | ok pr =>
        obtain ⟨r, st'⟩ := pr
        dsimp only
        obtain ⟨hr, hs⟩ := (hG p _ hstU).1 r st' hx
        exact contextFoldG_agreeP hA hG ps r _ hr
          (noPromSt_setScope hs (jsGet_scope_noProm hst))
      | error e => rfl

/-- A preserving child evaluator gives a preserving `|` fold. -/
theorem contextFoldG_okP {ex : SubCommand → St → Except Err (Value × St)} (hG : ExOK ex) :
    ∀ (parts : List SubCommand) (res : Value) (st : St), noProm res = true →
      St.noPromSt st = true →
      (∀ v st', contextFoldG ex parts res st = .ok (v, st') →
        noProm v = true ∧ St.noPromSt st' = true) ∧
      (∀ w, contextFoldG ex parts res st = .error (.cont (some w)) → False)
  | [], res, st, hres, hst => by
      constructor
      · intro v st' h
        injection h with h1
        have h2 : res = v := congrArg Prod.fst h1
        have h3 : st = st' := congrArg Prod.snd h1
        rw [← h2, ← h3]
        exact ⟨hres, hst⟩
      · intro w h; cases h
  | p :: ps, res, st, hres, hst => by
      have hstU : St.noPromSt
          (cond res.isUndef st { st with scope := aSet st.scope "context" res }) = true := by
        cases res <;> first | exact hst | exact noPromSt_setScope hst hres
      have hkey : contextFoldG ex (p :: ps) res st =
          (match ex p (cond res.isUndef st { st with scope := aSet st.scope "context" res }) with
           | .ok (r, st') => contextFoldG ex ps r
               { st' with scope := aSet st'.scope "context" (jsGet st.scope "context") }
           | .error e => .error e) := by
        cases res <;> rfl
      rw [hkey]
      cases hx : ex p (cond res.isUndef st { st with scope := aSet st.scope "context" res }) with
      | ok pr =>
        obtain ⟨r, st'⟩ := pr
        obtain ⟨hr, hs⟩ := (hG p _ hstU).1 r st' hx
        exact contextFoldG_okP hG ps r _ hr
          (noPromSt_setScope hs (jsGet_scope_noProm hst))
      | error e =>
        constructor
        · intro v st' h; cases h
        · intro w h
          injection h with h1
          exact (hG p _ hstU).2 w (by rw [hx, h1])

/-- Agreeing child evaluators give agreeing `>>` assignment loops. -/
theorem outAssignG_agreeP {exA exS : SubCommand → St → Except Err (Value × St)}
    (hA : ExAgree exA exS) (hG : ExOK exS) (res : Value) (hres : noProm res = true) :
    ∀ (ps : List SubCommand) (st : St), St.noPromSt st = true →
      outAssignG exA res ps st = outAssignG exS res ps st
  | [], st, h => rfl
  | p :: ps, st, h => by
      show (match exA p st with
            | .ok (varName, st') =>
              match setVar st' varName res with
              | .ok st'' => outAssignG exA res ps st''
              | .error e => .error e
            | .error e => .error e) =
           (match exS p st with
            | .ok (varName, st') =>
              match setVar st' varName res with
              | .ok st'' => outAssignG exS res ps st''
              | .error e => .error e
            | .error e => .error e)
      rw [hA p st h]
      cases hx : exS p st with
      | ok pr =>
        obtain ⟨vn, st'⟩ := pr
        dsimp only
        cases hsv : setVar st' vn res with
        | ok st'' =>
          exact outAssignG_agreeP hA hG res hres ps st''
            (setVar_noPromSt ((hG p st h).1 vn st' hx).2 hres hsv)
        | error e => rfl
      | error e => rfl

/-- A preserving child evaluator gives a preserving `>>` assignment
loop. -/
theorem outAssignG_okP {ex : SubCommand → St → Except Err (Value × St)} (hG : ExOK ex)
    (res : Value) (hres : noProm res = true) :
    ∀ (ps : List SubCommand) (st : St), St.noPromSt st = true →
      (∀ st', outAssignG ex res ps st = .ok st' → St.noPromSt st' = true) ∧
      (∀ w, outAssignG ex res ps st = .error (.cont (some w)) → False)
  | [], st, hst => by
      constructor
      · intro st' h
        injection h with h1
        rw [← h1]
        exact hst
      · intro w h; cases h
  | p :: ps, st, hst => by
      have heq : outAssignG ex res (p :: ps) st =
          (match ex p st with
           | .ok (varName, st') =>
             match setVar st' varName res with
             | .ok st'' => outAssignG ex res ps st''
             | .error e => .error e
           | .error e => .error e) := rfl
      rw [heq]
      cases hx : ex p st with
      | ok pr =>
        obtain ⟨vn, st'⟩ := pr
        dsimp only
        cases hsv : setVar st' vn res with
        | ok st'' =>
          exact outAssignG_okP hG res hres ps st''
            (setVar_noPromSt ((hG p st hst).1 vn st' hx).2 hres hsv)
        | error e =>
          constructor
          · intro st2 h; cases h
          · intro w h
            injection h with h1
            have h2 := setVar_err hsv
            rw [h1] at h2
            cases h2
      | error e =>
        constructor
        · intro st2 h; cases h
        · intro w h
          injection h with h1
          exact (hG p st hst).2 w (by rw [hx, h1])

/-- Agreeing child evaluators give agreeing `>>` folds. -/
theorem outFoldG_agreeP {exA exS : SubCommand → St → Except Err (Value × St)}
    (hA : ExAgree exA exS) (hG : ExOK exS) :
    ∀ (parts : List SubCommand) (st : St), St.noPromSt st = true →
      outFoldG exA parts st = outFoldG exS parts st
  | [], st, h => rfl
  | p :: ps, st, h => by
      show (match exA p st with
            | .ok (res, st') =>
              match outAssignG exA res ps st' with
              | .ok st'' => Except.ok (res, st'')
              | .error e => .error e
            | .error e => .error e) =
           (match exS p st with
            | .ok (res, st') =>
              match outAssignG exS res ps st' with
              | .ok st'' => Except.ok (res, st'')
              | .error e => .error e
            | .error e => .error e)
      rw [hA p st h]
      cases hx : exS p st with
      | ok pr =>
        obtain ⟨res, st'⟩ := pr
        dsimp only
        obtain ⟨hr, hs⟩ := (hG p st h).1 res st' hx
        rw [outAssignG_agreeP hA hG res hr ps st' hs]
      | error e => rfl

/-- A preserving child evaluator gives a preserving `>>` fold. -/
theorem outFoldG_okP {ex : SubCommand → St → Except Err (Value × St)} (hG : ExOK ex) :
    ∀ (parts : List SubCommand) (st : St), St.noPromSt st = true →
      (∀ v st', outFoldG ex parts st = .ok (v, st') →
        noProm v = true ∧ St.noPromSt st' = true) ∧
      (∀ w, outFoldG ex parts st = .error (.cont (some w)) → False)
  | [], st, hst => by
      constructor
      · intro v st' h; cases h
      · intro w h
        injection h with h1
        cases h1
  | p :: ps, st, hst => by
      have heq : outFoldG ex (p :: ps) st =
          (match ex p st with
           | .ok (res, st') =>
             match outAssignG ex res ps st' with
             | .ok st'' => Except.ok (res, st'')
             | .error e => .error e
           | .error e => .error e) := rfl
      rw [heq]
      cases hx : ex p st with
      | ok pr =>
        obtain ⟨res, st'⟩ := pr
        obtain ⟨hr, hs⟩ := (hG p st hst).1 res st' hx
        dsimp only
        obtain ⟨ho1, ho2⟩ := outAssignG_okP hG res hr ps st' hs
        cases ha : outAssignG ex res ps st' with
        | ok st'' =>
          constructor
          · intro v st2 h
            injection h with h1
            have h2 : res = v := congrArg Prod.fst h1
            have h3 : st'' = st2 := congrArg Prod.snd h1
            rw [← h2, ← h3]
            exact ⟨hr, ho1 st'' (by rw [ha])⟩
          · intro w h; cases h
        | error e =>
          constructor
          · intro v st2 h; cases h
          · intro w h
            injection h with h1
            exact ho2 w (by rw [ha, h1])
      | error e =>
        constructor
        · intro v st2 h; cases h
        · intro w h
          injection h with h1
          exact (hG p st hst).2 w (by rw [hx, h1])

/-- Agreeing converters give agreeing element loops. -/
theorem convertListG_agreeP {cvA cvS : Value → St → Except Err (Value × St)}
    (hA : CvAgree cvA cvS) (hG : CvOK cvS) :
    ∀ (xs : List Value) (st : St), noProm.go xs = true → St.noPromSt st = true →
      convertListG cvA xs st = convertListG cvS xs st
  | [], st, _, _ => rfl
  | x :: xs, st, hxs, hst => by
      have hx : noProm x = true ∧ noProm.go xs = true := by
        simpa [noProm.go, Bool.and_eq_true] using hxs
      show Except.bind (cvA x st) (fun p =>
             Except.bind (convertListG cvA xs p.2) (fun q =>
               Except.ok (p.1 :: q.1, q.2))) =
           Except.bind (cvS x st) (fun p =>
             Except.bind (convertListG cvS xs p.2) (fun q =>
               Except.ok (p.1 :: q.1, q.2)))
      rw [hA x st hst hx.1]
      cases hcv : cvS x st with
      | ok pr =>
        simp only [Except.bind]
        rw [convertListG_agreeP hA hG xs pr.2 hx.2
          ((hG x st hx.1 hst).1 pr.1 pr.2 (by rw [hcv])).2]
      | error e => rfl

/-- A preserving converter gives a preserving element loop. -/
theorem convertListG_okP {cv : Value → St → Except Err (Value × St)} (hG : CvOK cv) :
    ∀ (xs : List Value) (st : St), noProm.go xs = true → St.noPromSt st = true →
      (∀ vs st', convertListG cv xs st = .ok (vs, st') →
        noProm.go vs = true ∧ St.noPromSt st' = true) ∧
      (∀ w, convertListG cv xs st = .error (.cont (some w)) → False)
  | [], st, hxs, hst => by
      constructor
      · intro vs st' h
        injection h with h1
        have h2 : ([] : List Value) = vs := congrArg Prod.fst h1
        have h3 : st = st' := congrArg Prod.snd h1
        rw [← h2, ← h3]
        exact ⟨rfl, hst⟩
      · intro w h; cases h
  | x :: xs, st, hxs, hst => by
      have hx : noProm x = true ∧ noProm.go xs = true := by
        simpa [noProm.go, Bool.and_eq_true] using hxs
      have heq : convertListG cv (x :: xs) st = Except.bind (cv x st) (fun p =>
          Except.bind (convertListG cv xs p.2) (fun q =>
            Except.ok (p.1 :: q.1, q.2))) := rfl
      rw [heq]
      cases hcv : cv x st with
      | ok pr =>
        obtain ⟨hv, hs⟩ := (hG x st hx.1 hst).1 pr.1 pr.2 (by rw [hcv])
        simp only [Except.bind]
        obtain ⟨ih1, ih2⟩ := convertListG_okP hG xs pr.2 hx.2 hs
        cases hcl : convertListG cv xs pr.2 with
        | ok qr =>
          constructor
          · intro vs st' h
            have h3 : (Except.ok (pr.1 :: qr.1, qr.2) : Except Err (List Value × St)) =
                .ok (vs, st') := h
            injection h3 with h4
            have h5 : pr.1 :: qr.1 = vs := congrArg Prod.fst h4
            have h6 : qr.2 = st' := congrArg Prod.snd h4
            obtain ⟨hq1, hq2⟩ := ih1 qr.1 qr.2 (by rw [hcl])
            rw [← h5, ← h6]
            constructor
            · show (noProm pr.1 && noProm.go qr.1) = true
              rw [hv, hq1]
              rfl
            · exact hq2
          · intro w h
            have h3 : (Except.ok (pr.1 :: qr.1, qr.2) : Except Err (List Value × St)) =
                .error (.cont (some w)) := h
            cases h3
        | error e =>
          constructor
          · intro vs st' h; cases h
          · intro w h
            have h3 : (Except.error e : Except Err (List Value × St)) =
                .error (.cont (some w)) := h
            injection h3 with h4
            exact ih2 w (by rw [hcl, h4])
      | error e =>
        constructor
        · intro vs st' h; cases h
        · intro w h
          have h3 : (Except.error e : Except Err (List Value × St)) =
              .error (.cont (some w)) := h
          injection h3 with h4
          exact (hG x st hx.1 hst).2 w (by rw [hcv, h4])

/-- Agreeing converters give agreeing entry loops: the async loop's
pairwise await is the identity on the deferred-free converted parts. -/
theorem convertEntriesG_agreeP {cvA cvS : Value → St → Except Err (Value × St)}
    (hA : CvAgree cvA cvS) (hG : CvOK cvS) (asy : Bool) :
    ∀ (items : List (Value × Value)) (st : St),
      (∀ p ∈ items, noProm p.1 = true ∧ noProm p.2 = true) → St.noPromSt st = true →
      convertEntriesG cvA asy items st = convertEntriesG cvS false items st
  | [], st, _, _ => rfl
  | (k, v) :: items, st, hitems, hst => by
      obtain ⟨hk, hv⟩ := hitems (k, v) (List.mem_cons_self _ _)
      show Except.bind (cvA k st) (fun pk =>
             Except.bind (cvA v pk.2) (fun pv =>
               Except.bind (convertEntriesG cvA asy items pv.2) (fun pr =>
                 Except.ok ((if asy then (pk.1.awaitV, pv.1.awaitV) else (pk.1, pv.1)) :: pr.1,
                   pr.2)))) =
           Except.bind (cvS k st) (fun pk =>
             Except.bind (cvS v pk.2) (fun pv =>
               Except.bind (convertEntriesG cvS false items pv.2) (fun pr =>
                 Except.ok ((if false then (pk.1.awaitV, pv.1.awaitV) else (pk.1, pv.1)) :: pr.1,
                   pr.2))))
      rw [hA k st hst hk]
      cases hck : cvS k st with
      | error e => rfl
      | ok pk =>
        simp only [Except.bind]
        obtain ⟨hk1, hk2⟩ := (hG k st hk hst).1 pk.1 pk.2 (by rw [hck])
        rw [hA v pk.2 hk2 hv]
        cases hcv : cvS v pk.2 with
        | error e => rfl
        | ok pv =>
          simp only [Except.bind]
          obtain ⟨hv1, hv2⟩ := (hG v pk.2 hv hk2).1 pv.1 pv.2 (by rw [hcv])
          rw [convertEntriesG_agreeP hA hG asy items pv.2
            (fun p hp => hitems p (List.mem_cons_of_mem _ hp)) hv2]
          cases hce : convertEntriesG cvS false items pv.2 with
          | error e => rfl
          | ok pr =>
            simp only [Except.bind]
            cases asy with
            | false => rfl
            | true =>
              rw [show (if true then (pk.1.awaitV, pv.1.awaitV) else (pk.1, pv.1)) =
                  (pk.1.awaitV, pv.1.awaitV) from rfl,
                awaitV_of_noProm hk1, awaitV_of_noProm hv1]
              rfl

/-- A preserving converter gives a preserving synchronous entry loop. -/
theorem convertEntriesG_okP {cv : Value → St → Except Err (Value × St)} (hG : CvOK cv) :
    ∀ (items : List (Value × Value)) (st : St),
      (∀ p ∈ items, noProm p.1 = true ∧ noProm p.2 = true) → St.noPromSt st = true →
      (∀ ps st', convertEntriesG cv false items st = .ok (ps, st') →
        (∀ p ∈ ps, noProm p.1 = true ∧ noProm p.2 = true) ∧ St.noPromSt st' = true) ∧
      (∀ w, convertEntriesG cv false items st = .error (.cont (some w)) → False)
  | [], st, hitems, hst => by
      constructor
      · intro ps st' h
        injection h with h1
        have h2 : ([] : List (Value × Value)) = ps := congrArg Prod.fst h1
        have h3 : st = st' := congrArg Prod.snd h1
        rw [← h2, ← h3]
        exact ⟨fun p hp => absurd hp (List.not_mem_nil p), hst⟩
      · intro w h; cases h
  | (k, v) :: items, st, hitems, hst => by
      obtain ⟨hk, hv⟩ := hitems (k, v) (List.mem_cons_self _ _)
      have heq : convertEntriesG cv false ((k, v) :: items) st =
          Except.bind (cv k st) (fun pk =>
            Except.bind (cv v pk.2) (fun pv =>
              Except.bind (convertEntriesG cv false items pv.2) (fun pr =>
                Except.ok ((if false then (pk.1.awaitV, pv.1.awaitV) else (pk.1, pv.1)) :: pr.1,
                  pr.2)))) := rfl
      rw [heq]
      cases hck : cv k st with
      | error e =>
        constructor
        · intro ps st' h; cases h
        · intro w h
          have h3 : (Except.error e : Except Err (List (Value × Value) × St)) =
              .error (.cont (some w)) := h
          injection h3 with h4
          exact (hG k st hk hst).2 w (by rw [hck, h4])
      | ok pk =>
        obtain ⟨hk1, hk2⟩ := (hG k st hk hst).1 pk.1 pk.2 (by rw [hck])
        simp only [Except.bind]
        cases hcv : cv v pk.2 with
        | error e =>
          constructor
          · intro ps st' h; cases h
          · intro w h
            have h3 : (Except.error e : Except Err (List (Value × Value) × St)) =
                .error (.cont (some w)) := h
            injection h3 with h4
            exact (hG v pk.2 hv hk2).2 w (by rw [hcv, h4])
        | ok pv =>
          obtain ⟨hv1, hv2⟩ := (hG v pk.2 hv hk2).1 pv.1 pv.2 (by rw [hcv])
          simp only [Except.bind]
          obtain ⟨ih1, ih2⟩ := convertEntriesG_okP hG items pv.2
            (fun p hp => hitems p (List.mem_cons_of_mem _ hp)) hv2
          cases hce : convertEntriesG cv false items pv.2 with
          | error e =>
            constructor
            · intro ps st' h; cases h
            · intro w h
              have h3 : (Except.error e : Except Err (List (Value × Value) × St)) =
                  .error (.cont (some w)) := h
              injection h3 with h4
              exact ih2 w (by rw [hce, h4])
          | ok pr =>
            constructor
            · intro ps st' h
              have h3 : (Except.ok ((pk.1, pv.1) :: pr.1, pr.2) :
                  Except Err (List (Value × Value) × St)) = .ok (ps, st') := h
              injection h3 with h4
              have h5 : (pk.1, pv.1) :: pr.1 = ps := congrArg Prod.fst h4
              have h6 : pr.2 = st' := congrArg Prod.snd h4
              obtain ⟨hq1, hq2⟩ := ih1 pr.1 pr.2 (by rw [hce])
              rw [← h5, ← h6]
              refine ⟨?_, hq2⟩
              intro p hp
              rcases List.mem_cons.mp hp with h7 | h7
              · rw [h7]; exact ⟨hk1, hv1⟩
              · exact hq1 p h7
            · intro w h
              have h3 : (Except.ok ((pk.1, pv.1) :: pr.1, pr.2) :
                  Except Err (List (Value × Value) × St)) = .error (.cont (some w)) := h
              cases h3

/-! ## The fuel induction over the mutual evaluator -/

/-- `RuleOK` from the string-only body of a convert rule. -/
theorem ruleOK_strBody (B : String → St → Except Err (Value × St))
    (hB : ∀ s st, St.noPromSt st = true →
      (∀ x st', B s st = .ok (x, st') → noProm x = true ∧ St.noPromSt st' = true) ∧
      (∀ w, B s st = .error (.cont (some w)) → False)) :
    RuleOK (fun v st => match v with
      | Value.vstr s => B s st
      | _ => .error (.cont none)) := by
  intro v st hv hst
  cases v
  case vstr s => exact hB s st hst
  all_goals
    constructor
    · intro x st' hx
      cases hx
    · intro w hw
      injection hw with h1
      injection h1 with h2
      cases h2

/-- `RuleAgree` from agreement of the string-only bodies. -/
theorem ruleAgree_strBody (BA BS : String → St → Except Err (Value × St))
    (hB : ∀ s st, St.noPromSt st = true → BA s st = BS s st) :
    RuleAgree
      (fun v st => match v with
        | Value.vstr s => BA s st
        | _ => .error (.cont none))
      (fun v st => match v with
        | Value.vstr s => BS s st
        | _ => .error (.cont none)) := by
  intro v st hv hst
  cases v with
  | vstr s => exact hB s st hst
  | vnull => rfl
  | vundef => rfl
  | vbool b => rfl
  | vnum q => rfl
  | varr xs => rfl
  | vobj fs => rfl
  | vprom p => rfl
  | vfun d => rfl

/-- One fuel step for `convert`: the twelve-rule ladder. -/
theorem step_convert {reg : Registry} {f : Nat} (ih : LevelOK reg f) :
    OkConvert reg (f + 1) := by
  obtain ⟨ihCv, ihMath, ihVar, ihIv, ihParam, ihFn, ihThunk, ihCmd, ihXsh, ihParse⟩ := ih
  intro asy v st ex hv hst
  have hs1 : RuleOK rIsString := ruleOK_rIsString
  have hs2 : RuleOK rIsNull :=
    ruleOK_strTest (fun t => lowerStr t = "null") (fun _ => Value.vnull) (fun _ => rfl)
  have hs3 : RuleOK rIsUndefined :=
    ruleOK_strTest (fun t => lowerStr t = "undefined") (fun _ => Value.vundef) (fun _ => rfl)
  have hs4 : RuleOK rIsEmptyString :=
    ruleOK_strTest (fun t => t = "") (fun _ => Value.vstr "") (fun _ => rfl)
  have hs5 : RuleOK rIsTrue :=
    ruleOK_strTest (fun t => lowerStr t = "true") (fun _ => Value.vbool true) (fun _ => rfl)
  have hs6 : RuleOK rIsFalse :=
    ruleOK_strTest (fun t => lowerStr t = "false") (fun _ => Value.vbool false) (fun _ => rfl)
  have hs7 : RuleOK rIsNumber :=
    ruleOK_strTest (fun t => isIntLit t = true) (fun t => Value.vnum (parseIntLit t))
      (fun _ => rfl)
  have hs8 : RuleOK rIsFloat :=
    ruleOK_strTest (fun t => isFloatLit t = true) (fun t => Value.vnum (parseFloatLit t))
      (fun _ => rfl)
  have hs9 : RuleOK rIsKeys :=
    ruleOK_strTest (fun t => strStarts t "-" = true) (fun t => Value.vstr t) (fun _ => rfl)
  have hs10 : RuleOK (fun v st => match v with
      | Value.vstr s => isMathApply reg f false s st
      | _ => .error (.cont none)) :=
    ruleOK_strBody _ (fun s st hst2 =>
      ⟨(ihMath false s st hst2).2.1, (ihMath false s st hst2).2.2⟩)
  have hs11 : RuleOK (fun v st => match v with
      | Value.vstr s => isVarApply reg f false s st
      | _ => .error (.cont none)) :=
    ruleOK_strBody _ (fun s st hst2 =>
      ⟨(ihVar false s st hst2).2.1, (ihVar false s st hst2).2.2⟩)
  have hs12 : RuleOK (fun v st => match v with
      | Value.vstr s =>
        if isCommandCallable reg s && ex then execFn reg f (.vstr s) [] st false
        else .error (.cont none)
      | _ => .error (.cont none)) := by
    refine ruleOK_strBody _ (fun s st2 hst2 => ?_)
    by_cases hc : (isCommandCallable reg s && ex) = true
    · rw [if_pos hc]
      exact ihFn (.vstr s) [] st2 false rfl rfl hst2
    · rw [if_neg hc]
      constructor
      · intro x st' hx
        cases hx
      · intro w hw
        injection hw with h1
        injection h1 with h2
        cases h2
  have ha10 : RuleAgree
      (fun v st => match v with
        | Value.vstr s => isMathApply reg f asy s st
        | _ => .error (.cont none))
      (fun v st => match v with
        | Value.vstr s => isMathApply reg f false s st
        | _ => .error (.cont none)) :=
    ruleAgree_strBody _ _ (fun s st2 hst2 => (ihMath asy s st2 hst2).1)
  have ha11 : RuleAgree
      (fun v st => match v with
        | Value.vstr s => isVarApply reg f asy s st
        | _ => .error (.cont none))
      (fun v st => match v with
        | Value.vstr s => isVarApply reg f false s st
        | _ => .error (.cont none)) :=
    ruleAgree_strBody _ _ (fun s st2 hst2 => (ihVar asy s st2 hst2).1)
  have hagree := List.Forall₂.cons (ruleAgree_awRes (fun v st _ _ => rfl) hs1 asy)
    (List.Forall₂.cons (ruleAgree_awRes (fun v st _ _ => rfl) hs2 asy)
    (List.Forall₂.cons (ruleAgree_awRes (fun v st _ _ => rfl) hs3 asy)
    (List.Forall₂.cons (ruleAgree_awRes (fun v st _ _ => rfl) hs4 asy)
    (List.Forall₂.cons (ruleAgree_awRes (fun v st _ _ => rfl) hs5 asy)
    (List.Forall₂.cons (ruleAgree_awRes (fun v st _ _ => rfl) hs6 asy)
    (List.Forall₂.cons (ruleAgree_awRes (fun v st _ _ => rfl) hs7 asy)
    (List.Forall₂.cons (ruleAgree_awRes (fun v st _ _ => rfl) hs8 asy)
    (List.Forall₂.cons (ruleAgree_awRes (fun v st _ _ => rfl) hs9 asy)
    (List.Forall₂.cons (ruleAgree_awRes ha10 hs10 asy)
    (List.Forall₂.cons (ruleAgree_awRes ha11 hs11 asy)
    (List.Forall₂.cons (ruleAgree_awRes (fun v st _ _ => rfl) hs12 asy)
      List.Forall₂.nil)))))))))))
  have hokList : ∀ r ∈ [
      fun v st => awRes false (rIsString v st),
      fun v st => awRes false (rIsNull v st),
      fun v st => awRes false (rIsUndefined v st),
      fun v st => awRes false (rIsEmptyString v st),
      fun v st => awRes false (rIsTrue v st),
      fun v st => awRes false (rIsFalse v st),
      fun v st => awRes false (rIsNumber v st),
      fun v st => awRes false (rIsFloat v st),
      fun v st => awRes false (rIsKeys v st),
      fun v st => awRes false
        ((fun v st => match v with
          | Value.vstr s => isMathApply reg f false s st
          | _ => .error (.cont none)) v st),
      fun v st => awRes false
        ((fun v st => match v with
          | Value.vstr s => isVarApply reg f false s st
          | _ => .error (.cont none)) v st),
      fun v st => awRes false
        ((fun v st => match v with
          | Value.vstr s =>
            if isCommandCallable reg s && ex then execFn reg f (.vstr s) [] st false
            else .error (.cont none)
          | _ => .error (.cont none)) v st)], RuleOK r := by
    simp only [List.forall_mem_cons]
    exact ⟨ruleOK_awRes hs1 false, ruleOK_awRes hs2 false, ruleOK_awRes hs3 false,
      ruleOK_awRes hs4 false, ruleOK_awRes hs5 false, ruleOK_awRes hs6 false,
      ruleOK_awRes hs7 false, ruleOK_awRes hs8 false, ruleOK_awRes hs9 false,
      ruleOK_awRes hs10 false, ruleOK_awRes hs11 false, ruleOK_awRes hs12 false,
      List.forall_mem_nil _⟩
  refine ⟨?_, ?_, ?_⟩
  · exact ladderRun_agree hagree hokList v st hv hst
  · intro x st' hx
    exact ladderRun_ok _ hokList v st hv hst x st' hx
  · intro w hw
    exact ladderRun_nocont _ v st hw

/-- One fuel step for the `isMath` rule body. -/
theorem step_math {reg : Registry} {f : Nat} (ih : LevelOK reg f) : OkMath reg (f + 1) := by
  obtain ⟨ihCv, ihMath, ihVar, ihIv, ihParam, ihFn, ihThunk, ihCmd, ihXsh, ihParse⟩ := ih
  intro asy s st hst
  have hCvA : CvAgree (fun v st => convert reg f asy v st false)
      (fun v st => convert reg f false v st false) :=
    fun x st2 hst2 hx => (ihCv asy x st2 false hx hst2).1
  have hCvS : CvOK (fun v st => convert reg f false v st false) :=
    fun x st2 hx hst2 =>
      ⟨(ihCv false x st2 false hx hst2).2.1, (ihCv false x st2 false hx hst2).2.2⟩
  by_cases hm : hasMathStr s = true
  · have hkeyA : isMathApply reg (f + 1) asy s st =
        (match findMathSplit mathRules s with
         | some (m, parts) =>
           match convertListG (fun v st => convert reg f asy v st false)
               (parts.map Value.vstr) st with
           | .ok (ops, st) =>
             match parseMath m (if asy then ops.map Value.awaitV else ops) with
             | .ok r =>
               match r with
               | .vundef => .error .mathResultInvalid
               | _ => Except.ok (r, st)
             | .error e => .error e
           | .error e => .error e
         | none => .error (.cont none)) := by
      show (if hasMathStr s = true then _ else _) = _
      rw [if_pos hm]
    have hkeyS : isMathApply reg (f + 1) false s st =
        (match findMathSplit mathRules s with
         | some (m, parts) =>
           match convertListG (fun v st => convert reg f false v st false)
               (parts.map Value.vstr) st with
           | .ok (ops, st) =>
             match parseMath m ops with
             | .ok r =>
               match r with
               | .vundef => .error .mathResultInvalid
               | _ => Except.ok (r, st)
             | .error e => .error e
           | .error e => .error e
         | none => .error (.cont none)) := by
      show (if hasMathStr s = true then _ else _) = _
      rw [if_pos hm]
      rfl
    refine ⟨?_, ?_, ?_⟩
    · rw [hkeyA, hkeyS]
      cases hsplit : findMathSplit mathRules s with
      | none => rfl
      | some pr =>
        obtain ⟨m, parts⟩ := pr
        dsimp only
        rw [convertListG_agreeP hCvA hCvS (parts.map Value.vstr) st
          (noProm_go_map_vstr parts) hst]
        cases hcl : convertListG (fun v st => convert reg f false v st false)
            (parts.map Value.vstr) st with
        | error e => rfl
        | ok pr2 =>
          obtain ⟨ops, st2⟩ := pr2
          dsimp only
          obtain ⟨hops, hst2⟩ := (convertListG_okP hCvS (parts.map Value.vstr) st
            (noProm_go_map_vstr parts) hst).1 ops st2 hcl
          rw [show (if asy then ops.map Value.awaitV else ops) = ops from by
            cases asy with
            | false => rfl
            | true => exact map_awaitV_of_noProm hops]
    · intro x st' hx
      rw [hkeyS] at hx
      cases hsplit : findMathSplit mathRules s with
      | none => rw [hsplit] at hx; cases hx
      | some pr =>
        obtain ⟨m, parts⟩ := pr
        rw [hsplit] at hx
        dsimp only at hx
        cases hcl : convertListG (fun v st => convert reg f false v st false)
            (parts.map Value.vstr) st with
        | error e => rw [hcl] at hx; cases hx
        | ok pr2 =>
          obtain ⟨ops, st2⟩ := pr2
          rw [hcl] at hx
          dsimp only at hx
          obtain ⟨hops, hst2⟩ := (convertListG_okP hCvS (parts.map Value.vstr) st
            (noProm_go_map_vstr parts) hst).1 ops st2 hcl
          cases hpm : parseMath m ops with
          | ok r =>
            rw [hpm] at hx
            have hr := parseMath_noProm hops hpm
            cases r with
            | vundef => cases hx
            | vnull =>
              injection hx with h1
              injection h1 with h2 h3
              rw [← h2, ← h3]
              exact ⟨hr, hst2⟩
            | vbool b =>
              injection hx with h1
              injection h1 with h2 h3
              rw [← h2, ← h3]
              exact ⟨hr, hst2⟩
            | vnum q =>
              injection hx with h1
              injection h1 with h2 h3
              rw [← h2, ← h3]
              exact ⟨hr, hst2⟩
            | vstr t =>
              injection hx with h1
              injection h1 with h2 h3
              rw [← h2, ← h3]
              exact ⟨hr, hst2⟩
            | varr xs =>
              injection hx with h1
              injection h1 with h2 h3
              rw [← h2, ← h3]
              exact ⟨hr, hst2⟩
            | vobj fs =>
              injection hx with h1
              injection h1 with h2 h3
              rw [← h2, ← h3]
              exact ⟨hr, hst2⟩
            | vprom p2 =>
              injection hx with h1
              injection h1 with h2 h3
              rw [← h2, ← h3]
              exact ⟨hr, hst2⟩
            | vfun d =>
              injection hx with h1
              injection h1 with h2 h3
              rw [← h2, ← h3]
              exact ⟨hr, hst2⟩
          | error e => rw [hpm] at hx; cases hx
    · intro w hw
      rw [hkeyS] at hw
      cases hsplit : findMathSplit mathRules s with
      | none =>
        rw [hsplit] at hw
        injection hw with h1
        injection h1 with h2
        cases h2
      | some pr =>
        obtain ⟨m, parts⟩ := pr
        rw [hsplit] at hw
        dsimp only at hw
        cases hcl : convertListG (fun v st => convert reg f false v st false)
            (parts.map Value.vstr) st with
        | error e =>
          rw [hcl] at hw
          injection hw with h1
          exact (convertListG_okP hCvS (parts.map Value.vstr) st
            (noProm_go_map_vstr parts) hst).2 w (by rw [hcl, h1])
        | ok pr2 =>
          obtain ⟨ops, st2⟩ := pr2
          rw [hcl] at hw
          dsimp only at hw
          cases hpm : parseMath m ops with
          | ok r =>
            rw [hpm] at hw
            cases r with
            | vundef =>
              injection hw with h1
              cases h1
            | vnull => cases hw
            | vbool b => cases hw
            | vnum q => cases hw
            | vstr t => cases hw
            | varr xs => cases hw
            | vobj fs => cases hw
            | vprom p2 => cases hw
            | vfun d => cases hw
          | error e =>
            rw [hpm] at hw
            injection hw with h1
            have h2 := parseMath_err hpm
            rw [h1] at h2
            cases h2
  · have hkeyA : isMathApply reg (f + 1) asy s st = .error (.cont none) := by
      show (if hasMathStr s = true then _ else _) = _
      rw [if_neg hm]
    have hkeyS : isMathApply reg (f + 1) false s st = .error (.cont none) := by
      show (if hasMathStr s = true then _ else _) = _
      rw [if_neg hm]
    refine ⟨?_, ?_, ?_⟩
    · rw [hkeyA, hkeyS]
    · intro x st' hx
      rw [hkeyS] at hx
      cases hx
    · intro w hw
      rw [hkeyS] at hw
      injection hw with h1
      injection h1 with h2
      cases h2

/-- One fuel step for the `isVariable` rule body. -/
theorem step_var {reg : Registry} {f : Nat} (ih : LevelOK reg f) : OkVar reg (f + 1) := by
  obtain ⟨ihCv, ihMath, ihVar, ihIv, ihParam, ihFn, ihThunk, ihCmd, ihXsh, ihParse⟩ := ih
  intro asy s st hst
  have hCvA : CvAgree (fun v st => convert reg f asy v st false)
      (fun v st => convert reg f false v st false) :=
    fun x st2 hst2 hx => (ihCv asy x st2 false hx hst2).1
  have hCvS : CvOK (fun v st => convert reg f false v st false) :=
    fun x st2 hx hst2 =>
      ⟨(ihCv false x st2 false hx hst2).2.1, (ihCv false x st2 false hx hst2).2.2⟩
  by_cases hiv : isVariableStr s = true
  · have hkeyA : isVarApply reg (f + 1) asy s st =
        (match convertListG (fun v st => convert reg f asy v st false)
            ((splitStr ⟨s.data.dropWhile (fun c => c = '$')⟩ ".").map Value.vstr) st with
         | .ok (vars, st) =>
           match getVar st (.varr (if asy then vars.map Value.awaitV else vars)) with
           | .ok res =>
             if (if asy then res.awaitV else res).isNullish then
               Except.ok (if asy then res.awaitV else res, st)
             else if isRunnableVariableStr s then
               ivCheckValue reg f asy (if asy then res.awaitV else res) st
             else Except.ok (if asy then res.awaitV else res, st)
           | .error e => .error e
         | .error e => .error e) := by
      show (if isVariableStr s = true then _ else _) = _
      rw [if_pos hiv]
    have hkeyS : isVarApply reg (f + 1) false s st =
        (match convertListG (fun v st => convert reg f false v st false)
            ((splitStr ⟨s.data.dropWhile (fun c => c = '$')⟩ ".").map Value.vstr) st with
         | .ok (vars, st) =>
           match getVar st (.varr vars) with
           | .ok res =>
             if res.isNullish then Except.ok (res, st)
             else if isRunnableVariableStr s then ivCheckValue reg f false res st
             else Except.ok (res, st)
           | .error e => .error e
         | .error e => .error e) := by
      show (if isVariableStr s = true then _ else _) = _
      rw [if_pos hiv]
      rfl
    refine ⟨?_, ?_, ?_⟩
    · rw [hkeyA, hkeyS]
      rw [convertListG_agreeP hCvA hCvS ((splitStr ⟨s.data.dropWhile (fun c => c = '$')⟩ ".").map Value.vstr) st (noProm_go_map_vstr _) hst]
      cases hcl : convertListG (fun v st => convert reg f false v st false)
          ((splitStr ⟨s.data.dropWhile (fun c => c = '$')⟩ ".").map Value.vstr) st with
      | error e => rfl
      | ok pr =>
        obtain ⟨vars, st2⟩ := pr
        dsimp only
        obtain ⟨hvars, hst2⟩ := (convertListG_okP hCvS ((splitStr ⟨s.data.dropWhile (fun c => c = '$')⟩ ".").map Value.vstr) st
          (noProm_go_map_vstr _) hst).1 vars st2 hcl
        rw [show (if asy then vars.map Value.awaitV else vars) = vars from by
          cases asy with
          | false => rfl
          | true => exact map_awaitV_of_noProm hvars]
        cases hgv : getVar st2 (.varr vars) with
        | error e => rfl
        | ok res =>
          dsimp only
          have hres := getVar_noProm (.varr vars) st2 .vundef hst2 rfl res hgv
          rw [show (if asy then res.awaitV else res) = res from by
            cases asy with
            | false => rfl
            | true => exact awaitV_of_noProm hres]
          by_cases hn : res.isNullish = true
          · rw [if_pos hn, if_pos hn]
          · rw [if_neg hn, if_neg hn]
            by_cases hrun : isRunnableVariableStr s = true
            · rw [if_pos hrun, if_pos hrun]
              exact (ihIv asy res st2 hres hst2).1
            · rw [if_neg hrun, if_neg hrun]
    · intro x st' hx
      rw [hkeyS] at hx
      cases hcl : convertListG (fun v st => convert reg f false v st false)
          ((splitStr ⟨s.data.dropWhile (fun c => c = '$')⟩ ".").map Value.vstr) st with
      | error e => rw [hcl] at hx; cases hx
      | ok pr =>
        obtain ⟨vars, st2⟩ := pr
        rw [hcl] at hx
        dsimp only at hx
        obtain ⟨hvars, hst2⟩ := (convertListG_okP hCvS ((splitStr ⟨s.data.dropWhile (fun c => c = '$')⟩ ".").map Value.vstr) st
          (noProm_go_map_vstr _) hst).1 vars st2 hcl
        cases hgv : getVar st2 (.varr vars) with
        | error e => rw [hgv] at hx; cases hx
        | ok res =>
          rw [hgv] at hx
          dsimp only at hx
          have hres := getVar_noProm (.varr vars) st2 .vundef hst2 rfl res hgv
          by_cases hn : res.isNullish = true
          · rw [if_pos hn] at hx
            injection hx with h1
            injection h1 with h2 h3
            rw [← h2, ← h3]
            exact ⟨hres, hst2⟩
          · rw [if_neg hn] at hx
            by_cases hrun : isRunnableVariableStr s = true
            · rw [if_pos hrun] at hx
              exact (ihIv false res st2 hres hst2).2.1 x st' hx
            · rw [if_neg hrun] at hx
              injection hx with h1
              injection h1 with h2 h3
              rw [← h2, ← h3]
              exact ⟨hres, hst2⟩
    · intro w hw
      rw [hkeyS] at hw
      cases hcl : convertListG (fun v st => convert reg f false v st false)
          ((splitStr ⟨s.data.dropWhile (fun c => c = '$')⟩ ".").map Value.vstr) st with
      | error e =>
        rw [hcl] at hw
        injection hw with h1
        exact (convertListG_okP hCvS ((splitStr ⟨s.data.dropWhile (fun c => c = '$')⟩ ".").map Value.vstr) st
          (noProm_go_map_vstr _) hst).2 w (by rw [hcl, h1])
      | ok pr =>
        obtain ⟨vars, st2⟩ := pr
        rw [hcl] at hw
        dsimp only at hw
        obtain ⟨hvars, hst2⟩ := (convertListG_okP hCvS ((splitStr ⟨s.data.dropWhile (fun c => c = '$')⟩ ".").map Value.vstr) st
          (noProm_go_map_vstr _) hst).1 vars st2 hcl
        cases hgv : getVar st2 (.varr vars) with
        | error e =>
          rw [hgv] at hw
          injection hw with h1
          have h2 := getVar_err (.varr vars) st2 .vundef hgv
          rw [h1] at h2
          cases h2
        | ok res =>
          rw [hgv] at hw
          dsimp only at hw
          have hres := getVar_noProm (.varr vars) st2 .vundef hst2 rfl res hgv
          by_cases hn : res.isNullish = true
          · rw [if_pos hn] at hw
            cases hw
          · rw [if_neg hn] at hw
            by_cases hrun : isRunnableVariableStr s = true
            · rw [if_pos hrun] at hw
              exact (ihIv false res st2 hres hst2).2.2 w hw
            · rw [if_neg hrun] at hw
              cases hw
  · have hkeyA : isVarApply reg (f + 1) asy s st = .error (.cont none) := by
      show (if isVariableStr s = true then _ else _) = _
      rw [if_neg hiv]
    have hkeyS : isVarApply reg (f + 1) false s st = .error (.cont none) := by
      show (if isVariableStr s = true then _ else _) = _
      rw [if_neg hiv]
    refine ⟨?_, ?_, ?_⟩
    · rw [hkeyA, hkeyS]
    · intro x st' hx
      rw [hkeyS] at hx
      cases hx
    · intro w hw
      rw [hkeyS] at hw
      injection hw with h1
      injection h1 with h2
      cases h2

/-- The object-literal builder keeps deferred-freedom of the field
values. -/
theorem foldl_aSet_noProm2 {l : List (Value × Value)} {init : List (String × Value)}
    (hi : ∀ p ∈ init, noProm p.2 = true) (hl : ∀ p ∈ l, noProm p.2 = true) :
    ∀ p ∈ l.foldl (fun acc q => aSet acc (jsToString q.1) q.2) init, noProm p.2 = true := by
  induction l generalizing init with
  | nil => exact hi
  | cons q l ih =>
    simp only [List.foldl_cons]
    exact ih (aSet_all_noProm hi (hl q (List.mem_cons_self ..)))
      (fun p hp => hl p (List.mem_cons_of_mem _ hp))

/-- One fuel step for the `isVariable` rule's `checkValue`. -/
theorem step_iv {reg : Registry} {f : Nat} (ih : LevelOK reg f) : OkIv reg (f + 1) := by
  obtain ⟨ihCv, ihMath, ihVar, ihIv, ihParam, ihFn, ihThunk, ihCmd, ihXsh, ihParse⟩ := ih
  intro asy value st hv hst
  have hCvA : CvAgree (fun v st => convert reg f asy v st false)
      (fun v st => convert reg f false v st false) :=
    fun x st2 hst2 hx => (ihCv asy x st2 false hx hst2).1
  have hCvS : CvOK (fun v st => convert reg f false v st false) :=
    fun x st2 hx hst2 =>
      ⟨(ihCv false x st2 false hx hst2).2.1, (ihCv false x st2 false hx hst2).2.2⟩
  cases value with
  | vnull =>
    refine ⟨rfl, ?_, ?_⟩
    · intro x st' hx
      injection hx with h1
      injection h1 with h2 h3
      rw [← h2, ← h3]
      exact ⟨hv, hst⟩
    · intro w hw
      cases hw
  | vundef =>
    refine ⟨rfl, ?_, ?_⟩
    · intro x st' hx
      injection hx with h1
      injection h1 with h2 h3
      rw [← h2, ← h3]
      exact ⟨hv, hst⟩
    · intro w hw
      cases hw
  | vbool b =>
    refine ⟨rfl, ?_, ?_⟩
    · intro x st' hx
      injection hx with h1
      injection h1 with h2 h3
      rw [← h2, ← h3]
      exact ⟨hv, hst⟩
    · intro w hw
      cases hw
  | vnum q =>
    refine ⟨rfl, ?_, ?_⟩
    · intro x st' hx
      injection hx with h1
      injection h1 with h2 h3
      rw [← h2, ← h3]
      exact ⟨hv, hst⟩
    · intro w hw
      cases hw
  | vobj fs =>
    refine ⟨rfl, ?_, ?_⟩
    · intro x st' hx
      injection hx with h1
      injection h1 with h2 h3
      rw [← h2, ← h3]
      exact ⟨hv, hst⟩
    · intro w hw
      cases hw
  | vprom p =>
    refine ⟨rfl, ?_, ?_⟩
    · intro x st' hx
      injection hx with h1
      injection h1 with h2 h3
      rw [← h2, ← h3]
      exact ⟨hv, hst⟩
    · intro w hw
      cases hw
  | vfun d =>
    exact ⟨rfl, (ihFn (.vfun d) [] st true hv rfl hst).1,
      (ihFn (.vfun d) [] st true hv rfl hst).2⟩
  | varr xs =>
    have hxs : noProm.go xs = true := hv
    have hkA : ivCheckValue reg (f + 1) asy (.varr xs) st =
        (match convertListG (fun v st => convert reg f asy v st false) xs st with
         | .ok (vs, st) => Except.ok (.varr (if asy then vs.map Value.awaitV else vs), st)
         | .error e => .error e) := rfl
    have hkS : ivCheckValue reg (f + 1) false (.varr xs) st =
        (match convertListG (fun v st => convert reg f false v st false) xs st with
         | .ok (vs, st) => Except.ok (.varr vs, st)
         | .error e => .error e) := rfl
    rw [hkA, hkS]
    refine ⟨?_, ?_, ?_⟩
    · rw [convertListG_agreeP hCvA hCvS xs st hxs hst]
      cases hcl : convertListG (fun v st => convert reg f false v st false) xs st with
      | error e => rfl
      | ok pr =>
        obtain ⟨vs, st2⟩ := pr
        dsimp only
        obtain ⟨hvs, hst2⟩ := (convertListG_okP hCvS xs st hxs hst).1 vs st2 hcl
        rw [show (if asy then vs.map Value.awaitV else vs) = vs from by
          cases asy with
          | false => rfl
          | true => exact map_awaitV_of_noProm hvs]
    · intro x st' hx
      cases hcl : convertListG (fun v st => convert reg f false v st false) xs st with
      | error e => rw [hcl] at hx; cases hx
      | ok pr =>
        obtain ⟨vs, st2⟩ := pr
        rw [hcl] at hx
        dsimp only at hx
        obtain ⟨hvs, hst2⟩ := (convertListG_okP hCvS xs st hxs hst).1 vs st2 hcl
        injection hx with h1
        injection h1 with h2 h3
        rw [← h2, ← h3]
        exact ⟨hvs, hst2⟩
    · intro w hw
      cases hcl : convertListG (fun v st => convert reg f false v st false) xs st with
      | error e =>
        rw [hcl] at hw
        injection hw with h1
        exact (convertListG_okP hCvS xs st hxs hst).2 w (by rw [hcl, h1])
      | ok pr =>
        obtain ⟨vs, st2⟩ := pr
        rw [hcl] at hw
        dsimp only at hw
        cases hw
  | vstr t =>
    by_cases hp : (strStarts t "(" && strEnds t ")") = true
    · have hkA : ivCheckValue reg (f + 1) asy (.vstr t) st =
          execXsh reg f asy (middleStr t) st true := by
        show (if (strStarts t "(" && strEnds t ")") = true then _ else _) = _
        rw [if_pos hp]
      have hkS : ivCheckValue reg (f + 1) false (.vstr t) st =
          execXsh reg f false (middleStr t) st true := by
        show (if (strStarts t "(" && strEnds t ")") = true then _ else _) = _
        rw [if_pos hp]
      rw [hkA, hkS]
      exact ⟨(ihXsh asy (middleStr t) st true hst).1,
        (ihXsh asy (middleStr t) st true hst).2.1,
        (ihXsh asy (middleStr t) st true hst).2.2⟩
    · by_cases hb : (strStarts t "[" && strEnds t "]") = true
      · have hkA : ivCheckValue reg (f + 1) asy (.vstr t) st =
            (if trimStr (middleStr t) = "" then Except.ok (.varr [], st)
             else
               match convertListG (fun v st => convert reg f asy v st false)
                   ((splitStr (middleStr t) ",").map Value.vstr) st with
               | .ok (vs, st) =>
                 Except.ok (.varr (if asy then vs.map Value.awaitV else vs), st)
               | .error e => .error e) := by
          show (if (strStarts t "(" && strEnds t ")") = true then _ else _) = _
          rw [if_neg hp, if_pos hb]
        have hkS : ivCheckValue reg (f + 1) false (.vstr t) st =
            (if trimStr (middleStr t) = "" then Except.ok (.varr [], st)
             else
               match convertListG (fun v st => convert reg f false v st false)
                   ((splitStr (middleStr t) ",").map Value.vstr) st with
               | .ok (vs, st) => Except.ok (.varr vs, st)
               | .error e => .error e) := by
          show (if (strStarts t "(" && strEnds t ")") = true then _ else _) = _
          rw [if_neg hp, if_pos hb]
          rfl
        rw [hkA, hkS]
        by_cases hemp : trimStr (middleStr t) = ""
        · rw [if_pos hemp, if_pos hemp]
          refine ⟨rfl, ?_, ?_⟩
          · intro x st' hx
            injection hx with h1
            injection h1 with h2 h3
            rw [← h2, ← h3]
            exact ⟨rfl, hst⟩
          · intro w hw
            cases hw
        · rw [if_neg hemp, if_neg hemp]
          refine ⟨?_, ?_, ?_⟩
          · rw [convertListG_agreeP hCvA hCvS ((splitStr (middleStr t) ",").map Value.vstr)
              st (noProm_go_map_vstr _) hst]
            cases hcl : convertListG (fun v st => convert reg f false v st false)
                ((splitStr (middleStr t) ",").map Value.vstr) st with
            | error e => rfl
            | ok pr =>
              obtain ⟨vs, st2⟩ := pr
              dsimp only
              obtain ⟨hvs, hst2⟩ := (convertListG_okP hCvS _ st
                (noProm_go_map_vstr _) hst).1 vs st2 hcl
              rw [show (if asy then vs.map Value.awaitV else vs) = vs from by
                cases asy with
                | false => rfl
                | true => exact map_awaitV_of_noProm hvs]
          · intro x st' hx
            cases hcl : convertListG (fun v st => convert reg f false v st false)
                ((splitStr (middleStr t) ",").map Value.vstr) st with
            | error e => rw [hcl] at hx; cases hx
            | ok pr =>
              obtain ⟨vs, st2⟩ := pr
              rw [hcl] at hx
              dsimp only at hx
              obtain ⟨hvs, hst2⟩ := (convertListG_okP hCvS _ st
                (noProm_go_map_vstr _) hst).1 vs st2 hcl
              injection hx with h1
              injection h1 with h2 h3
              rw [← h2, ← h3]
              exact ⟨hvs, hst2⟩
          · intro w hw
            cases hcl : convertListG (fun v st => convert reg f false v st false)
                ((splitStr (middleStr t) ",").map Value.vstr) st with
            | error e =>
              rw [hcl] at hw
              injection hw with h1
              exact (convertListG_okP hCvS _ st (noProm_go_map_vstr _) hst).2 w
                (by rw [hcl, h1])
            | ok pr =>
              obtain ⟨vs, st2⟩ := pr
              rw [hcl] at hw
              dsimp only at hw
              cases hw
      · by_cases hc : (strStarts t "\x7b" && strEnds t "\x7d") = true
        · have hkA : ivCheckValue reg (f + 1) asy (.vstr t) st =
              (if trimStr (middleStr t) = "" then Except.ok (.vobj [], st)
               else
                 match convertEntriesG (fun v st => convert reg f asy v st false) asy
                     (objEntries 0 (splitStr (middleStr t) ",")) st with
                 | .ok (pairs, st) =>
                   Except.ok (.vobj (pairs.foldl
                     (fun acc p => aSet acc (jsToString p.1) p.2) []), st)
                 | .error e => .error e) := by
            show (if (strStarts t "(" && strEnds t ")") = true then _ else _) = _
            rw [if_neg hp, if_neg hb, if_pos hc]
          have hkS : ivCheckValue reg (f + 1) false (.vstr t) st =
              (if trimStr (middleStr t) = "" then Except.ok (.vobj [], st)
               else
                 match convertEntriesG (fun v st => convert reg f false v st false) false
                     (objEntries 0 (splitStr (middleStr t) ",")) st with
                 | .ok (pairs, st) =>
                   Except.ok (.vobj (pairs.foldl
                     (fun acc p => aSet acc (jsToString p.1) p.2) []), st)
                 | .error e => .error e) := by
            show (if (strStarts t "(" && strEnds t ")") = true then _ else _) = _
            rw [if_neg hp, if_neg hb, if_pos hc]
          rw [hkA, hkS]
          by_cases hemp : trimStr (middleStr t) = ""
          · rw [if_pos hemp, if_pos hemp]
            refine ⟨rfl, ?_, ?_⟩
            · intro x st' hx
              injection hx with h1
              injection h1 with h2 h3
              rw [← h2, ← h3]
              exact ⟨rfl, hst⟩
            · intro w hw
              cases hw
          · rw [if_neg hemp, if_neg hemp]
            have hpairs : ∀ p ∈ objEntries 0 (splitStr (middleStr t) ","),
                noProm p.1 = true ∧ noProm p.2 = true :=
              objEntries_noProm 0 (splitStr (middleStr t) ",")
            refine ⟨?_, ?_, ?_⟩
            · rw [convertEntriesG_agreeP hCvA hCvS asy
                (objEntries 0 (splitStr (middleStr t) ",")) st hpairs hst]
            · intro x st' hx
              cases hce : convertEntriesG (fun v st => convert reg f false v st false) false
                  (objEntries 0 (splitStr (middleStr t) ",")) st with
              | error e => rw [hce] at hx; cases hx
              | ok pr =>
                obtain ⟨pairs, st2⟩ := pr
                rw [hce] at hx
                dsimp only at hx
                obtain ⟨hps, hst2⟩ := (convertEntriesG_okP hCvS _ st hpairs hst).1
                  pairs st2 hce
                injection hx with h1
                injection h1 with h2 h3
                rw [← h2, ← h3]
                refine ⟨?_, hst2⟩
                show noProm.goF _ = true
                rw [noProm_goF_iff]
                exact foldl_aSet_noProm2 (fun p hp => absurd hp (List.not_mem_nil p))
                  (fun p hp => (hps p hp).2)
            · intro w hw
              cases hce : convertEntriesG (fun v st => convert reg f false v st false) false
                  (objEntries 0 (splitStr (middleStr t) ",")) st with
              | error e =>
                rw [hce] at hw
                injection hw with h1
                exact (convertEntriesG_okP hCvS _ st hpairs hst).2 w (by rw [hce, h1])
              | ok pr =>
                obtain ⟨pairs, st2⟩ := pr
                rw [hce] at hw
                dsimp only at hw
                cases hw
        · have hkA : ivCheckValue reg (f + 1) asy (.vstr t) st =
              execXsh reg f asy t st true := by
            show (if (strStarts t "(" && strEnds t ")") = true then _ else _) = _
            rw [if_neg hp, if_neg hb, if_neg hc]
          have hkS : ivCheckValue reg (f + 1) false (.vstr t) st =
              execXsh reg f false t st true := by
            show (if (strStarts t "(" && strEnds t ")") = true then _ else _) = _
            rw [if_neg hp, if_neg hb, if_neg hc]
          rw [hkA, hkS]
          exact ⟨(ihXsh asy t st true hst).1, (ihXsh asy t st true hst).2.1,
            (ihXsh asy t st true hst).2.2⟩

/-- One fuel step for the `param` rule's `checkValue`. -/
theorem step_param {reg : Registry} {f : Nat} (ih : LevelOK reg f) : OkParam reg (f + 1) := by
  obtain ⟨ihCv, ihMath, ihVar, ihIv, ihParam, ihFn, ihThunk, ihCmd, ihXsh, ihParse⟩ := ih
  intro vals st hvals hst
  cases vals with
  | nil =>
    constructor
    · intro x st' hx
      injection hx with h1
      injection h1 with h2 h3
      rw [← h2, ← h3]
      exact ⟨rfl, hst⟩
    · intro w hw
      cases hw
  | cons fn rest =>
    have hfn : noProm fn = true ∧ noProm.go rest = true := by
      simpa [noProm.go, Bool.and_eq_true] using hvals
    cases fn with
    | vstr name =>
      have hkey : paramCheckValue reg (f + 1) (Value.vstr name :: rest) st =
          (if (isCommandCallable reg name || false) = true then
             execFn reg f (Value.vstr name) rest st false
           else if (Value.vstr name :: rest).length > 1 then
             Except.ok (.varr (Value.vstr name :: rest), st)
           else Except.ok (Value.vstr name, st)) := rfl
      rw [hkey]
      by_cases hcall : (isCommandCallable reg name || false) = true
      · rw [if_pos hcall]
        exact ihFn (Value.vstr name) rest st false hfn.1 hfn.2 hst
      · rw [if_neg hcall]
        by_cases hlen : (Value.vstr name :: rest).length > 1
        · rw [if_pos hlen]
          constructor
          · intro x st' hx
            injection hx with h1
            injection h1 with h2 h3
            rw [← h2, ← h3]
            exact ⟨hvals, hst⟩
          · intro w hw
            cases hw
        · rw [if_neg hlen]
          constructor
          · intro x st' hx
            injection hx with h1
            injection h1 with h2 h3
            rw [← h2, ← h3]
            exact ⟨hfn.1, hst⟩
          · intro w hw
            cases hw
    | vfun d =>
      exact ihFn (Value.vfun d) rest st true hfn.1 hfn.2 hst
    | vnull =>
      have hkey : paramCheckValue reg (f + 1) (Value.vnull :: rest) st =
          (if (Value.vnull :: rest).length > 1 then Except.ok (.varr (Value.vnull :: rest), st)
           else Except.ok (Value.vnull, st)) := rfl
      rw [hkey]
      by_cases hlen : (Value.vnull :: rest).length > 1
      · rw [if_pos hlen]
        constructor
        · intro x st' hx
          injection hx with h1
          injection h1 with h2 h3
          rw [← h2, ← h3]
          exact ⟨hvals, hst⟩
        · intro w hw
          cases hw
      · rw [if_neg hlen]
        constructor
        · intro x st' hx
          injection hx with h1
          injection h1 with h2 h3
          rw [← h2, ← h3]
          exact ⟨hfn.1, hst⟩
        · intro w hw
          cases hw
    | vundef =>
      have hkey : paramCheckValue reg (f + 1) (Value.vundef :: rest) st =
          (if (Value.vundef :: rest).length > 1 then Except.ok (.varr (Value.vundef :: rest), st)
           else Except.ok (Value.vundef, st)) := rfl
      rw [hkey]
      by_cases hlen : (Value.vundef :: rest).length > 1
      · rw [if_pos hlen]
        constructor
        · intro x st' hx
          injection hx with h1
          injection h1 with h2 h3
          rw [← h2, ← h3]
          exact ⟨hvals, hst⟩
        · intro w hw
          cases hw
      · rw [if_neg hlen]
        constructor
        · intro x st' hx
          injection hx with h1
          injection h1 with h2 h3
          rw [← h2, ← h3]
          exact ⟨hfn.1, hst⟩
        · intro w hw
          cases hw
    | vbool b =>
      have hkey : paramCheckValue reg (f + 1) (Value.vbool b :: rest) st =
          (if (Value.vbool b :: rest).length > 1 then Except.ok (.varr (Value.vbool b :: rest), st)
           else Except.ok (Value.vbool b, st)) := rfl
      rw [hkey]
      by_cases hlen : (Value.vbool b :: rest).length > 1
      · rw [if_pos hlen]
        constructor
        · intro x st' hx
          injection hx with h1
          injection h1 with h2 h3
          rw [← h2, ← h3]
          exact ⟨hvals, hst⟩
        · intro w hw
          cases hw
      · rw [if_neg hlen]
        constructor
        · intro x st' hx
          injection hx with h1
          injection h1 with h2 h3
          rw [← h2, ← h3]
          exact ⟨hfn.1, hst⟩
        · intro w hw
          cases hw
    | vnum q =>
      have hkey : paramCheckValue reg (f + 1) (Value.vnum q :: rest) st =
          (if (Value.vnum q :: rest).length > 1 then Except.ok (.varr (Value.vnum q :: rest), st)
           else Except.ok (Value.vnum q, st)) := rfl
      rw [hkey]
      by_cases hlen : (Value.vnum q :: rest).length > 1
      · rw [if_pos hlen]
        constructor
        · intro x st' hx
          injection hx with h1
          injection h1 with h2 h3
          rw [← h2, ← h3]
          exact ⟨hvals, hst⟩
        · intro w hw
          cases hw
      · rw [if_neg hlen]
        constructor
        · intro x st' hx
          injection hx with h1
          injection h1 with h2 h3
          rw [← h2, ← h3]
          exact ⟨hfn.1, hst⟩
        · intro w hw
          cases hw
    | varr xs =>
      have hkey : paramCheckValue reg (f + 1) (Value.varr xs :: rest) st =
          (if (Value.varr xs :: rest).length > 1 then Except.ok (.varr (Value.varr xs :: rest), st)
           else Except.ok (Value.varr xs, st)) := rfl
      rw [hkey]
      by_cases hlen : (Value.varr xs :: rest).length > 1
      · rw [if_pos hlen]
        constructor
        · intro x st' hx
          injection hx with h1
          injection h1 with h2 h3
          rw [← h2, ← h3]
          exact ⟨hvals, hst⟩
        · intro w hw
          cases hw
      · rw [if_neg hlen]
        constructor
        · intro x st' hx
          injection hx with h1
          injection h1 with h2 h3
          rw [← h2, ← h3]
          exact ⟨hfn.1, hst⟩
        · intro w hw
          cases hw
    | vobj fs =>
      have hkey : paramCheckValue reg (f + 1) (Value.vobj fs :: rest) st =
          (if (Value.vobj fs :: rest).length > 1 then Except.ok (.varr (Value.vobj fs :: rest), st)
           else Except.ok (Value.vobj fs, st)) := rfl
      rw [hkey]
      by_cases hlen : (Value.vobj fs :: rest).length > 1
      · rw [if_pos hlen]
        constructor
        · intro x st' hx
          injection hx with h1
          injection h1 with h2 h3
          rw [← h2, ← h3]
          exact ⟨hvals, hst⟩
        · intro w hw
          cases hw
      · rw [if_neg hlen]
        constructor
        · intro x st' hx
          injection hx with h1
          injection h1 with h2 h3
          rw [← h2, ← h3]
          exact ⟨hfn.1, hst⟩
        · intro w hw
          cases hw
    | vprom p2 =>
      have hkey : paramCheckValue reg (f + 1) (Value.vprom p2 :: rest) st =
          (if (Value.vprom p2 :: rest).length > 1 then Except.ok (.varr (Value.vprom p2 :: rest), st)
           else Except.ok (Value.vprom p2, st)) := rfl
      rw [hkey]
      by_cases hlen : (Value.vprom p2 :: rest).length > 1
      · rw [if_pos hlen]
        constructor
        · intro x st' hx
          injection hx with h1
          injection h1 with h2 h3
          rw [← h2, ← h3]
          exact ⟨hvals, hst⟩
        · intro w hw
          cases hw
      · rw [if_neg hlen]
        constructor
        · intro x st' hx
          injection hx with h1
          injection h1 with h2 h3
          rw [← h2, ← h3]
          exact ⟨hfn.1, hst⟩
        · intro w hw
          cases hw

/-- One fuel step for `execFn`. -/
theorem step_fn {reg : Registry} {f : Nat} (hreg : noPromReg reg) (ih : LevelOK reg f) :
    OkFn reg (f + 1) := by
  obtain ⟨ihCv, ihMath, ihVar, ihIv, ihParam, ihFn, ihThunk, ihCmd, ihXsh, ihParse⟩ := ih
  intro fn args st native hfn hargs hst
  cases native with
  | true =>
    cases fn
    case vfun d => exact ihThunk d st hst
    all_goals
      constructor
      · intro x st' hx
        cases hx
      · intro w hw
        injection hw with h1
        cases h1
  | false =>
    cases fn
    case vstr name =>
      have hkey : execFn reg (f + 1) (Value.vstr name) args st false =
          (match reg.lookup name with
           | some cmd =>
             match bindAndCall cmd args (.vobj st.scope) with
             | .ok v => Except.ok (v, st)
             | .error e => .error e
           | none => .error .propertyNotFound) := rfl
      rw [hkey]
      cases hlk : reg.lookup name with
      | some cmd =>
        dsimp only
        cases hbc : bindAndCall cmd args (.vobj st.scope) with
        | ok v =>
          constructor
          · intro x st' hx
            injection hx with h1
            injection h1 with h2 h3
            rw [← h2, ← h3]
            obtain ⟨cargs, hcb⟩ := bindAndCall_ok hbc
            rw [hcb]
            exact ⟨(hreg (name, cmd) (lookup_mem hlk)).1 cargs, hst⟩
          · intro w hw
            cases hw
        | error e =>
          constructor
          · intro x st' hx
            cases hx
          · intro w hw
            injection hw with h1
            have h2 := bindAndCall_err hbc
            rw [h1] at h2
            cases h2
      | none =>
        constructor
        · intro x st' hx
          cases hx
        · intro w hw
          injection hw with h1
          cases h1
    all_goals
      constructor
      · intro x st' hx
        cases hx
      · intro w hw
        injection hw with h1
        cases h1

/-- One fuel step for the template-closure interpreter. -/
theorem step_thunk {reg : Registry} {f : Nat} (ih : LevelOK reg f) : OkThunk reg (f + 1) := by
  obtain ⟨ihCv, ihMath, ihVar, ihIv, ihParam, ihFn, ihThunk, ihCmd, ihXsh, ihParse⟩ := ih
  intro d st hst
  cases d with
  | tplLine command endg thAsy =>
    have hkey : interpThunk reg (f + 1) (.tplLine command endg thAsy) st =
        (match parse reg f false command st (.vbool thAsy) with
         | .ok (res, st) =>
           Except.ok (.vstr (tplCheckValue (if thAsy then res.awaitV else res) endg), st)
         | .error e => .error e) := rfl
    rw [hkey]
    cases hp : parse reg f false command st (.vbool thAsy) with
    | ok pr =>
      obtain ⟨res, st2⟩ := pr
      obtain ⟨hres, hst2⟩ := (ihParse false command st (.vbool thAsy) hst rfl).2.1 res st2 hp
      constructor
      · intro x st' hx
        injection hx with h1
        injection h1 with h2 h3
        rw [← h2, ← h3]
        exact ⟨rfl, hst2⟩
      · intro w hw
        cases hw
    | error e =>
      constructor
      · intro x st' hx
        cases hx
      · intro w hw
        injection hw with h1
        exact (ihParse false command st (.vbool thAsy) hst rfl).2.2 w (by rw [hp, h1])
  | tplBlock command block endg off thAsy =>
    have hst1 : St.noPromSt
        { st with scope := (aSet (aSet st.scope "offset" (Value.vnum off))
          "template" (Value.vstr block)) } = true :=
      @noPromSt_setScope { st with scope := aSet st.scope "offset" (Value.vnum off) }
        "template" (Value.vstr block) (noPromSt_setScope hst rfl) rfl
    have hkey : interpThunk reg (f + 1) (.tplBlock command block endg off thAsy) st =
        (match parse reg f false command
            { st with scope := (aSet (aSet st.scope "offset" (Value.vnum off))
              "template" (Value.vstr block)) } (.vbool thAsy) with
         | .ok (res, st2) =>
           Except.ok (.vstr (tplCheckValue (if thAsy then res.awaitV else res) endg),
             { st2 with scope := (aSet (aSet st2.scope "offset" (jsGet st.scope "offset"))
               "template" (jsGet st.scope "template")) })
         | .error e => .error e) := rfl
    rw [hkey]
    cases hp : parse reg f false command
        { st with scope := (aSet (aSet st.scope "offset" (Value.vnum off))
          "template" (Value.vstr block)) } (.vbool thAsy) with
    | ok pr =>
      obtain ⟨res, st2⟩ := pr
      obtain ⟨hres, hst2⟩ := (ihParse false command _ (.vbool thAsy) hst1 rfl).2.1 res st2 hp
      constructor
      · intro x st' hx
        injection hx with h1
        injection h1 with h2 h3
        rw [← h2, ← h3]
        refine ⟨rfl, ?_⟩
        exact @noPromSt_setScope
          { st2 with scope := aSet st2.scope "offset" (jsGet st.scope "offset") }
          "template" (jsGet st.scope "template")
          (noPromSt_setScope hst2 (jsGet_scope_noProm hst)) (jsGet_scope_noProm hst)
      · intro w hw
        cases hw
    | error e =>
      constructor
      · intro x st' hx
        cases hx
      · intro w hw
        injection hw with h1
        exact (ihParse false command _ (.vbool thAsy) hst1 rfl).2.2 w (by rw [hp, h1])
  | inlineCmd command thAsy =>
    exact ⟨(ihParse false command st (.vbool thAsy) hst rfl).2.1,
      (ihParse false command st (.vbool thAsy) hst rfl).2.2⟩
  | varConst name thAsy =>
    exact ⟨(ihParse false (getVariableName (if name.data.head? = some '_' then lowerStr name
        else convertToCamelCase name "_")) st (.vbool thAsy) hst rfl).2.1,
      (ihParse false (getVariableName (if name.data.head? = some '_' then lowerStr name
        else convertToCamelCase name "_")) st (.vbool thAsy) hst rfl).2.2⟩
  | runConst name thAsy =>
    exact ⟨(ihParse false (getRunnableVariableName (if name.data.head? = some '_' then
        lowerStr name else convertToCamelCase name "_")) st (.vbool thAsy) hst rfl).2.1,
      (ihParse false (getRunnableVariableName (if name.data.head? = some '_' then
        lowerStr name else convertToCamelCase name "_")) st (.vbool thAsy) hst rfl).2.2⟩

/-- One fuel step for `execCommand`. -/
theorem step_cmd {reg : Registry} {f : Nat} (ih : LevelOK reg f) : OkCmd reg (f + 1) := by
  obtain ⟨ihCv, ihMath, ihVar, ihIv, ihParam, ihFn, ihThunk, ihCmd, ihXsh, ihParse⟩ := ih
  intro asy sc st ex hst
  have hEA : ExAgree (fun c st => awRes asy (execCmd reg f asy c st true))
      (fun c st => awRes false (execCmd reg f false c st true)) := by
    intro c st2 hst2
    show awRes asy (execCmd reg f asy c st2 true) =
      awRes false (execCmd reg f false c st2 true)
    rw [(ihCmd asy c st2 true hst2).1, awRes_false_eq]
    cases hx : execCmd reg f false c st2 true with
    | ok pr =>
      show Except.ok (aw asy pr.1, pr.2) = .ok pr
      rw [aw_of_noProm asy ((ihCmd asy c st2 true hst2).2.1 pr.1 pr.2 (by rw [hx])).1]
    | error e => rfl
  have hES : ExOK (fun c st => awRes false (execCmd reg f false c st true)) := by
    intro c st2 hst2
    constructor
    · intro v st' hv2
      have hv3 : execCmd reg f false c st2 true = .ok (v, st') := by
        rw [← awRes_false_eq (execCmd reg f false c st2 true)]
        exact hv2
      exact (ihCmd false c st2 true hst2).2.1 v st' hv3
    · intro w hw
      have hw2 : execCmd reg f false c st2 true = .error (.cont (some w)) := by
        rw [← awRes_false_eq (execCmd reg f false c st2 true)]
        exact hw
      exact (ihCmd false c st2 true hst2).2.2 w hw2
  have hCvA : CvAgree (fun v st => convert reg f asy v st false)
      (fun v st => convert reg f false v st false) :=
    fun x st2 hst2 hx => (ihCv asy x st2 false hx hst2).1
  have hCvS : CvOK (fun v st => convert reg f false v st false) :=
    fun x st2 hx hst2 =>
      ⟨(ihCv false x st2 false hx hst2).2.1, (ihCv false x st2 false hx hst2).2.2⟩
  cases sc with
  | leaf t =>
    exact ⟨(ihCv asy (.vstr t) st ex rfl hst).1, (ihCv asy (.vstr t) st ex rfl hst).2.1,
      (ihCv asy (.vstr t) st ex rfl hst).2.2⟩
  | node op children =>
    cases op with
    | endOp =>
      exact ⟨endFoldG_agreeP hEA hES children .vundef st hst,
        (endFoldG_okP hES children .vundef st rfl hst).1,
        (endFoldG_okP hES children .vundef st rfl hst).2⟩
    | fail =>
      exact ⟨failFoldG_agreeP hEA hES children st hst,
        (failFoldG_okP hES children st hst).1,
        (failFoldG_okP hES children st hst).2⟩
    | success =>
      exact ⟨successFoldG_agreeP hEA hES children st hst,
        (successFoldG_okP hES children st hst).1,
        (successFoldG_okP hES children st hst).2⟩
    | nullish =>
      exact ⟨nullishFoldG_agreeP hEA hES children st hst,
        (nullishFoldG_okP hES children st hst).1,
        (nullishFoldG_okP hES children st hst).2⟩
    | context =>
      exact ⟨contextFoldG_agreeP hEA hES children .vundef st rfl hst,
        (contextFoldG_okP hES children .vundef st rfl hst).1,
        (contextFoldG_okP hES children .vundef st rfl hst).2⟩
    | out =>
      exact ⟨outFoldG_agreeP hEA hES children st hst,
        (outFoldG_okP hES children st hst).1,
        (outFoldG_okP hES children st hst).2⟩
    | param =>
      have hkeyA : execCmd reg (f + 1) asy (.node .param children) st ex =
          (match childLeafValues children with
           | .ok leaves =>
             match convertListG (fun v st => convert reg f asy v st false) leaves st with
             | .ok (args, st) =>
               paramCheckValue reg f (if asy then args.map Value.awaitV else args) st
             | .error e => .error e
           | .error e => .error e) := rfl
      have hkeyS : execCmd reg (f + 1) false (.node .param children) st ex =
          (match childLeafValues children with
           | .ok leaves =>
             match convertListG (fun v st => convert reg f false v st false) leaves st with
             | .ok (args, st) => paramCheckValue reg f args st
             | .error e => .error e
           | .error e => .error e) := rfl
      rw [hkeyA, hkeyS]
      cases hclv : childLeafValues children with
      | error e =>
        refine ⟨rfl, ?_, ?_⟩
        · intro x st' hx
          cases hx
        · intro w hw
          injection hw with h1
          have h2 := childLeafValues_err hclv
          rw [h2] at h1
          cases h1
      | ok leaves =>
        have hlv := childLeafValues_noProm hclv
        refine ⟨?_, ?_, ?_⟩
        · dsimp only
          rw [convertListG_agreeP hCvA hCvS leaves st hlv hst]
          cases hcl : convertListG (fun v st => convert reg f false v st false) leaves st with
          | error e => rfl
          | ok pr =>
            obtain ⟨args, st2⟩ := pr
            dsimp only
            obtain ⟨hargs, hst2⟩ := (convertListG_okP hCvS leaves st hlv hst).1 args st2 hcl
            rw [show (if asy then args.map Value.awaitV else args) = args from by
              cases asy with
              | false => rfl
              | true => exact map_awaitV_of_noProm hargs]
        · intro x st' hx
          dsimp only at hx
          cases hcl : convertListG (fun v st => convert reg f false v st false) leaves st with
          | error e => rw [hcl] at hx; cases hx
          | ok pr =>
            obtain ⟨args, st2⟩ := pr
            rw [hcl] at hx
            dsimp only at hx
            obtain ⟨hargs, hst2⟩ := (convertListG_okP hCvS leaves st hlv hst).1 args st2 hcl
            exact (ihParam args st2 hargs hst2).1 x st' hx
        · intro w hw
          dsimp only at hw
          cases hcl : convertListG (fun v st => convert reg f false v st false) leaves st with
          | error e =>
            rw [hcl] at hw
            injection hw with h1
            exact (convertListG_okP hCvS leaves st hlv hst).2 w (by rw [hcl, h1])
          | ok pr =>
            obtain ⟨args, st2⟩ := pr
            rw [hcl] at hw
            dsimp only at hw
            obtain ⟨hargs, hst2⟩ := (convertListG_okP hCvS leaves st hlv hst).1 args st2 hcl
            exact (ihParam args st2 hargs hst2).2 w hw

/-- One fuel step for `exec`. -/
theorem step_xsh {reg : Registry} {f : Nat} (ih : LevelOK reg f) : OkXsh reg (f + 1) := by
  obtain ⟨ihCv, ihMath, ihVar, ihIv, ihParam, ihFn, ihThunk, ihCmd, ihXsh, ihParse⟩ := ih
  intro asy command st ex hst
  rcases hpc : parseCommand command st with ⟨sub, st2⟩
  have hsub : St.noPromSt st2 = true := by
    have h2 := @parseCommand_noPromSt command st hst
    rw [hpc] at h2
    exact h2
  have hkey : ∀ asy2, execXsh reg (f + 1) asy2 command st ex =
      execCmd reg f asy2 sub st2 ex := by
    intro asy2
    rw [execXsh, hpc]
  rw [hkey asy, hkey false]
  exact ⟨(ihCmd asy sub st2 ex hsub).1, (ihCmd asy sub st2 ex hsub).2.1,
    (ihCmd asy sub st2 ex hsub).2.2⟩

/-- One fuel step for `parse`. -/
theorem step_parse {reg : Registry} {f : Nat} (ih : LevelOK reg f) : OkParse reg (f + 1) := by
  obtain ⟨ihCv, ihMath, ihVar, ihIv, ihParam, ihFn, ihThunk, ihCmd, ihXsh, ihParse⟩ := ih
  intro asy command st ctx hst hctx
  have hst1 : St.noPromSt { st with scope := aSet st.scope "context" ctx } = true :=
    noPromSt_setScope hst hctx
  exact ⟨(ihXsh asy command { st with scope := aSet st.scope "context" ctx } true hst1).1,
    (ihXsh asy command { st with scope := aSet st.scope "context" ctx } true hst1).2.1,
    (ihXsh asy command { st with scope := aSet st.scope "context" ctx } true hst1).2.2⟩

/-- The evaluator at fuel zero fails uniformly, so the level invariant
holds. -/
theorem levelOK_zero (reg : Registry) : LevelOK reg 0 := by
  refine ⟨?_, ?_, ?_, ?_, ?_, ?_, ?_, ?_, ?_, ?_⟩
  · intro asy v st ex hv hst
    refine ⟨rfl, ?_, ?_⟩
    · intro x st' hx; cases hx
    · intro w hw; injection hw with h1; cases h1
  · intro asy t st hst
    refine ⟨rfl, ?_, ?_⟩
    · intro x st' hx; cases hx
    · intro w hw; injection hw with h1; cases h1
  · intro asy t st hst
    refine ⟨rfl, ?_, ?_⟩
    · intro x st' hx; cases hx
    · intro w hw; injection hw with h1; cases h1
  · intro asy value st hv hst
    refine ⟨rfl, ?_, ?_⟩
    · intro x st' hx; cases hx
    · intro w hw; injection hw with h1; cases h1
  · intro vals st hvals hst
    refine ⟨?_, ?_⟩
    · intro x st' hx; cases hx
    · intro w hw; injection hw with h1; cases h1
  · intro fn args st native hfn hargs hst
    refine ⟨?_, ?_⟩
    · intro x st' hx; cases hx
    · intro w hw; injection hw with h1; cases h1
  · intro d st hst
    refine ⟨?_, ?_⟩
    · intro x st' hx; cases hx
    · intro w hw; injection hw with h1; cases h1
  · intro asy sc st ex hst
    refine ⟨rfl, ?_, ?_⟩
    · intro x st' hx; cases hx
    · intro w hw; injection hw with h1; cases h1
  · intro asy command st ex hst
    refine ⟨rfl, ?_, ?_⟩
    · intro x st' hx; cases hx
    · intro w hw; injection hw with h1; cases h1
  · intro asy command st ctx hst hctx
    refine ⟨rfl, ?_, ?_⟩
    · intro x st' hx; cases hx
    · intro w hw; injection hw with h1; cases h1

/-- One fuel step of the whole level invariant. -/
theorem levelOK_succ {reg : Registry} (hreg : noPromReg reg) {f : Nat}
    (ih : LevelOK reg f) : LevelOK reg (f + 1) :=
  ⟨step_convert ih, step_math ih, step_var ih, step_iv ih, step_param ih,
   step_fn hreg ih, step_thunk ih, step_cmd ih, step_xsh ih, step_parse ih⟩

/-- The level invariant holds at every fuel. -/
theorem levelOK_all {reg : Registry} (hreg : noPromReg reg) : ∀ f, LevelOK reg f
  | 0 => levelOK_zero reg
  | f + 1 => levelOK_succ hreg (levelOK_all hreg f)

/-- Claim C1 (confirmed): over a registry whose callbacks and argument
defaults are deferred-free, a deferred-free state and a deferred-free
context value, evaluating with the async flag set — where every rule
result is awaited (`awRes`/`aw`), each operator dispatches its
`callbackAsync` fold and converted lists are awaited element-wise —
returns exactly the synchronous result: every `await` is the identity
because the invariant shows no intermediate value or scope entry is ever
a deferred value. -/
theorem c1_sync_async_agreement (reg : Registry) (f : Nat) (asy : Bool) (command : String)
    (st : St) (ctx : Value) (hreg : noPromReg reg) (hst : st.noPromSt = true)
    (hctx : noProm ctx = true) :
    parse reg f asy command st ctx = parse reg f false command st ctx :=
  ((levelOK_all hreg f).2.2.2.2.2.2.2.2.2 asy command st ctx hst hctx).1

/-- Claim C1, witness: async and sync agree on `1+2` in the empty
registry, state and a null context. -/
theorem c1_sync_async_agreement_witness :
    noPromReg [] ∧ St.noPromSt ⟨[], []⟩ = true ∧ noProm Value.vnull = true ∧
    parse [] 20 true "1+2" ⟨[], []⟩ .vnull = parse [] 20 false "1+2" ⟨[], []⟩ .vnull :=
  ⟨fun p hp => absurd hp (List.not_mem_nil p), rfl, rfl,
   c1_sync_async_agreement [] 20 true "1+2" ⟨[], []⟩ .vnull
     (fun p hp => absurd hp (List.not_mem_nil p)) rfl rfl⟩

end Xsh
